import Mathlib

/-!
# Hindley-Milner unification: a verification development

A shallow embedding of `src/unification.hpp` (type terms, `replace`, `occurs`,
the worklist `unifier`), of `src/inference.hpp` (`definitive`, `environment`,
`fresh_maker`, the `inferencer` and its scope objects, `infer_type`), of the
expression tree of `src/syntax.hpp` and of the examples of `src/demo.cpp`,
followed by theorems about them.

Conventions of the embedding.

* `type_variable` is its `std::size_t` id, a `Nat`.
* `std::map<type_variable, type>` is a list of key/value pairs kept strictly
  increasing in the key (the iteration order of the map); `map_assign` is
  `m[k] = v`, `map_find` is `m.find(k)`, `map_count` is `m.count(k)`.
* `m_stack` (a `std::vector` used as a stack) is a list whose head is the back
  of the vector: `push_back` is cons, `back`/`pop_back` take the head.
* A loop that may run forever takes a fuel argument and returns `none` when the
  fuel runs out; a result `some r` means the C++ loop has stopped with `r`.
* An exception is a value: `unify` either returns or throws, and in both cases
  the caller's substitution (passed by reference) is left in some state.
* A map that the program only looks up and assigns by key (the environment,
  `m_mappings`) is a partial function; a `std::set` is a strictly increasing list.
* An inference rule maps the state of the inferencer to the returned type or the
  thrown exception together with the state left behind, the scope objects of the
  rule having been destroyed.
-/

namespace unification

/-- A type term: `boost::variant<type_variable, recursive_wrapper<type_operator>>`.
`var i` is the type variable with id `i`; `op k ts` is a type operator of kind
`k` whose children are `ts`. -/
inductive type where
  | var : Nat → type
  | op : Nat → List type → type

/-- A constraint, `std::pair<type, type>`. -/
abbrev constraint := type × type

/-- The substitution, `std::map<type_variable, type>`, as its key-ordered entries. -/
abbrev substitution := List (Nat × type)

mutual
/-- Decision procedure for equality of two types. -/
def type.decEq : (a b : type) → Decidable (a = b)
  | .var a, .var b => if h : a = b then isTrue (by rw [h]) else isFalse (by intro e; cases e; exact h rfl)
  | .var _, .op _ _ => isFalse (by intro e; cases e)
  | .op _ _, .var _ => isFalse (by intro e; cases e)
  | .op k xs, .op l ys =>
      if h : k = l then
        match type.decEqList xs ys with
        | isTrue h2 => isTrue (by rw [h, h2])
        | isFalse h2 => isFalse (by intro e; cases e; exact h2 rfl)
      else isFalse (by intro e; cases e; exact h rfl)
/-- Decision procedure for equality of two lists of types. -/
def type.decEqList : (xs ys : List type) → Decidable (xs = ys)
  | [], [] => isTrue rfl
  | [], _ :: _ => isFalse (by intro e; cases e)
  | _ :: _, [] => isFalse (by intro e; cases e)
  | x :: xs, y :: ys =>
      match type.decEq x y with
      | isTrue h1 =>
          match type.decEqList xs ys with
          | isTrue h2 => isTrue (by rw [h1, h2])
          | isFalse h2 => isFalse (by intro e; cases e; exact h2 rfl)
      | isFalse h1 => isFalse (by intro e; cases e; exact h1 rfl)
end

instance : DecidableEq type := type.decEq

mutual
/-- The function `detail::replace`: every occurrence of the variable `replace_me` in `x`
becomes `replacement`. -/
def replace : type → Nat → type → type
  | .var v, replace_me, replacement => if v = replace_me then replacement else .var v
  | .op k ts, replace_me, replacement => .op k (replace_list ts replace_me replacement)
/-- The `std::for_each` of `detail::replace` over the children of an operator. -/
def replace_list : List type → Nat → type → List type
  | [], _, _ => []
  | t :: ts, replace_me, replacement =>
      replace t replace_me replacement :: replace_list ts replace_me replacement
end

mutual
/-- The function `detail::occurs`: does the variable `needle` occur in `haystack`? -/
def occurs : type → Nat → Bool
  | .var v, needle => v == needle
  | .op _ ts, needle => occurs_list ts needle
/-- The `std::any_of` of `detail::occurs` over the children of an operator. -/
def occurs_list : List type → Nat → Bool
  | [], _ => false
  | t :: ts, needle => occurs t needle || occurs_list ts needle
end

/-- The method `type_operator::compare_kind` on two operators given by kind and children:
same kind and same number of children. -/
def compare_kind (k : Nat) (xs : List type) (l : Nat) (ys : List type) : Bool :=
  k == l && xs.length == ys.length

/-- The thrown exceptions `type_mismatch(x, y)` and `recursive_unification(x, y)`. -/
inductive error where
  | type_mismatch : type → type → error
  | recursive_unification : type → type → error
  deriving DecidableEq

/-- The lookup `m.find(k)` on a `std::map`: the value stored under `k`, if any. -/
def map_find : substitution → Nat → Option type
  | [], _ => none
  | (k, v) :: m, x => if x = k then some v else map_find m x

/-- The test `m.count(k)` on a `std::map`, as a Boolean. -/
def map_count (m : substitution) (x : Nat) : Bool := (map_find m x).isSome

/-- The assignment `m[k] = v` on a `std::map`: overwrite the value of an existing key,
otherwise insert the entry at its place in key order. -/
def map_assign : substitution → Nat → type → substitution
  | [], x, y => [(x, y)]
  | (k, v) :: m, x, y =>
      if x < k then (x, y) :: (k, v) :: m
      else if x = k then (k, y) :: m
      else (k, v) :: map_assign m x y

/-- The state of a `detail::unifier`: the pending constraints `m_stack` (head = back of
the vector) and the referenced substitution `m_substitution`. -/
structure unifier where
  m_stack : List constraint
  m_substitution : substitution
  deriving DecidableEq

/-- The method `unifier::eliminate`: replace `x` by `y` in both sides of every stacked
constraint and in every value of the substitution, then set `m_substitution[x] = y`. -/
def eliminate (u : unifier) (x : Nat) (y : type) : unifier :=
  { m_stack := u.m_stack.map (fun c => (replace c.1 x y, replace c.2 x y)),
    m_substitution :=
      map_assign (u.m_substitution.map (fun e => (e.1, replace e.2 x y))) x y }

/-- The loop of `unifier::operator()(type_operator, type_operator)` that pushes the pairs
of corresponding children, first pair first (so the last pair ends on top). -/
def push_children : List type → List type → List constraint → List constraint
  | x :: xs, y :: ys, stack => push_children xs ys ((x, y) :: stack)
  | _, _, stack => stack

/-- The four overloads of `unifier::operator()(x, y)` chosen by `boost::apply_visitor`:
the effect on the unifier of visiting the constraint `(x, y)`, or the exception thrown. -/
def visit (u : unifier) : type → type → Except error unifier
  | .var x, .var y => if x ≠ y then .ok (eliminate u x (.var y)) else .ok u
  | .var x, .op l ys =>
      if occurs (.op l ys) x then .error (.recursive_unification (.var x) (.op l ys))
      else .ok (eliminate u x (.op l ys))
  | .op k xs, .var y =>
      if occurs (.op k xs) y then .error (.recursive_unification (.var y) (.op k xs))
      else .ok (eliminate u y (.op k xs))
  | .op k xs, .op l ys =>
      if !compare_kind k xs l ys then .error (.type_mismatch (.op k xs) (.op l ys))
      else .ok { u with m_stack := push_children xs ys u.m_stack }

/-- How a call of `unify` ends: it returns, or it throws; either way the substitution
that was passed by reference is left with some content. -/
inductive result where
  | returned : substitution → result
  | threw : error → substitution → result
  deriving DecidableEq

/-- The constructor of `detail::unifier`: the stack holds the given constraints and, above
them, the entries of the substitution (the one with the largest key on top); the
substitution itself is cleared. -/
def unifier.init (constraints : List constraint) (s : substitution) : unifier :=
  { m_stack := (s.map (fun e => (type.var e.1, e.2))).reverse ++ constraints.reverse,
    m_substitution := [] }

/-- The worklist loop `unifier::operator()(void)`, with one unit of fuel per iteration:
`some r` when the loop has stopped with `r`, `none` when the fuel ran out first. -/
def unifier.run : Nat → unifier → Option result
  | fuel, u =>
      match u.m_stack with
      | [] => some (.returned u.m_substitution)
      | (x, y) :: rest =>
          match fuel with
          | 0 => none
          | fuel + 1 =>
              match visit { u with m_stack := rest } x y with
              | .error e => some (.threw e u.m_substitution)
              | .ok u1 => unifier.run fuel u1

/-- The function `unify(first_constraint, last_constraint, substitution)`. -/
def unify (fuel : Nat) (constraints : List constraint) (s : substitution) : Option result :=
  unifier.run fuel (unifier.init constraints s)

/-- The single-constraint overload `unify(x, y, substitution)`. -/
def unify_pair (fuel : Nat) (x y : type) (s : substitution) : Option result :=
  unify fuel [(x, y)] s

end unification

namespace inference

open unification

/-- The kinds of `inference::types`. -/
def types.integer : Nat := 0
/-- The kind of the Boolean base type. -/
def types.boolean : Nat := 1
/-- The kind of function types. -/
def types.function : Nat := 2
/-- The kind of pair types. -/
def types.pair : Nat := 3

/-- The function type `arg -> result`. -/
def make_function (arg result : type) : type := .op types.function [arg, result]
/-- The base type of integers. -/
def integer : type := .op types.integer []
/-- The base type of Booleans. -/
def boolean : type := .op types.boolean []
/-- The pair type. -/
def pair (first second : type) : type := .op types.pair [first, second]

/-- The loop of `definitive`: while the result is a variable that is a key of the
substitution, the result becomes the value stored under it. One unit of fuel per
iteration; `none` when the fuel runs out. -/
def definitive_loop : Nat → substitution → type → Option type
  | _, _, .op k ts => some (.op k ts)
  | fuel, s, .var v =>
      match map_find s v with
      | none => some (.var v)
      | some t =>
          match fuel with
          | 0 => none
          | fuel + 1 => definitive_loop fuel s t

/-- The function `definitive(substitution, x)`. -/
def definitive (fuel : Nat) (s : substitution) (x : Nat) : Option type :=
  definitive_loop fuel s (.var x)

end inference

namespace ast

/-- A node of the expression tree of `syntax.hpp`: the variant over `integer_literal`,
`identifier`, `apply`, `lambda`, `let` and `letrec` (`let_` here, `let` being reserved). -/
inductive node where
  | integer_literal (value : Int)
  | identifier (name : String)
  | apply (function argument : node)
  | lambda (parameter : String) (body : node)
  | let_ (name : String) (definition body : node)
  | letrec (name : String) (definition body : node)

end ast

namespace inference

open unification ast

/-- The class `environment`: a `std::map<std::string, type>` together with the id counter
`m_next_id`. The map is only looked up, assigned and erased by key, never iterated, so it
is a partial function from names to types. The counter is a natural number (a
`std::size_t` that would need 2^64 allocations to wrap). -/
structure environment where
  bindings : String → Option type
  m_next_id : Nat

/-- The default-constructed `environment`: no binding, counter 0. -/
def environment.empty : environment := { bindings := fun _ => none, m_next_id := 0 }

/-- The method `environment::unique_id`: returns `m_next_id++`. -/
def environment.unique_id (env : environment) : Nat × environment :=
  (env.m_next_id, { env with m_next_id := env.m_next_id + 1 })

/-- The lookup `env.find(name)` (and `env.count(name)`, `env[name]` on a present key). -/
def environment.find (env : environment) (name : String) : Option type := env.bindings name

/-- The assignment `env[name] = t`, which is also `iter->second = t` on the entry of
`name` and `env.insert((name, t))` when `name` is absent. -/
def environment.assign (env : environment) (name : String) (t : type) : environment :=
  { env with bindings := fun n => if n = name then some t else env.bindings n }

/-- The removal `env.erase(iter)` of the entry of `name`. -/
def environment.erase (env : environment) (name : String) : environment :=
  { env with bindings := fun n => if n = name then none else env.bindings n }

/-- The call `set.insert(v)` on a `std::set<type_variable>` (a strictly increasing list):
the new set, and whether the element was inserted. -/
def set_insert : List Nat → Nat → List Nat × Bool
  | [], v => ([v], true)
  | a :: l, v =>
      if v < a then (v :: a :: l, true)
      else if v = a then (a :: l, false)
      else ((a :: (set_insert l v).1), (set_insert l v).2)

/-- The call `set.erase(iter)` for the iterator of the element `v`. -/
def set_erase : List Nat → Nat → List Nat
  | [], _ => []
  | a :: l, v => if a = v then l else a :: set_erase l v

/-- The state of a `fresh_maker`: the referenced environment (whose counter it advances),
the referenced non-generic set and substitution, and its own `m_mappings` (a
`std::map<type_variable, type_variable>` that is only looked up and assigned). -/
structure fresh_maker where
  m_env : environment
  m_non_generic : List Nat
  m_substitution : substitution
  m_mappings : Nat → Option Nat

/-- The loop of `fresh_maker::is_generic`: does `var` occur in the definitive form of a
member of the non-generic set? The loop stops at the first member where it does. -/
def is_generic_loop (fuel : Nat) (s : substitution) : List Nat → Nat → Option Bool
  | [], _ => some false
  | i :: rest, var =>
      match definitive fuel s i with
      | none => none
      | some d => if occurs d var then some true else is_generic_loop fuel s rest var

/-- The method `fresh_maker::is_generic`. -/
def fresh_maker.is_generic (fuel : Nat) (fm : fresh_maker) (var : Nat) : Option Bool :=
  match is_generic_loop fuel fm.m_substitution fm.m_non_generic var with
  | none => none
  | some o => some (!o)

/-- The overload `fresh_maker::operator()(const type_variable &)`: a generic variable is
replaced by the variable recorded for it in `m_mappings`, minted on first sight; a
non-generic variable is returned as it is. -/
def fresh_maker.visit_variable (fuel : Nat) (fm : fresh_maker) (var : Nat) :
    Option (type × fresh_maker) :=
  match fm.is_generic fuel var with
  | none => none
  | some true =>
      match fm.m_mappings var with
      | some w => some (.var w, fm)
      | none =>
          some (.var fm.m_env.unique_id.1,
            { fm with
              m_env := fm.m_env.unique_id.2
              m_mappings := fun v => if v = var then some fm.m_env.unique_id.1
                else fm.m_mappings v })
  | some false => some (.var var, fm)

/-- The `std::transform` of a stateful function object over the children of an operator,
first child first. -/
def transform (f : fresh_maker → type → Option (type × fresh_maker)) :
    fresh_maker → List type → Option (List type × fresh_maker)
  | fm, [] => some ([], fm)
  | fm, t :: ts =>
      match f fm t with
      | none => none
      | some (t1, fm1) =>
          match transform f fm1 ts with
          | none => none
          | some (ts1, fm2) => some (t1 :: ts1, fm2)

/-- The overload `fresh_maker::operator()(const type &)`, which is what the children of an
operator are visited with. A variable is first resolved by `definitive`, and the result is
visited as a variable or as an operator; `operator()(const type_operator &)` transforms
the children and rebuilds an operator of the same kind. The fuel bounds the depth of the
recursion and every `definitive` loop. -/
def fresh_maker.call : Nat → fresh_maker → type → Option (type × fresh_maker)
  | 0, _, _ => none
  | fuel + 1, fm, x =>
      match x with
      | .op k ts =>
          match transform (fun fm1 t => fresh_maker.call fuel fm1 t) fm ts with
          | none => none
          | some (ts1, fm1) => some (.op k ts1, fm1)
      | .var v =>
          match definitive (fuel + 1) fm.m_substitution v with
          | none => none
          | some (.var w) => fm.visit_variable (fuel + 1) w
          | some (.op k ts) =>
              match transform (fun fm1 t => fresh_maker.call fuel fm1 t) fm ts with
              | none => none
              | some (ts1, fm1) => some (.op k ts1, fm1)

/-- What the inference rules throw: `std::runtime_error(what)` for an undefined symbol,
and the two exceptions of `unify`. -/
inductive exception where
  | runtime_error (what : String)
  | type_mismatch (x y : type)
  | recursive_unification (x y : type)
  deriving DecidableEq

/-- An exception of `unify`, as it propagates through the inference rules. -/
def exception.of_error : error → exception
  | .type_mismatch x y => .type_mismatch x y
  | .recursive_unification x y => .recursive_unification x y

/-- The state of an `inferencer`. -/
structure inferencer where
  m_environment : environment
  m_non_generic_variables : List Nat
  m_substitution : substitution

/-- A live `scoped_generic`: the name it bound and `m_restore`, which is `some val` when
the name was bound to `val` before and `none` when it was absent. -/
structure scoped_generic where
  name : String
  m_restore : Option type

/-- The constructor of `scoped_generic`: remember the prior binding of `name`, bind it
to `t`. -/
def scoped_generic.enter (env : environment) (name : String) (t : type) :
    scoped_generic × environment :=
  match env.find name with
  | some val => ({ name := name, m_restore := some val }, env.assign name t)
  | none => ({ name := name, m_restore := none }, env.assign name t)

/-- The destructor of `scoped_generic`: put the prior value back, or erase the entry. -/
def scoped_generic.leave (sc : scoped_generic) (env : environment) : environment :=
  match sc.m_restore with
  | some val => env.assign sc.name val
  | none => env.erase sc.name

/-- A live `scoped_non_generic_variable`: its `scoped_generic` base, the variable, and the
flag of `m_erase_me` (whether the variable was inserted in the non-generic set). -/
structure scoped_non_generic_variable where
  base : scoped_generic
  var : Nat
  m_erase_me : Bool

/-- The constructor of `scoped_non_generic_variable`. -/
def scoped_non_generic_variable.enter (inf : inferencer) (name : String) (var : Nat) :
    scoped_non_generic_variable × inferencer :=
  ({ base := (scoped_generic.enter inf.m_environment name (.var var)).1
     var := var
     m_erase_me := (set_insert inf.m_non_generic_variables var).2 },
   { inf with
     m_environment := (scoped_generic.enter inf.m_environment name (.var var)).2
     m_non_generic_variables := (set_insert inf.m_non_generic_variables var).1 })

/-- The destructor of `scoped_non_generic_variable`, followed by that of its base. -/
def scoped_non_generic_variable.leave (sc : scoped_non_generic_variable) (inf : inferencer) :
    inferencer :=
  { inf with
    m_environment := sc.base.leave inf.m_environment
    m_non_generic_variables :=
      if sc.m_erase_me then set_erase inf.m_non_generic_variables sc.var
      else inf.m_non_generic_variables }

/-- The end of a rule that calls `unify(x, y, m_substitution)` and returns
`definitive(m_substitution, r)`: the exception of `unify` propagates, leaving the
substitution as `unify` left it. -/
def inferencer.unify_and_resolve (fuel : Nat) (inf : inferencer) (x y : type) (r : Nat) :
    Option (Except exception type × inferencer) :=
  match unify_pair fuel x y inf.m_substitution with
  | none => none
  | some (.threw e s) => some (.error (.of_error e), { inf with m_substitution := s })
  | some (.returned s) =>
      match definitive fuel s r with
      | none => none
      | some t => some (.ok t, { inf with m_substitution := s })

/-- The overloads of `inferencer::operator()` chosen by `boost::apply_visitor`: the rule of
each node kind. The result is the returned type or the thrown exception, with the state
the inferencer is left in once the scope object `s` of the rule is destroyed (it is, on
return and on a throw alike; `auto s = scoped_...(...)` constructs it in place, without a
copy); `none` when some loop ran out of fuel. -/
def inferencer.visit (fuel : Nat) : node → inferencer → Option (Except exception type × inferencer)
  | .integer_literal _, inf => some (.ok integer, inf)
  | .identifier name, inf =>
      match inf.m_environment.find name with
      | none => some (.error (.runtime_error ("Undefined symbol " ++ name)), inf)
      | some freshen_me =>
          match fresh_maker.call fuel
              { m_env := inf.m_environment
                m_non_generic := inf.m_non_generic_variables
                m_substitution := inf.m_substitution
                m_mappings := fun _ => none } freshen_me with
          | none => none
          | some (t, fm) => some (.ok t, { inf with m_environment := fm.m_env })
  | .apply function argument, inf =>
      match inferencer.visit fuel function inf with
      | none => none
      | some (.error e, inf1) => some (.error e, inf1)
      | some (.ok fun_type, inf1) =>
          match inferencer.visit fuel argument inf1 with
          | none => none
          | some (.error e, inf2) => some (.error e, inf2)
          | some (.ok arg_type, inf2) =>
              inferencer.unify_and_resolve fuel
                { inf2 with m_environment := inf2.m_environment.unique_id.2 }
                (make_function arg_type (.var inf2.m_environment.unique_id.1)) fun_type
                inf2.m_environment.unique_id.1
  | .lambda parameter body, inf =>
      let arg_type := inf.m_environment.unique_id.1
      let s := scoped_non_generic_variable.enter
        { inf with m_environment := inf.m_environment.unique_id.2 } parameter arg_type
      match inferencer.visit fuel body s.2 with
      | none => none
      | some (.error e, inf1) => some (.error e, s.1.leave inf1)
      | some (.ok body_type, inf1) =>
          match inferencer.unify_and_resolve fuel
              { inf1 with m_environment := inf1.m_environment.unique_id.2 }
              (.var inf1.m_environment.unique_id.1) (make_function (.var arg_type) body_type)
              inf1.m_environment.unique_id.1 with
          | none => none
          | some (r, inf2) => some (r, s.1.leave inf2)
  | .let_ name definition body, inf =>
      match inferencer.visit fuel definition inf with
      | none => none
      | some (.error e, inf1) => some (.error e, inf1)
      | some (.ok defn_type, inf1) =>
          let s := scoped_generic.enter inf1.m_environment name defn_type
          match inferencer.visit fuel body { inf1 with m_environment := s.2 } with
          | none => none
          | some (r, inf2) => some (r, { inf2 with m_environment := s.1.leave inf2.m_environment })
  | .letrec name definition body, inf =>
      let new_type := inf.m_environment.unique_id.1
      let s := scoped_non_generic_variable.enter
        { inf with m_environment := inf.m_environment.unique_id.2 } name new_type
      match inferencer.visit fuel definition s.2 with
      | none => none
      | some (.error e, inf1) => some (.error e, s.1.leave inf1)
      | some (.ok definition_type, inf1) =>
          match unify_pair fuel (.var new_type) definition_type inf1.m_substitution with
          | none => none
          | some (.threw e sub) =>
              some (.error (.of_error e), s.1.leave { inf1 with m_substitution := sub })
          | some (.returned sub) =>
              match inferencer.visit fuel body { inf1 with m_substitution := sub } with
              | none => none
              | some (r, inf2) => some (r, s.1.leave inf2)

/-- The function `infer_type(node, env)`: a new inferencer on a copy of `env`, with an
empty non-generic set and an empty substitution, visits the node. -/
def infer_type (fuel : Nat) (n : node) (env : environment) : Option (Except exception type) :=
  match inferencer.visit fuel n
      { m_environment := env, m_non_generic_variables := [], m_substitution := [] } with
  | none => none
  | some (r, _) => some r

/-- The environment built by `main` in `demo.cpp`: three variables are allocated, then
`pair`, `true`, `cond`, `zero`, `pred` and `times` are bound. -/
def demo_environment : environment :=
  let env := environment.empty
  let var1 := env.unique_id.1
  let env := env.unique_id.2
  let var2 := env.unique_id.1
  let env := env.unique_id.2
  let var3 := env.unique_id.1
  let env := env.unique_id.2
  let env := env.assign "pair"
    (make_function (.var var1) (make_function (.var var2) (pair (.var var1) (.var var2))))
  let env := env.assign "true" boolean
  let env := env.assign "cond"
    (make_function boolean (make_function (.var var3) (make_function (.var var3) (.var var3))))
  let env := env.assign "zero" (make_function integer boolean)
  let env := env.assign "pred" (make_function integer integer)
  env.assign "times" (make_function integer (make_function integer integer))

/-- The example `pair (f 4) (f true)` of `demo.cpp`. -/
def demo_pair : node :=
  .apply (.apply (.identifier "pair") (.apply (.identifier "f") (.integer_literal 4)))
    (.apply (.identifier "f") (.identifier "true"))

/-- The example `let f = (fn x => x) in ((pair (f 4)) (f true))` of `demo.cpp`. -/
def demo_let_f : node := .let_ "f" (.lambda "x" (.identifier "x")) demo_pair

/-- The example `letrec factorial = ... in factorial 5` of `demo.cpp`. -/
def demo_factorial : node :=
  .letrec "factorial"
    (.lambda "n"
      (.apply
        (.apply
          (.apply (.identifier "cond") (.apply (.identifier "zero") (.identifier "n")))
          (.integer_literal 1))
        (.apply
          (.apply (.identifier "times") (.identifier "n"))
          (.apply (.identifier "factorial") (.apply (.identifier "pred") (.identifier "n"))))))
    (.apply (.identifier "factorial") (.integer_literal 5))

/-- The example `fn x => (pair (x 3)) (x true)` of `demo.cpp`. -/
def demo_fn_x : node :=
  .lambda "x"
    (.apply (.apply (.identifier "pair") (.apply (.identifier "x") (.integer_literal 3)))
      (.apply (.identifier "x") (.identifier "true")))

/-- The example `fn f => f f` of `demo.cpp`. -/
def demo_fn_f : node := .lambda "f" (.apply (.identifier "f") (.identifier "f"))

/-- The example `let g = fn f => 5 in g g` of `demo.cpp`. -/
def demo_let_g : node :=
  .let_ "g" (.lambda "f" (.integer_literal 5)) (.apply (.identifier "g") (.identifier "g"))

/-- The expression `letrec f = fn x => x in pair (f 4) (f true)`: the `let f` example of
`demo.cpp` written with `letrec`. -/
def demo_letrec_f : node := .letrec "f" (.lambda "x" (.identifier "x")) demo_pair

/-- The example `fn g => let f = fn x => g in pair (f 3) (f true)` of `demo.cpp`. -/
def demo_fn_g : node :=
  .lambda "g"
    (.let_ "f" (.lambda "x" (.identifier "g"))
      (.apply (.apply (.identifier "pair") (.apply (.identifier "f") (.integer_literal 3)))
        (.apply (.identifier "f") (.identifier "true"))))

/-- Equality of two outcomes (a returned value or a thrown exception) is decidable. -/
instance decEqExcept {ε α : Type} [DecidableEq ε] [DecidableEq α] :
    DecidableEq (Except ε α) := fun a b =>
  match a, b with
  | .ok x, .ok y =>
      if h : x = y then isTrue (by rw [h]) else isFalse (by intro e; cases e; exact h rfl)
  | .error x, .error y =>
      if h : x = y then isTrue (by rw [h]) else isFalse (by intro e; cases e; exact h rfl)
  | .ok _, .error _ => isFalse (by intro e; cases e)
  | .error _, .ok _ => isFalse (by intro e; cases e)

end inference

/-! ## Vocabulary of the statements

The notions below are not functions of the program; they are what the statements about
it are written in. -/

namespace unification

mutual
/-- The type `t` with every variable `v` replaced, all at once, by `θ v`: an assignment
of types to variables, extended to types. -/
def assign (θ : Nat → type) : type → type
  | .var v => θ v
  | .op k ts => .op k (assign_list θ ts)
/-- The assignment `θ` applied to each type of a list. -/
def assign_list (θ : Nat → type) : List type → List type
  | [] => []
  | t :: ts => assign θ t :: assign_list θ ts
end

/-- The binding of the variable `v` in `s`: its value when `v` is a key, else `v` itself. -/
def binding (s : substitution) (v : Nat) : type := (map_find s v).getD (.var v)

/-- The type `t` with every variable that is a key of `s` replaced by its value in `s`. -/
def apply (s : substitution) (t : type) : type := assign (binding s) t

mutual
/-- Number of nodes of a type. -/
def size : type → Nat
  | .var _ => 1
  | .op _ ts => 1 + size_list ts
/-- Number of nodes of a list of types. -/
def size_list : List type → Nat
  | [] => 0
  | t :: ts => size t + size_list ts
end

mutual
/-- The set of variables of a type. -/
def vars : type → Finset Nat
  | .var v => {v}
  | .op _ ts => vars_list ts
/-- The set of variables of a list of types. -/
def vars_list : List type → Finset Nat
  | [] => ∅
  | t :: ts => vars t ∪ vars_list ts
end

/-- The set of variables of the constraints on a stack. -/
def stack_vars : List constraint → Finset Nat
  | [] => ∅
  | c :: cs => vars c.1 ∪ vars c.2 ∪ stack_vars cs

/-- Total number of nodes of the constraints on a stack. -/
def stack_size : List constraint → Nat
  | [] => 0
  | c :: cs => size c.1 + size c.2 + stack_size cs

/-- The well-formedness of a `std::map`: the entries are strictly increasing in the key. -/
def ordered (s : substitution) : Prop := s.Pairwise (fun a b => a.1 < b.1)

/-- Solved form: no variable that is a key of `s` occurs in a value of `s`. -/
def solved (s : substitution) : Prop :=
  ∀ e ∈ s, ∀ e1 ∈ s, occurs e1.2 e.1 = false

/-- The substitutions produced by earlier successful `unify` calls: the empty one, and
what a returning call of `unify` leaves when started on such a substitution. -/
inductive produced : substitution → Prop where
  | empty : produced []
  | call (s : substitution) (constraints : List constraint) (fuel : Nat) (s1 : substitution) :
      produced s → unify fuel constraints s = some (.returned s1) → produced s1

/-- One step of following bindings: `k` is a key of `s` and `w` occurs in its value. -/
def binds (s : substitution) (k w : Nat) : Prop :=
  ∃ v, map_find s k = some v ∧ occurs v w = true

/-- The variable `w` is reached from `k` by following bindings of `s` one or more times. -/
def reaches (s : substitution) (k w : Nat) : Prop := Relation.TransGen (binds s) k w

/-- One iteration of the loop of `definitive`: `k` is a key of `s` whose value is the
variable `w`. -/
def follows (s : substitution) (k w : Nat) : Prop := map_find s k = some (.var w)

/-- An acyclic substitution: no variable reaches itself by following bindings. -/
def acyclic (s : substitution) : Prop := ∀ v, ¬ reaches s v v

/-- The assignment `θ` satisfies every constraint on the stack of `u` and every binding
of the substitution of `u`. -/
def solves (θ : Nat → type) (u : unifier) : Prop :=
  (∀ c ∈ u.m_stack, assign θ c.1 = assign θ c.2) ∧
  (∀ e ∈ u.m_substitution, θ e.1 = assign θ e.2)

/-- The loop invariant of the unifier: the substitution is a well-formed map in solved
form, and none of its keys occurs in a pending constraint. -/
def unifier.inv (u : unifier) : Prop :=
  ordered u.m_substitution ∧ solved u.m_substitution ∧
  ∀ e ∈ u.m_substitution, ∀ c ∈ u.m_stack, occurs c.1 e.1 = false ∧ occurs c.2 e.1 = false

/-- The type `t` after replacing, one entry after the other, the key of each entry of `r`
by its value: what the eliminations of the entries `r` do to a pending type. -/
def replace_each (r : List (Nat × type)) (t : type) : type :=
  r.foldl (fun acc e => replace acc e.1 e.2) t

/-- A definitive result with respect to `s`: a type-operator term, or a type variable
that is not a key of `s`. -/
def is_definitive (s : substitution) : type → Prop
  | .op _ _ => True
  | .var w => map_count s w = false

/-- Every variable occurring in `t` has an id below `c`. -/
def below (c : Nat) (t : type) : Prop := ∀ v, occurs t v = true → v < c

/-- Every key of `s` and every variable occurring in a value of `s` has an id below `c`. -/
def substitution_below (c : Nat) (s : substitution) : Prop :=
  ∀ e ∈ s, e.1 < c ∧ below c e.2

/-- Every variable of the pending constraints and of the substitution of `u` has an id
below `c`. -/
def unifier.below (c : Nat) (u : unifier) : Prop :=
  (∀ p ∈ u.m_stack, unification.below c p.1 ∧ unification.below c p.2) ∧
    substitution_below c u.m_substitution

end unification

namespace inference

open unification ast

/-- Every type variable occurring in a type of the environment is below its counter. -/
def environment.below (env : environment) : Prop :=
  ∀ name t, env.bindings name = some t → unification.below env.m_next_id t

/-- Every type variable in the keys and values of the substitution and in the non-generic
set of the inferencer is below the counter. -/
def inferencer.session_below (inf : inferencer) : Prop :=
  substitution_below inf.m_environment.m_next_id inf.m_substitution ∧
    ∀ n ∈ inf.m_non_generic_variables, n < inf.m_environment.m_next_id

/-- Every type variable in the substitution and the non-generic set a `fresh_maker` refers
to, and every variable it has minted, is below the counter. -/
def fresh_maker.below (fm : fresh_maker) : Prop :=
  substitution_below fm.m_env.m_next_id fm.m_substitution ∧
    (∀ n ∈ fm.m_non_generic, n < fm.m_env.m_next_id) ∧
    (∀ w u, fm.m_mappings w = some u → u < fm.m_env.m_next_id)

/-- The freshness invariant: every type variable occurring in the environment, in the keys
and values of the substitution and in the non-generic set is below the counter. -/
def inferencer.fresh_inv (inf : inferencer) : Prop :=
  inf.m_environment.below ∧ inf.session_below

/-- The type variable `v` is in use: it occurs in a type of the environment, is a key or
occurs in a value of the substitution, or is in the non-generic set. -/
def inferencer.in_use (inf : inferencer) (v : Nat) : Prop :=
  (∃ name t, inf.m_environment.bindings name = some t ∧ occurs t v = true) ∨
    (∃ e ∈ inf.m_substitution, e.1 = v ∨ occurs e.2 v = true) ∨
    v ∈ inf.m_non_generic_variables

/-- The points of an inference: `activation fuel e inf e1 p` says that, while the rule for
`e` runs from the state `inf`, the rule for the sub-expression `e1` is started in the
state `p`. It follows `inferencer.visit` rule by rule: a sub-expression is visited in the
state its rule is given, after the sub-expressions before it have returned a type. -/
inductive activation (fuel : Nat) : node → inferencer → node → inferencer → Prop where
  | here (e : node) (inf : inferencer) : activation fuel e inf e inf
  | apply_function {function argument : node} {inf : inferencer} {e1 : node} {p : inferencer} :
      activation fuel function inf e1 p → activation fuel (.apply function argument) inf e1 p
  | apply_argument {function argument : node} {inf inf1 : inferencer} {fun_type : type}
      {e1 : node} {p : inferencer} :
      inferencer.visit fuel function inf = some (.ok fun_type, inf1) →
      activation fuel argument inf1 e1 p → activation fuel (.apply function argument) inf e1 p
  | lambda_body {parameter : String} {body : node} {inf : inferencer} {e1 : node}
      {p : inferencer} :
      activation fuel body
        (scoped_non_generic_variable.enter
          { inf with m_environment := inf.m_environment.unique_id.2 } parameter
          inf.m_environment.unique_id.1).2 e1 p →
      activation fuel (.lambda parameter body) inf e1 p
  | let_definition {name : String} {definition body : node} {inf : inferencer} {e1 : node}
      {p : inferencer} :
      activation fuel definition inf e1 p → activation fuel (.let_ name definition body) inf e1 p
  | let_body {name : String} {definition body : node} {inf inf1 : inferencer}
      {defn_type : type} {e1 : node} {p : inferencer} :
      inferencer.visit fuel definition inf = some (.ok defn_type, inf1) →
      activation fuel body
        { inf1 with m_environment := (scoped_generic.enter inf1.m_environment name defn_type).2 }
        e1 p →
      activation fuel (.let_ name definition body) inf e1 p
  | letrec_definition {name : String} {definition body : node} {inf : inferencer} {e1 : node}
      {p : inferencer} :
      activation fuel definition
        (scoped_non_generic_variable.enter
          { inf with m_environment := inf.m_environment.unique_id.2 } name
          inf.m_environment.unique_id.1).2 e1 p →
      activation fuel (.letrec name definition body) inf e1 p
  | letrec_body {name : String} {definition body : node} {inf inf1 : inferencer}
      {definition_type : type} {sub : substitution} {e1 : node} {p : inferencer} :
      inferencer.visit fuel definition
        (scoped_non_generic_variable.enter
          { inf with m_environment := inf.m_environment.unique_id.2 } name
          inf.m_environment.unique_id.1).2 = some (.ok definition_type, inf1) →
      unify_pair fuel (.var inf.m_environment.unique_id.1) definition_type inf1.m_substitution =
        some (.returned sub) →
      activation fuel body { inf1 with m_substitution := sub } e1 p →
      activation fuel (.letrec name definition body) inf e1 p

/-- The points of an inference together with the binders around them:
`activation_under fuel e inf names e1 p` says what `activation fuel e inf e1 p` says, and
that `names` are the names bound by the lambda, let and letrec expressions of `e` that
enclose this occurrence of `e1`, innermost last: a lambda encloses its body, a let its
body (not its definition), a letrec its definition and its body. -/
inductive activation_under (fuel : Nat) :
    node → inferencer → List String → node → inferencer → Prop where
  | here (e : node) (inf : inferencer) : activation_under fuel e inf [] e inf
  | apply_function {function argument : node} {inf : inferencer} {names : List String}
      {e1 : node} {p : inferencer} :
      activation_under fuel function inf names e1 p →
      activation_under fuel (.apply function argument) inf names e1 p
  | apply_argument {function argument : node} {inf inf1 : inferencer} {fun_type : type}
      {names : List String} {e1 : node} {p : inferencer} :
      inferencer.visit fuel function inf = some (.ok fun_type, inf1) →
      activation_under fuel argument inf1 names e1 p →
      activation_under fuel (.apply function argument) inf names e1 p
  | lambda_body {parameter : String} {body : node} {inf : inferencer} {names : List String}
      {e1 : node} {p : inferencer} :
      activation_under fuel body
        (scoped_non_generic_variable.enter
          { inf with m_environment := inf.m_environment.unique_id.2 } parameter
          inf.m_environment.unique_id.1).2 names e1 p →
      activation_under fuel (.lambda parameter body) inf (parameter :: names) e1 p
  | let_definition {name : String} {definition body : node} {inf : inferencer}
      {names : List String} {e1 : node} {p : inferencer} :
      activation_under fuel definition inf names e1 p →
      activation_under fuel (.let_ name definition body) inf names e1 p
  | let_body {name : String} {definition body : node} {inf inf1 : inferencer}
      {defn_type : type} {names : List String} {e1 : node} {p : inferencer} :
      inferencer.visit fuel definition inf = some (.ok defn_type, inf1) →
      activation_under fuel body
        { inf1 with m_environment := (scoped_generic.enter inf1.m_environment name defn_type).2 }
        names e1 p →
      activation_under fuel (.let_ name definition body) inf (name :: names) e1 p
  | letrec_definition {name : String} {definition body : node} {inf : inferencer}
      {names : List String} {e1 : node} {p : inferencer} :
      activation_under fuel definition
        (scoped_non_generic_variable.enter
          { inf with m_environment := inf.m_environment.unique_id.2 } name
          inf.m_environment.unique_id.1).2 names e1 p →
      activation_under fuel (.letrec name definition body) inf (name :: names) e1 p
  | letrec_body {name : String} {definition body : node} {inf inf1 : inferencer}
      {definition_type : type} {sub : substitution} {names : List String} {e1 : node}
      {p : inferencer} :
      inferencer.visit fuel definition
        (scoped_non_generic_variable.enter
          { inf with m_environment := inf.m_environment.unique_id.2 } name
          inf.m_environment.unique_id.1).2 = some (.ok definition_type, inf1) →
      unify_pair fuel (.var inf.m_environment.unique_id.1) definition_type inf1.m_substitution =
        some (.returned sub) →
      activation_under fuel body { inf1 with m_substitution := sub } names e1 p →
      activation_under fuel (.letrec name definition body) inf (name :: names) e1 p

/-- The points of an instantiation: `variable_visit fuel fm x q w` says that, while
`fresh_maker.call fuel fm x` runs, the overload of `fresh_maker::operator()` for a type
variable is invoked on `w` in the state `q`: on the definitive form of `x` when that is
a variable, or inside a child of the operator, after the children before it have been
transformed. -/
inductive variable_visit : Nat → fresh_maker → type → fresh_maker → Nat → Prop where
  | direct {fuel : Nat} {fm : fresh_maker} {v w : Nat} :
      definitive (fuel + 1) fm.m_substitution v = some (.var w) →
      variable_visit (fuel + 1) fm (.var v) fm w
  | operator_child {fuel : Nat} {fm fm1 q : fresh_maker} {k : Nat} {seen rest rs : List type}
      {t : type} {w : Nat} :
      transform (fun fm2 t2 => fresh_maker.call fuel fm2 t2) fm seen = some (rs, fm1) →
      variable_visit fuel fm1 t q w →
      variable_visit (fuel + 1) fm (.op k (seen ++ t :: rest)) q w
  | resolved_child {fuel : Nat} {fm fm1 q : fresh_maker} {v k : Nat}
      {seen rest rs : List type} {t : type} {w : Nat} :
      definitive (fuel + 1) fm.m_substitution v = some (.op k (seen ++ t :: rest)) →
      transform (fun fm2 t2 => fresh_maker.call fuel fm2 t2) fm seen = some (rs, fm1) →
      variable_visit fuel fm1 t q w →
      variable_visit (fuel + 1) fm (.var v) q w

/-- A `fresh_maker` only advances the id counter and extends its own mappings: the
bindings of the environment, the non-generic set and the substitution stay. -/
def fresh_maker.frame (fm fm1 : fresh_maker) : Prop :=
  fm1.m_env.bindings = fm.m_env.bindings ∧ fm1.m_non_generic = fm.m_non_generic ∧
    fm1.m_substitution = fm.m_substitution ∧ fm.m_env.m_next_id ≤ fm1.m_env.m_next_id

/-- The type `t` with every variable `v` renamed to `ρ v`: same kinds, same arities, and
at every position of a variable `v` the variable `ρ v`. -/
def rename (ρ : Nat → Nat) (t : type) : type := assign (fun v => .var (ρ v)) t

/-- The variable `w` occurs in the definitive form of a member of the non-generic set `N`. -/
def non_generic_in (s : substitution) (N : List Nat) (w : Nat) : Prop :=
  ∃ n ∈ N, ∃ fuel d, definitive fuel s n = some d ∧ occurs d w = true

/-- The variable `w` occurs in the binding of a member of `N`, as a Boolean. -/
def occurs_in_non_generic (s : substitution) (N : List Nat) (w : Nat) : Bool :=
  N.any (fun n => occurs (binding s n) w)

/-- The renaming a `fresh_maker` stands for: a variable occurring in the binding of a
non-generic variable is kept, any other variable goes to what `m_mappings` records for it. -/
def fresh_maker.renaming (fm : fresh_maker) (w : Nat) : Nat :=
  if occurs_in_non_generic fm.m_substitution fm.m_non_generic w then w
  else (fm.m_mappings w).getD w

/-- The mappings of a `fresh_maker` are injective and their values are below the counter. -/
def fresh_maker.mappings_ok (fm : fresh_maker) : Prop :=
  (∀ w u, fm.m_mappings w = some u → u < fm.m_env.m_next_id) ∧
    (∀ w w1 u, fm.m_mappings w = some u → fm.m_mappings w1 = some u → w = w1)

/-- How a `fresh_maker` evolves: besides the frame, recorded mappings are kept and every
new one has a value minted in between, so injectivity and the bound are preserved. -/
def fresh_maker.extends_to (fm fm1 : fresh_maker) : Prop :=
  fm.frame fm1 ∧ (∀ w u, fm.m_mappings w = some u → fm1.m_mappings w = some u) ∧
    (∀ w u, fm1.m_mappings w = some u →
      fm.m_mappings w = some u ∨ (fm.m_env.m_next_id ≤ u ∧ u < fm1.m_env.m_next_id)) ∧
    (fm.mappings_ok → fm1.mappings_ok)

end inference

namespace unification

/-! ## Types: `replace`, `occurs`, assignments -/

mutual
theorem occurs_iff_mem_vars : ∀ (t : type) (x : Nat), occurs t x = true ↔ x ∈ vars t
  | .var v, x => by
      simp only [occurs, vars, beq_iff_eq, Finset.mem_singleton]
      exact eq_comm
  | .op _ ts, x => by simp [occurs, vars, occurs_list_iff_mem_vars ts x]
theorem occurs_list_iff_mem_vars : ∀ (ts : List type) (x : Nat),
    occurs_list ts x = true ↔ x ∈ vars_list ts
  | [], x => by simp [occurs_list, vars_list]
  | t :: ts, x => by
      simp [occurs_list, vars_list, occurs_iff_mem_vars t x, occurs_list_iff_mem_vars ts x]
end

mutual
theorem replace_of_not_occurs : ∀ (t : type) (x : Nat) (y : type),
    occurs t x = false → replace t x y = t
  | .var v, x, y, h => by
      have : v ≠ x := by simpa [occurs] using h
      simp [replace, this]
  | .op k ts, x, y, h => by
      simp only [occurs] at h
      simp [replace, replace_list_of_not_occurs ts x y h]
theorem replace_list_of_not_occurs : ∀ (ts : List type) (x : Nat) (y : type),
    occurs_list ts x = false → replace_list ts x y = ts
  | [], _, _, _ => by simp [replace_list]
  | t :: ts, x, y, h => by
      simp only [occurs_list, Bool.or_eq_false_iff] at h
      simp [replace_list, replace_of_not_occurs t x y h.1, replace_list_of_not_occurs ts x y h.2]
end

mutual
theorem assign_replace (θ : Nat → type) (x : Nat) (y : type) (h : θ x = assign θ y) :
    ∀ t : type, assign θ (replace t x y) = assign θ t
  | .var v => by
      by_cases hv : v = x
      · subst hv
        rw [replace, if_pos rfl, assign]
        exact h.symm
      · simp [replace, hv]
  | .op k ts => by simp [replace, assign, assign_replace_list θ x y h ts]
theorem assign_replace_list (θ : Nat → type) (x : Nat) (y : type) (h : θ x = assign θ y) :
    ∀ ts : List type, assign_list θ (replace_list ts x y) = assign_list θ ts
  | [] => by simp [replace_list]
  | t :: ts => by
      simp [replace_list, assign_list, assign_replace θ x y h t, assign_replace_list θ x y h ts]
end

mutual
theorem vars_replace_subset : ∀ (t : type) (x : Nat) (y : type),
    vars (replace t x y) ⊆ (vars t).erase x ∪ vars y
  | .var v, x, y => by
      by_cases hv : v = x
      · subst hv; simp [replace]
      · intro a; simp [replace, hv, vars]; intro h; subst h; exact Or.inl ⟨hv, rfl⟩
  | .op k ts, x, y => by simpa [replace, vars] using vars_replace_list_subset ts x y
theorem vars_replace_list_subset : ∀ (ts : List type) (x : Nat) (y : type),
    vars_list (replace_list ts x y) ⊆ (vars_list ts).erase x ∪ vars y
  | [], _, _ => by simp [replace_list, vars_list]
  | t :: ts, x, y => by
      intro a ha
      simp only [replace_list, vars_list, Finset.mem_union] at ha
      rcases ha with ha | ha
      · have := vars_replace_subset t x y ha
        simp only [Finset.mem_union, Finset.mem_erase, vars_list] at this ⊢
        tauto
      · have := vars_replace_list_subset ts x y ha
        simp only [Finset.mem_union, Finset.mem_erase, vars_list] at this ⊢
        tauto
end

theorem occurs_replace_false (t : type) (x : Nat) (y : type) (k : Nat)
    (ht : occurs t k = false) (hy : occurs y k = false) : occurs (replace t x y) k = false := by
  rw [Bool.eq_false_iff] at ht hy ⊢
  intro h
  rw [ne_eq, occurs_iff_mem_vars] at ht hy
  rw [occurs_iff_mem_vars] at h
  have := vars_replace_subset t x y h
  simp only [Finset.mem_union, Finset.mem_erase] at this
  tauto

theorem occurs_replace_self (t : type) (x : Nat) (y : type)
    (hy : occurs y x = false) : occurs (replace t x y) x = false := by
  rw [Bool.eq_false_iff] at hy ⊢
  intro h
  rw [ne_eq, occurs_iff_mem_vars] at hy
  rw [occurs_iff_mem_vars] at h
  have := vars_replace_subset t x y h
  simp only [Finset.mem_union, Finset.mem_erase] at this
  tauto

mutual
theorem size_le_size_assign_of_occurs (θ : Nat → type) (x : Nat) :
    ∀ t : type, occurs t x = true → size (θ x) ≤ size (assign θ t)
  | .var v, h => by
      have : v = x := by simpa [occurs] using h
      subst this
      rw [assign]
  | .op k ts, h => by
      simp only [occurs] at h
      have := size_le_size_assign_list_of_occurs θ x ts h
      rw [assign, size]
      omega
theorem size_le_size_assign_list_of_occurs (θ : Nat → type) (x : Nat) :
    ∀ ts : List type, occurs_list ts x = true → size (θ x) ≤ size_list (assign_list θ ts)
  | [], h => by simp [occurs_list] at h
  | t :: ts, h => by
      simp only [occurs_list, Bool.or_eq_true] at h
      rw [assign_list, size_list]
      rcases h with h | h
      · have := size_le_size_assign_of_occurs θ x t h
        omega
      · have := size_le_size_assign_list_of_occurs θ x ts h
        omega
end

/-- No assignment makes a variable equal to an operator term in which it occurs. -/
theorem assign_ne_of_occurs (θ : Nat → type) (x k : Nat) (ts : List type)
    (h : occurs (.op k ts) x = true) : θ x ≠ assign θ (.op k ts) := by
  intro e
  simp only [occurs] at h
  have h1 := size_le_size_assign_list_of_occurs θ x ts h
  have h2 : size (θ x) = size (assign θ (.op k ts)) := by rw [e]
  rw [assign, size] at h2
  omega

theorem length_assign_list (θ : Nat → type) :
    ∀ ts : List type, (assign_list θ ts).length = ts.length
  | [] => by simp [assign_list]
  | t :: ts => by simp [assign_list, length_assign_list θ ts]

/-! ## The map operations -/

theorem mem_map_assign {m : substitution} {x : Nat} {y : type} {e : Nat × type}
    (h : e ∈ map_assign m x y) : e = (x, y) ∨ e ∈ m := by
  induction m with
  | nil => simpa [map_assign] using h
  | cons a m ih =>
      obtain ⟨k, v⟩ := a
      simp only [map_assign] at h
      split_ifs at h with h1 h2
      · simp only [List.mem_cons] at h ⊢
        tauto
      · subst h2
        simp only [List.mem_cons] at h ⊢
        tauto
      · simp only [List.mem_cons] at h ⊢
        rcases h with h | h
        · tauto
        · have := ih h
          tauto

theorem mem_map_assign_self (m : substitution) (x : Nat) (y : type) :
    (x, y) ∈ map_assign m x y := by
  induction m with
  | nil => simp [map_assign]
  | cons a m ih =>
      obtain ⟨k, v⟩ := a
      simp only [map_assign]
      split_ifs with h1 h2
      · simp
      · subst h2; simp
      · simp [ih]

theorem mem_map_assign_of_mem {m : substitution} {x : Nat} {y : type} {e : Nat × type}
    (h : e ∈ m) (hne : e.1 ≠ x) : e ∈ map_assign m x y := by
  induction m with
  | nil => simp at h
  | cons a m ih =>
      obtain ⟨k, v⟩ := a
      simp only [map_assign]
      split_ifs with h1 h2
      · exact List.mem_cons_of_mem _ h
      · subst h2
        simp only [List.mem_cons] at h ⊢
        rcases h with h | h
        · subst h; exact absurd rfl hne
        · exact Or.inr h
      · simp only [List.mem_cons] at h ⊢
        rcases h with h | h
        · exact Or.inl h
        · exact Or.inr (ih h)

theorem ordered_map_assign {m : substitution} (x : Nat) (y : type) (h : ordered m) :
    ordered (map_assign m x y) := by
  induction m with
  | nil => simp [map_assign, ordered]
  | cons a m ih =>
      obtain ⟨k, v⟩ := a
      unfold ordered at h ih ⊢
      rw [List.pairwise_cons] at h
      simp only [map_assign]
      split_ifs with h1 h2
      · rw [List.pairwise_cons, List.pairwise_cons]
        refine ⟨?_, h.1, h.2⟩
        intro b hb
        simp only [List.mem_cons] at hb
        rcases hb with hb | hb
        · subst hb; exact h1
        · exact lt_trans h1 (h.1 b hb)
      · rw [List.pairwise_cons]
        exact ⟨h.1, h.2⟩
      · rw [List.pairwise_cons]
        refine ⟨?_, ih h.2⟩
        intro b hb
        rcases mem_map_assign hb with hb | hb
        · subst hb
          show k < x
          omega
        · exact h.1 b hb

theorem map_assign_of_lt {m : substitution} {x : Nat} (y : type)
    (h : ∀ e ∈ m, x < e.1) : map_assign m x y = (x, y) :: m := by
  cases m with
  | nil => simp [map_assign]
  | cons a m =>
      obtain ⟨k, v⟩ := a
      have : x < k := h (k, v) (List.mem_cons_self _ _)
      simp [map_assign, this]

theorem mem_of_map_find {m : substitution} {k : Nat} {v : type}
    (h : map_find m k = some v) : (k, v) ∈ m := by
  induction m with
  | nil => simp [map_find] at h
  | cons a m ih =>
      obtain ⟨k1, v1⟩ := a
      simp only [map_find] at h
      split_ifs at h with h1
      · subst h1
        simp only [Option.some.injEq] at h
        subst h
        exact List.mem_cons_self _ _
      · exact List.mem_cons_of_mem _ (ih h)

theorem map_find_of_mem {m : substitution} {k : Nat} {v : type}
    (ho : ordered m) (h : (k, v) ∈ m) : map_find m k = some v := by
  induction m with
  | nil => simp at h
  | cons a m ih =>
      obtain ⟨k1, v1⟩ := a
      unfold ordered at ho ih
      rw [List.pairwise_cons] at ho
      simp only [List.mem_cons, Prod.mk.injEq] at h
      simp only [map_find]
      rcases h with ⟨h1, h2⟩ | h
      · subst h1 h2; simp
      · have : k1 < k := ho.1 (k, v) h
        have hne : k ≠ k1 := by omega
        simp only [hne, if_false]
        exact ih ho.2 h

theorem map_find_eq_none_iff {m : substitution} {k : Nat} :
    map_find m k = none ↔ ∀ e ∈ m, e.1 ≠ k := by
  induction m with
  | nil => simp [map_find]
  | cons a m ih =>
      obtain ⟨k1, v1⟩ := a
      simp only [map_find, List.mem_cons, forall_eq_or_imp]
      split_ifs with h1
      · subst h1; simp
      · rw [ih]
        constructor
        · intro h; exact ⟨fun e => h1 e.symm, h⟩
        · intro h; exact h.2

/-! ## One visit of the unifier -/

theorem mem_push_children {c : constraint} :
    ∀ (xs ys : List type) (stack : List constraint),
      c ∈ push_children xs ys stack ↔ c ∈ List.zip xs ys ∨ c ∈ stack
  | [], ys, stack => by simp [push_children]
  | x :: xs, [], stack => by simp [push_children]
  | x :: xs, y :: ys, stack => by
      rw [push_children, mem_push_children xs ys]
      simp only [List.zip_cons_cons, List.mem_cons]
      tauto

theorem occurs_list_of_mem {k : Nat} {t : type} :
    ∀ {ts : List type}, t ∈ ts → occurs t k = true → occurs_list ts k = true
  | [], h, _ => by simp at h
  | a :: ts, h, ho => by
      simp only [List.mem_cons] at h
      simp only [occurs_list, Bool.or_eq_true]
      rcases h with h | h
      · subst h; exact Or.inl ho
      · exact Or.inr (occurs_list_of_mem h ho)

theorem occurs_false_of_mem {k : Nat} {t : type} {ts : List type}
    (h : t ∈ ts) (ho : occurs_list ts k = false) : occurs t k = false := by
  rw [Bool.eq_false_iff] at ho ⊢
  exact fun h1 => ho (occurs_list_of_mem h h1)

theorem assign_list_eq_iff (θ : Nat → type) :
    ∀ (xs ys : List type), xs.length = ys.length →
      (assign_list θ xs = assign_list θ ys ↔
        ∀ c ∈ List.zip xs ys, assign θ c.1 = assign θ c.2)
  | [], [], _ => by simp [assign_list]
  | [], _ :: _, h => by simp at h
  | _ :: _, [], h => by simp at h
  | x :: xs, y :: ys, h => by
      have hl : xs.length = ys.length := by simpa using h
      simp only [assign_list, List.cons.injEq, List.zip_cons_cons, List.mem_cons,
        forall_eq_or_imp, assign_list_eq_iff θ xs ys hl]

/-- What a visit that does not throw has done: nothing (the same variable twice), an
elimination of a variable `v` by a type `t` in which `v` does not occur, or a
decomposition of two operators of the same kind and size. -/
theorem visit_ok_cases {u u1 : unifier} {x y : type} (h : visit u x y = .ok u1) :
    (∃ v, x = .var v ∧ y = .var v ∧ u1 = u) ∨
    (∃ v t, occurs t v = false ∧ u1 = eliminate u v t ∧
      ((x = .var v ∧ y = t) ∨ (x = t ∧ y = .var v))) ∨
    (∃ k xs ys, x = .op k xs ∧ y = .op k ys ∧ xs.length = ys.length ∧
      u1 = { u with m_stack := push_children xs ys u.m_stack }) := by
  cases x with
  | var a =>
      cases y with
      | var b =>
          simp only [visit] at h
          split_ifs at h with hab
          · right; left
            refine ⟨a, .var b, ?_, ?_, Or.inl ⟨rfl, rfl⟩⟩
            · simp only [occurs, beq_eq_false_iff_ne]
              exact fun e => hab e.symm
            · injection h with h; exact h.symm
          · left
            have hab1 : a = b := by simpa using hab
            subst hab1
            injection h with h
            exact ⟨a, rfl, rfl, h.symm⟩
      | op l ys =>
          simp only [visit] at h
          split_ifs at h with ho
          right; left
          refine ⟨a, .op l ys, by simpa using ho, ?_, Or.inl ⟨rfl, rfl⟩⟩
          injection h with h; exact h.symm
  | op k xs =>
      cases y with
      | var b =>
          simp only [visit] at h
          split_ifs at h with ho
          right; left
          refine ⟨b, .op k xs, by simpa using ho, ?_, Or.inr ⟨rfl, rfl⟩⟩
          injection h with h; exact h.symm
      | op l ys =>
          simp only [visit] at h
          split_ifs at h with hk
          right; right
          have hk : k = l ∧ xs.length = ys.length := by simpa [compare_kind] using hk
          obtain ⟨hk1, hk2⟩ := hk
          subst hk1
          injection h with h
          exact ⟨k, xs, ys, rfl, rfl, hk2, h.symm⟩

/-- What a visit that throws has found: a variable against an operator term in which it
occurs, or two operators of different kind or size. -/
theorem visit_error_cases {u : unifier} {x y : type} {e : error} (h : visit u x y = .error e) :
    (∃ v k ts, occurs (.op k ts) v = true ∧ e = .recursive_unification (.var v) (.op k ts) ∧
      ((x = .var v ∧ y = .op k ts) ∨ (x = .op k ts ∧ y = .var v))) ∨
    (∃ k xs l ys, x = .op k xs ∧ y = .op l ys ∧ (k ≠ l ∨ xs.length ≠ ys.length) ∧
      e = .type_mismatch x y) := by
  cases x with
  | var a =>
      cases y with
      | var b =>
          simp only [visit] at h
          split_ifs at h
      | op l ys =>
          simp only [visit] at h
          split_ifs at h with ho
          left
          injection h with h
          exact ⟨a, l, ys, ho, h.symm, Or.inl ⟨rfl, rfl⟩⟩
  | op k xs =>
      cases y with
      | var b =>
          simp only [visit] at h
          split_ifs at h with ho
          left
          injection h with h
          exact ⟨b, k, xs, ho, h.symm, Or.inr ⟨rfl, rfl⟩⟩
      | op l ys =>
          simp only [visit] at h
          split_ifs at h with hk
          right
          injection h with h
          refine ⟨k, xs, l, ys, rfl, rfl, ?_, h.symm⟩
          simpa [compare_kind] using hk

/-! ## The loop invariant -/

theorem ordered_map_values {m : substitution} (f : type → type) (h : ordered m) :
    ordered (m.map (fun e => (e.1, f e.2))) := by
  unfold ordered at h ⊢
  rw [List.pairwise_map]
  exact h

theorem inv_of_cons {c : constraint} {rest : List constraint} {σ : substitution}
    (h : unifier.inv ⟨c :: rest, σ⟩) : unifier.inv ⟨rest, σ⟩ :=
  ⟨h.1, h.2.1, fun e he d hd => h.2.2 e he d (List.mem_cons_of_mem _ hd)⟩

theorem inv_eliminate {u : unifier} {v : Nat} {t : type} (hinv : u.inv)
    (ht : occurs t v = false) (htk : ∀ e ∈ u.m_substitution, occurs t e.1 = false) :
    (eliminate u v t).inv := by
  obtain ⟨ho, hs, hst⟩ := hinv
  have hkey : ∀ e ∈ (eliminate u v t).m_substitution,
      e = (v, t) ∨ ∃ e0 ∈ u.m_substitution, e = (e0.1, replace e0.2 v t) := by
    intro e he
    rcases mem_map_assign he with he | he
    · exact Or.inl he
    · rw [List.mem_map] at he
      obtain ⟨e0, he0, rfl⟩ := he
      exact Or.inr ⟨e0, he0, rfl⟩
  refine ⟨ordered_map_assign v t (ordered_map_values (fun a => replace a v t) ho), ?_, ?_⟩
  · intro e he e1 he1
    rcases hkey e he with rfl | ⟨e0, he0, rfl⟩
    · rcases hkey e1 he1 with rfl | ⟨e2, he2, rfl⟩
      · exact ht
      · exact occurs_replace_self _ _ _ ht
    · rcases hkey e1 he1 with rfl | ⟨e2, he2, rfl⟩
      · exact htk e0 he0
      · exact occurs_replace_false _ _ _ _ (hs e0 he0 e2 he2) (htk e0 he0)
  · intro e he c hc
    simp only [eliminate, List.mem_map] at hc
    obtain ⟨c0, hc0, rfl⟩ := hc
    rcases hkey e he with rfl | ⟨e0, he0, rfl⟩
    · exact ⟨occurs_replace_self _ _ _ ht, occurs_replace_self _ _ _ ht⟩
    · exact ⟨occurs_replace_false _ _ _ _ (hst e0 he0 c0 hc0).1 (htk e0 he0),
        occurs_replace_false _ _ _ _ (hst e0 he0 c0 hc0).2 (htk e0 he0)⟩

/-- A visit that does not throw keeps the loop invariant. -/
theorem inv_visit {x y : type} {rest : List constraint} {σ : substitution} {u1 : unifier}
    (hinv : unifier.inv ⟨(x, y) :: rest, σ⟩) (h : visit ⟨rest, σ⟩ x y = .ok u1) : u1.inv := by
  have hxy := fun e he => hinv.2.2 e he (x, y) (List.mem_cons_self _ _)
  rcases visit_ok_cases h with ⟨v, rfl, rfl, rfl⟩ | ⟨v, t, ht, rfl, hc⟩ | ⟨k, xs, ys, rfl, rfl, _, rfl⟩
  · exact inv_of_cons hinv
  · refine inv_eliminate (inv_of_cons hinv) ht ?_
    intro e he
    rcases hc with ⟨rfl, rfl⟩ | ⟨rfl, rfl⟩
    · exact (hxy e he).2
    · exact (hxy e he).1
  · refine ⟨hinv.1, hinv.2.1, ?_⟩
    intro e he c hc
    simp only at hc
    rw [mem_push_children] at hc
    rcases hc with hc | hc
    · have h1 := hxy e he
      simp only [occurs] at h1
      exact ⟨occurs_false_of_mem (List.of_mem_zip hc).1 h1.1,
        occurs_false_of_mem (List.of_mem_zip hc).2 h1.2⟩
    · exact hinv.2.2 e he c (List.mem_cons_of_mem _ hc)

/-! ## Solutions are kept by every visit -/

theorem solves_eliminate {θ : Nat → type} {u : unifier} {v : Nat} {t : type}
    (hvt : θ v = assign θ t) (h : solves θ u) : solves θ (eliminate u v t) := by
  constructor
  · intro c hc
    simp only [eliminate, List.mem_map] at hc
    obtain ⟨c0, hc0, rfl⟩ := hc
    simp only [assign_replace θ v t hvt]
    exact h.1 c0 hc0
  · intro e he
    rcases mem_map_assign he with rfl | he
    · exact hvt
    · rw [List.mem_map] at he
      obtain ⟨e0, he0, rfl⟩ := he
      simp only [assign_replace θ v t hvt]
      exact h.2 e0 he0

theorem solves_of_eliminate {θ : Nat → type} {u : unifier} {v : Nat} {t : type}
    (hkey : ∀ e ∈ u.m_substitution, e.1 ≠ v) (h : solves θ (eliminate u v t)) :
    θ v = assign θ t ∧ solves θ u := by
  have hvt : θ v = assign θ t := h.2 (v, t) (mem_map_assign_self _ _ _)
  refine ⟨hvt, ?_, ?_⟩
  · intro c hc
    have := h.1 (replace c.1 v t, replace c.2 v t) (by
      simp only [eliminate, List.mem_map]
      exact ⟨c, hc, rfl⟩)
    simpa only [assign_replace θ v t hvt] using this
  · intro e he
    have hm : (e.1, replace e.2 v t) ∈ (eliminate u v t).m_substitution := by
      refine mem_map_assign_of_mem ?_ (hkey e he)
      rw [List.mem_map]
      exact ⟨e, he, rfl⟩
    have := h.2 _ hm
    simpa only [assign_replace θ v t hvt] using this

theorem not_key_of_occurs {u : unifier} {v : Nat}
    (h : ∀ e ∈ u.m_substitution, occurs (.var v) e.1 = false) :
    ∀ e ∈ u.m_substitution, e.1 ≠ v := by
  intro e he hv
  have := h e he
  simp [occurs, hv] at this

/-- Forward: a solution of the state before a visit solves the state after it. -/
theorem solves_visit {θ : Nat → type} {x y : type} {rest : List constraint}
    {σ : substitution} {u1 : unifier}
    (hs : solves θ ⟨(x, y) :: rest, σ⟩) (h : visit ⟨rest, σ⟩ x y = .ok u1) : solves θ u1 := by
  have hxy : assign θ x = assign θ y := hs.1 (x, y) (List.mem_cons_self _ _)
  have hrest : solves θ ⟨rest, σ⟩ := ⟨fun c hc => hs.1 c (List.mem_cons_of_mem _ hc), hs.2⟩
  rcases visit_ok_cases h with ⟨v, rfl, rfl, rfl⟩ | ⟨v, t, _, rfl, hc⟩ | ⟨k, xs, ys, rfl, rfl, hl, rfl⟩
  · exact hrest
  · refine solves_eliminate ?_ hrest
    rcases hc with ⟨rfl, rfl⟩ | ⟨rfl, rfl⟩
    · simpa only [assign] using hxy
    · simpa only [assign] using hxy.symm
  · refine ⟨?_, hs.2⟩
    intro c hc
    simp only at hc
    rw [mem_push_children] at hc
    rcases hc with hc | hc
    · simp only [assign, type.op.injEq, true_and] at hxy
      exact (assign_list_eq_iff θ xs ys hl).1 hxy c hc
    · exact hrest.1 c hc

/-- Backward: under the loop invariant, a solution of the state after a visit solves the
state before it. -/
theorem solves_of_visit {θ : Nat → type} {x y : type} {rest : List constraint}
    {σ : substitution} {u1 : unifier} (hinv : unifier.inv ⟨(x, y) :: rest, σ⟩)
    (h : visit ⟨rest, σ⟩ x y = .ok u1) (hs : solves θ u1) : solves θ ⟨(x, y) :: rest, σ⟩ := by
  have hxy := fun e he => hinv.2.2 e he (x, y) (List.mem_cons_self _ _)
  have key : assign θ x = assign θ y ∧ solves θ ⟨rest, σ⟩ := by
    rcases visit_ok_cases h with ⟨v, rfl, rfl, rfl⟩ | ⟨v, t, _, rfl, hc⟩ | ⟨k, xs, ys, rfl, rfl, hl, rfl⟩
    · exact ⟨rfl, hs⟩
    · have hk : ∀ e ∈ σ, e.1 ≠ v := by
        apply not_key_of_occurs (u := ⟨rest, σ⟩)
        intro e he
        rcases hc with ⟨rfl, rfl⟩ | ⟨rfl, rfl⟩
        · exact (hxy e he).1
        · exact (hxy e he).2
      have := solves_of_eliminate (u := ⟨rest, σ⟩) hk hs
      refine ⟨?_, this.2⟩
      rcases hc with ⟨rfl, rfl⟩ | ⟨rfl, rfl⟩
      · simpa only [assign] using this.1
      · simpa only [assign] using this.1.symm
    · refine ⟨?_, ?_, hs.2⟩
      · simp only [assign, type.op.injEq, true_and]
        rw [assign_list_eq_iff θ xs ys hl]
        intro c hc
        exact hs.1 c ((mem_push_children xs ys rest).2 (Or.inl hc))
      · intro c hc
        exact hs.1 c ((mem_push_children xs ys rest).2 (Or.inr hc))
  refine ⟨?_, key.2.2⟩
  intro c hc
  simp only [List.mem_cons] at hc
  rcases hc with rfl | hc
  · exact key.1
  · exact key.2.1 c hc

/-- A visit that throws has met a constraint that no assignment satisfies. -/
theorem not_solves_of_visit_error {θ : Nat → type} {x y : type} {u : unifier} {e : error}
    (h : visit u x y = .error e) : assign θ x ≠ assign θ y := by
  rcases visit_error_cases h with ⟨v, k, ts, ho, _, hc⟩ | ⟨k, xs, l, ys, rfl, rfl, hne, _⟩
  · rcases hc with ⟨rfl, rfl⟩ | ⟨rfl, rfl⟩
    · exact assign_ne_of_occurs θ v k ts ho
    · exact fun e => assign_ne_of_occurs θ v k ts ho e.symm
  · intro e
    simp only [assign, type.op.injEq] at e
    rcases hne with hne | hne
    · exact hne e.1
    · have := congrArg List.length e.2
      rw [length_assign_list, length_assign_list] at this
      exact hne this

/-! ## The worklist loop -/

theorem run_nil (fuel : Nat) (σ : substitution) :
    unifier.run fuel ⟨[], σ⟩ = some (.returned σ) := by
  cases fuel <;> simp [unifier.run]

theorem run_zero_cons (c : constraint) (rest : List constraint) (σ : substitution) :
    unifier.run 0 ⟨c :: rest, σ⟩ = none := by
  simp [unifier.run]

theorem run_succ_cons (fuel : Nat) (x y : type) (rest : List constraint) (σ : substitution) :
    unifier.run (fuel + 1) ⟨(x, y) :: rest, σ⟩ =
      match visit ⟨rest, σ⟩ x y with
      | .error e => some (.threw e σ)
      | .ok u1 => unifier.run fuel u1 := by
  rw [unifier.run]

theorem run_succ_cons_ok {fuel : Nat} {x y : type} {rest : List constraint}
    {σ : substitution} {u1 : unifier} (h : visit ⟨rest, σ⟩ x y = .ok u1) :
    unifier.run (fuel + 1) ⟨(x, y) :: rest, σ⟩ = unifier.run fuel u1 := by
  rw [run_succ_cons, h]

theorem run_succ_cons_error {fuel : Nat} {x y : type} {rest : List constraint}
    {σ : substitution} {e : error} (h : visit ⟨rest, σ⟩ x y = .error e) :
    unifier.run (fuel + 1) ⟨(x, y) :: rest, σ⟩ = some (.threw e σ) := by
  rw [run_succ_cons, h]

/-- More fuel does not change a result. -/
theorem run_succ {fuel : Nat} {u : unifier} {r : result}
    (h : unifier.run fuel u = some r) : unifier.run (fuel + 1) u = some r := by
  induction fuel generalizing u with
  | zero =>
      obtain ⟨stack, σ⟩ := u
      cases stack with
      | nil => rw [run_nil] at h ⊢; exact h
      | cons c rest => rw [run_zero_cons] at h; cases h
  | succ n ih =>
      obtain ⟨stack, σ⟩ := u
      cases stack with
      | nil => rw [run_nil] at h ⊢; exact h
      | cons c rest =>
          obtain ⟨x, y⟩ := c
          cases hv : visit ⟨rest, σ⟩ x y with
          | error e => rw [run_succ_cons_error hv] at h ⊢; exact h
          | ok u1 =>
              rw [run_succ_cons_ok hv] at h ⊢
              exact ih h

theorem run_add {fuel : Nat} {u : unifier} {r : result} (k : Nat)
    (h : unifier.run fuel u = some r) : unifier.run (fuel + k) u = some r := by
  induction k with
  | zero => exact h
  | succ k ih => exact run_succ ih

theorem run_mono {fuel fuel1 : Nat} {u : unifier} {r : result} (hle : fuel ≤ fuel1)
    (h : unifier.run fuel u = some r) : unifier.run fuel1 u = some r := by
  obtain ⟨k, rfl⟩ := Nat.exists_eq_add_of_le hle
  exact run_add k h

/-- The result of the loop does not depend on the fuel. -/
theorem run_det {fuel fuel1 : Nat} {u : unifier} {r r1 : result}
    (h : unifier.run fuel u = some r) (h1 : unifier.run fuel1 u = some r1) : r = r1 := by
  have a := run_mono (Nat.le_max_left fuel fuel1) h
  have b := run_mono (Nat.le_max_right fuel fuel1) h1
  rw [a] at b
  exact Option.some.inj b

/-- When the loop returns from a state satisfying the invariant, the final substitution is
a well-formed map in solved form, and every assignment that satisfies its bindings
satisfies the whole starting state. -/
theorem run_returned {fuel : Nat} {u : unifier} {s1 : substitution} (hinv : u.inv)
    (h : unifier.run fuel u = some (.returned s1)) :
    unifier.inv ⟨[], s1⟩ ∧ ∀ θ, solves θ ⟨[], s1⟩ → solves θ u := by
  induction fuel generalizing u with
  | zero =>
      obtain ⟨stack, σ⟩ := u
      cases stack with
      | nil =>
          rw [run_nil] at h
          injection h with h; injection h with h
          subst h
          exact ⟨hinv, fun θ hθ => hθ⟩
      | cons c rest => rw [run_zero_cons] at h; cases h
  | succ n ih =>
      obtain ⟨stack, σ⟩ := u
      cases stack with
      | nil =>
          rw [run_nil] at h
          injection h with h; injection h with h
          subst h
          exact ⟨hinv, fun θ hθ => hθ⟩
      | cons c rest =>
          obtain ⟨x, y⟩ := c
          cases hv : visit ⟨rest, σ⟩ x y with
          | error e => rw [run_succ_cons_error hv] at h; cases h
          | ok u1 =>
              rw [run_succ_cons_ok hv] at h
              obtain ⟨h1, h2⟩ := ih (inv_visit hinv hv) h
              exact ⟨h1, fun θ hθ => solves_of_visit hinv hv (h2 θ hθ)⟩

/-- When the starting state has a solution, the loop cannot throw, and the solution
satisfies the bindings of the final substitution. -/
theorem run_of_solves {fuel : Nat} {u : unifier} {r : result} {θ : Nat → type}
    (hs : solves θ u) (h : unifier.run fuel u = some r) :
    ∃ s1, r = .returned s1 ∧ solves θ ⟨[], s1⟩ := by
  induction fuel generalizing u with
  | zero =>
      obtain ⟨stack, σ⟩ := u
      cases stack with
      | nil =>
          rw [run_nil] at h
          injection h with h
          exact ⟨σ, h.symm, hs⟩
      | cons c rest => rw [run_zero_cons] at h; cases h
  | succ n ih =>
      obtain ⟨stack, σ⟩ := u
      cases stack with
      | nil =>
          rw [run_nil] at h
          injection h with h
          exact ⟨σ, h.symm, hs⟩
      | cons c rest =>
          obtain ⟨x, y⟩ := c
          cases hv : visit ⟨rest, σ⟩ x y with
          | error e =>
              exact absurd (hs.1 (x, y) (List.mem_cons_self _ _)) (not_solves_of_visit_error hv)
          | ok u1 =>
              rw [run_succ_cons_ok hv] at h
              exact ih (solves_visit hs hv) h

mutual
theorem assign_binding_of_no_key (s : substitution) :
    ∀ t : type, (∀ e ∈ s, occurs t e.1 = false) → assign (binding s) t = t
  | .var w, hw => by
      rw [assign]
      have : map_find s w = none := by
        rw [map_find_eq_none_iff]
        intro e he hew
        have := hw e he
        simp [occurs, hew] at this
      simp [binding, this]
  | .op k ts, hw => by
      rw [assign, assign_list_binding_of_no_key s ts (fun e he => by simpa [occurs] using hw e he)]
theorem assign_list_binding_of_no_key (s : substitution) :
    ∀ ts : List type, (∀ e ∈ s, occurs_list ts e.1 = false) → assign_list (binding s) ts = ts
  | [], _ => rfl
  | t :: ts, hw => by
      have h1 : ∀ e ∈ s, occurs t e.1 = false := fun e he => by
        have := hw e he
        simp only [occurs_list, Bool.or_eq_false_iff] at this
        exact this.1
      have h2 : ∀ e ∈ s, occurs_list ts e.1 = false := fun e he => by
        have := hw e he
        simp only [occurs_list, Bool.or_eq_false_iff] at this
        exact this.2
      rw [assign_list, assign_binding_of_no_key s t h1, assign_list_binding_of_no_key s ts h2]
end

/-- A well-formed map in solved form, read as an assignment, satisfies its own bindings. -/
theorem solves_binding {s : substitution} (ho : ordered s) (hs : solved s) :
    solves (binding s) ⟨[], s⟩ := by
  refine ⟨fun c hc => by simp at hc, ?_⟩
  intro e he
  obtain ⟨k, v⟩ := e
  have hk : binding s k = v := by simp [binding, map_find_of_mem ho he]
  show binding s k = assign (binding s) v
  rw [hk, assign_binding_of_no_key s v (fun e1 he1 => hs e1 he1 (k, v) he)]

/-! ## Termination of the loop -/

theorem size_pos : ∀ t : type, 0 < size t
  | .var _ => by simp [size]
  | .op _ _ => by rw [size]; omega

theorem stack_vars_map_replace (x : Nat) (y : type) :
    ∀ stack : List constraint,
      stack_vars (stack.map (fun c => (replace c.1 x y, replace c.2 x y))) ⊆
        (stack_vars stack).erase x ∪ vars y
  | [] => by simp [stack_vars]
  | c :: cs => by
      intro a ha
      simp only [List.map_cons, stack_vars, Finset.mem_union] at ha
      have h1 := vars_replace_subset c.1 x y
      have h2 := vars_replace_subset c.2 x y
      have h3 := stack_vars_map_replace x y cs
      simp only [stack_vars, Finset.mem_union, Finset.mem_erase]
      rcases ha with (ha | ha) | ha
      · have := h1 ha
        simp only [Finset.mem_union, Finset.mem_erase] at this
        tauto
      · have := h2 ha
        simp only [Finset.mem_union, Finset.mem_erase] at this
        tauto
      · have := h3 ha
        simp only [Finset.mem_union, Finset.mem_erase] at this
        tauto

theorem stack_vars_push_children :
    ∀ (xs ys : List type) (stack : List constraint),
      stack_vars (push_children xs ys stack) ⊆ vars_list xs ∪ vars_list ys ∪ stack_vars stack
  | [], ys, stack => by
      intro a ha
      simp only [push_children] at ha
      simp [ha]
  | x :: xs, [], stack => by
      intro a ha
      simp only [push_children] at ha
      simp [ha]
  | x :: xs, y :: ys, stack => by
      intro a ha
      rw [push_children] at ha
      have := stack_vars_push_children xs ys _ ha
      simp only [stack_vars, vars_list, Finset.mem_union] at this ⊢
      tauto

theorem stack_size_push_children :
    ∀ (xs ys : List type) (stack : List constraint),
      stack_size (push_children xs ys stack) ≤ size_list xs + size_list ys + stack_size stack
  | [], ys, stack => by simp [push_children]
  | x :: xs, [], stack => by simp [push_children]
  | x :: xs, y :: ys, stack => by
      rw [push_children]
      have := stack_size_push_children xs ys ((x, y) :: stack)
      simp only [stack_size, size_list] at this ⊢
      omega

/-- Every visit that does not throw makes the pending work smaller: either fewer distinct
variables are on the stack, or no more variables and fewer nodes. -/
theorem visit_decreases {x y : type} {rest : List constraint} {σ : substitution}
    {u1 : unifier} (h : visit ⟨rest, σ⟩ x y = .ok u1) :
    (stack_vars u1.m_stack).card < (stack_vars ((x, y) :: rest)).card ∨
    ((stack_vars u1.m_stack).card ≤ (stack_vars ((x, y) :: rest)).card ∧
      stack_size u1.m_stack < stack_size ((x, y) :: rest)) := by
  rcases visit_ok_cases h with ⟨v, rfl, rfl, rfl⟩ | ⟨v, t, ht, rfl, hc⟩ | ⟨k, xs, ys, rfl, rfl, hl, rfl⟩
  · right
    refine ⟨Finset.card_le_card ?_, ?_⟩
    · intro a ha
      simp only [stack_vars, Finset.mem_union]
      exact Or.inr ha
    · simp only [stack_size, size]
      omega
  · left
    apply Finset.card_lt_card
    have hv : v ∉ vars t := by
      rw [← occurs_iff_mem_vars]
      simp [ht]
    have hsub := stack_vars_map_replace v t rest
    have hxy : vars x ∪ vars y = {v} ∪ vars t := by
      rcases hc with ⟨rfl, rfl⟩ | ⟨rfl, rfl⟩
      · simp [vars]
      · simp [vars, Finset.union_comm]
    rw [Finset.ssubset_iff_of_subset]
    · refine ⟨v, ?_, ?_⟩
      · simp only [stack_vars, hxy, Finset.mem_union, Finset.mem_singleton]
        tauto
      · intro hmem
        have := hsub hmem
        simp only [Finset.mem_union, Finset.mem_erase] at this
        tauto
    · intro a ha
      have := hsub ha
      simp only [stack_vars, hxy, Finset.mem_union, Finset.mem_erase, Finset.mem_singleton] at this ⊢
      tauto
  · right
    refine ⟨Finset.card_le_card ?_, ?_⟩
    · intro a ha
      have := stack_vars_push_children xs ys rest ha
      simpa only [stack_vars, vars] using this
    · have := stack_size_push_children xs ys rest
      simp only [stack_size, size]
      omega

/-- The worklist loop stops from every state. -/
theorem run_terminates (u : unifier) : ∃ fuel r, unifier.run fuel u = some r := by
  suffices H : ∀ (c sz : Nat) (u : unifier), (stack_vars u.m_stack).card ≤ c →
      stack_size u.m_stack ≤ sz → ∃ fuel r, unifier.run fuel u = some r from
    H _ _ u le_rfl le_rfl
  intro c
  induction c using Nat.strong_induction_on with
  | _ c ihc =>
      intro sz
      induction sz with
      | zero =>
          intro u _ hsz
          obtain ⟨stack, σ⟩ := u
          cases stack with
          | nil => exact ⟨0, _, run_nil 0 σ⟩
          | cons d rest =>
              have := size_pos d.1
              simp only [stack_size] at hsz
              omega
      | succ sz ihs =>
          intro u hc hsz
          obtain ⟨stack, σ⟩ := u
          cases stack with
          | nil => exact ⟨0, _, run_nil 0 σ⟩
          | cons d rest =>
              obtain ⟨x, y⟩ := d
              simp only at hc hsz
              cases hv : visit ⟨rest, σ⟩ x y with
              | error e => exact ⟨1, _, run_succ_cons_error hv⟩
              | ok u1 =>
                  have hrec : ∃ fuel r, unifier.run fuel u1 = some r := by
                    rcases visit_decreases hv with hlt | ⟨hle, hlt⟩
                    · exact ihc _ (lt_of_lt_of_le hlt hc) _ u1 le_rfl le_rfl
                    · exact ihs u1 (le_trans hle hc) (by omega)
                  obtain ⟨n, r, hr⟩ := hrec
                  exact ⟨n + 1, r, by rw [run_succ_cons_ok hv]; exact hr⟩

/-! ## Starting from a substitution in solved form -/

theorem inv_init (constraints : List constraint) (s : substitution) :
    (unifier.init constraints s).inv := by
  refine ⟨?_, ?_, ?_⟩
  · simp [unifier.init, ordered]
  · intro e he; simp [unifier.init] at he
  · intro e he; simp [unifier.init] at he

theorem unify_returned_inv {fuel : Nat} {constraints : List constraint} {s s1 : substitution}
    (h : unify fuel constraints s = some (.returned s1)) : ordered s1 ∧ solved s1 := by
  have := (run_returned (inv_init constraints s) h).1
  exact ⟨this.1, this.2.1⟩

/-- A substitution produced by `unify` is a well-formed map in solved form. -/
theorem produced_solved {s : substitution} (h : produced s) : ordered s ∧ solved s := by
  cases h with
  | empty => exact ⟨by simp [ordered], fun e he => by simp at he⟩
  | call s0 constraints fuel _ _ hu => exact unify_returned_inv hu

theorem visit_var_of_not_occurs (u : unifier) (v : Nat) (t : type) (h : occurs t v = false) :
    visit u (.var v) t = .ok (eliminate u v t) := by
  cases t with
  | var w =>
      have : v ≠ w := by
        intro e
        simp [occurs, e] at h
      simp [visit, this]
  | op k ts => simp [visit, h]

mutual
theorem assign_var : ∀ t : type, assign type.var t = t
  | .var _ => by rw [assign]
  | .op k ts => by rw [assign, assign_list_var ts]
theorem assign_list_var : ∀ ts : List type, assign_list type.var ts = ts
  | [] => rfl
  | t :: ts => by rw [assign_list, assign_var t, assign_list_var ts]
end

theorem apply_nil (t : type) : apply [] t = t := by
  have : binding [] = type.var := by
    funext v
    simp [binding, map_find]
  rw [apply, this, assign_var]

theorem binding_cons (k : Nat) (v : type) (s : substitution) (w : Nat) :
    binding ((k, v) :: s) w = if w = k then v else binding s w := by
  simp only [binding, map_find]
  split_ifs <;> simp

mutual
theorem replace_apply_cons (k : Nat) (v : type) (s : substitution)
    (hk : ∀ e ∈ s, e.1 ≠ k) (hv : ∀ e ∈ s, occurs e.2 k = false) :
    ∀ t : type, replace (apply s t) k v = apply ((k, v) :: s) t
  | .var w => by
      simp only [apply, assign, binding_cons]
      by_cases hw : w = k
      · subst hw
        have : map_find s w = none := map_find_eq_none_iff.2 hk
        simp [binding, this, replace]
      · simp only [hw, if_false]
        cases hf : map_find s w with
        | none => simp [binding, hf, replace, hw]
        | some b =>
            simp only [binding, hf, Option.getD_some]
            exact replace_of_not_occurs _ _ _ (hv _ (mem_of_map_find hf))
  | .op l ts => by
      have := replace_apply_cons_list k v s hk hv ts
      simp only [apply] at this ⊢
      rw [assign, assign, replace, this]
theorem replace_apply_cons_list (k : Nat) (v : type) (s : substitution)
    (hk : ∀ e ∈ s, e.1 ≠ k) (hv : ∀ e ∈ s, occurs e.2 k = false) :
    ∀ ts : List type,
      replace_list (assign_list (binding s) ts) k v = assign_list (binding ((k, v) :: s)) ts
  | [] => by simp [assign_list, replace_list]
  | t :: ts => by
      have h1 := replace_apply_cons k v s hk hv t
      have h2 := replace_apply_cons_list k v s hk hv ts
      simp only [apply] at h1
      rw [assign_list, assign_list, replace_list, h1, h2]
end

theorem ordered_tail {e : Nat × type} {s : substitution} (h : ordered (e :: s)) : ordered s := by
  unfold ordered at h ⊢
  exact (List.pairwise_cons.1 h).2

theorem solved_tail {e : Nat × type} {s : substitution} (h : solved (e :: s)) : solved s :=
  fun a ha b hb => h a (List.mem_cons_of_mem _ ha) b (List.mem_cons_of_mem _ hb)

/-- For a well-formed map in solved form, the replacements of its entries one after the
other, largest key first, amount to replacing every key by its value at once. -/
theorem replace_each_reverse (s : substitution) (ho : ordered s) (hs : solved s) (t : type) :
    replace_each s.reverse t = apply s t := by
  unfold replace_each
  rw [List.foldl_reverse]
  induction s with
  | nil => simp [apply_nil]
  | cons e s ih =>
      obtain ⟨k, v⟩ := e
      rw [List.foldr_cons, ih (ordered_tail ho) (solved_tail hs)]
      apply replace_apply_cons
      · intro e he
        have : k < e.1 := (List.pairwise_cons.1 ho).1 e he
        omega
      · intro e he
        exact hs (k, v) (List.mem_cons_self _ _) e (List.mem_cons_of_mem _ he)

/-- Re-examining entries that are already in solved form: when the stack holds, on top of
`rest`, the entries `r` (largest key on top) and these together with the substitution `σ`
form a well-formed map in solved form, the loop moves the entries unchanged into the
substitution and applies their replacements to `rest`. -/
theorem run_entries (r : List (Nat × type)) :
    ∀ (σ : substitution) (rest : List constraint) (n : Nat),
      ordered (r.reverse ++ σ) → solved (r.reverse ++ σ) →
      unifier.run (n + r.length) ⟨r.map (fun e => (type.var e.1, e.2)) ++ rest, σ⟩ =
        unifier.run n
          ⟨rest.map (fun c => (replace_each r c.1, replace_each r c.2)), r.reverse ++ σ⟩ := by
  induction r with
  | nil =>
      intro σ rest n _ _
      simp [replace_each]
  | cons e r ih =>
      intro σ rest n ho hs
      obtain ⟨k, v⟩ := e
      have hlist : (((k, v) :: r).reverse ++ σ) = r.reverse ++ (k, v) :: σ := by simp
      rw [hlist] at ho hs ⊢
      have hmem : (k, v) ∈ r.reverse ++ (k, v) :: σ := by simp
      have hvk : occurs v k = false := hs (k, v) hmem (k, v) hmem
      have hpw := List.pairwise_append.1 ho
      have hr : ∀ e ∈ r, e.1 ≠ k ∧ occurs e.2 k = false := by
        intro e he
        have h1 : e.1 < k := hpw.2.2 e (by simpa using he) (k, v) (List.mem_cons_self _ _)
        have h2 : e ∈ r.reverse ++ (k, v) :: σ := by simp [he]
        exact ⟨by omega, hs (k, v) hmem e h2⟩
      have hσ : ∀ e ∈ σ, k < e.1 ∧ occurs e.2 k = false := by
        intro e he
        have h1 : k < e.1 := (List.pairwise_cons.1 hpw.2.1).1 e he
        have h2 : e ∈ r.reverse ++ (k, v) :: σ := by simp [he]
        exact ⟨h1, hs (k, v) hmem e h2⟩
      have helim : eliminate ⟨r.map (fun e => (type.var e.1, e.2)) ++ rest, σ⟩ k v =
          ⟨r.map (fun e => (type.var e.1, e.2)) ++
            rest.map (fun c => (replace c.1 k v, replace c.2 k v)), (k, v) :: σ⟩ := by
        have e1 : (r.map (fun e => (type.var e.1, e.2))).map
            (fun c => (replace c.1 k v, replace c.2 k v)) =
            r.map (fun e => (type.var e.1, e.2)) := by
          rw [List.map_map]
          apply List.map_congr_left
          intro e he
          simp [replace, (hr e he).1, replace_of_not_occurs _ _ _ (hr e he).2]
        have e2 : σ.map (fun e => (e.1, replace e.2 k v)) = σ := by
          conv_rhs => rw [← List.map_id σ]
          apply List.map_congr_left
          intro e he
          simp [replace_of_not_occurs _ _ _ (hσ e he).2]
        simp only [eliminate, List.map_append, e1, e2]
        rw [map_assign_of_lt v (fun e he => (hσ e he).1)]
      have hrun : unifier.run (n + ((k, v) :: r).length)
          ⟨((k, v) :: r).map (fun e => (type.var e.1, e.2)) ++ rest, σ⟩ =
          unifier.run (n + r.length) ⟨r.map (fun e => (type.var e.1, e.2)) ++
            rest.map (fun c => (replace c.1 k v, replace c.2 k v)), (k, v) :: σ⟩ := by
        rw [List.length_cons, ← Nat.add_assoc, List.map_cons, List.cons_append]
        rw [run_succ_cons_ok (visit_var_of_not_occurs _ k v hvk), helim]
      rw [hrun, ih _ _ n ho hs, List.map_map]
      rfl

/-- Started on a well-formed map `s` in solved form, `unify` first restores `s` as the
substitution and applies it to the given constraints. -/
theorem unify_of_solved (s : substitution) (ho : ordered s) (hs : solved s)
    (constraints : List constraint) (n : Nat) :
    unify (n + s.length) constraints s =
      unifier.run n ⟨constraints.reverse.map (fun c => (apply s c.1, apply s c.2)), s⟩ := by
  have h := run_entries s.reverse [] constraints.reverse n
    (by simpa using ho) (by simpa using hs)
  simp only [List.length_reverse, List.reverse_reverse, List.append_nil, List.map_reverse] at h
  simp only [unify, unifier.init, List.map_reverse]
  rw [h]
  simp only [replace_each_reverse s ho hs]

/-! ## Consequences for calls of `unify` -/

theorem solves_init_iff (θ : Nat → type) (constraints : List constraint) (s : substitution) :
    solves θ (unifier.init constraints s) ↔
      (∀ c ∈ constraints, assign θ c.1 = assign θ c.2) ∧ (∀ e ∈ s, θ e.1 = assign θ e.2) := by
  constructor
  · intro h
    constructor
    · intro c hc
      exact h.1 c (by simp [unifier.init, hc])
    · intro e he
      have := h.1 (.var e.1, e.2) (by
        simp only [unifier.init, List.mem_append, List.mem_reverse, List.mem_map]
        exact Or.inl ⟨e, he, rfl⟩)
      simpa only [assign] using this
  · intro h
    refine ⟨?_, fun e he => by simp [unifier.init] at he⟩
    intro c hc
    simp only [unifier.init, List.mem_append, List.mem_reverse, List.mem_map] at hc
    rcases hc with ⟨e, he, rfl⟩ | hc
    · simpa only [assign] using h.2 e he
    · exact h.1 c hc

/-- A returning call of `unify` leaves a substitution that, read as an assignment,
satisfies the given constraints and the bindings of the starting substitution. -/
theorem unify_returned_solves {fuel : Nat} {constraints : List constraint}
    {s s1 : substitution} (h : unify fuel constraints s = some (.returned s1)) :
    (∀ c ∈ constraints, apply s1 c.1 = apply s1 c.2) ∧
      (∀ e ∈ s, binding s1 e.1 = apply s1 e.2) := by
  obtain ⟨hinv, hsol⟩ := run_returned (inv_init constraints s) h
  exact (solves_init_iff _ _ _).1 (hsol _ (solves_binding hinv.1 hinv.2.1))

/-- The keys of the substitution are never removed by the loop. -/
theorem run_keys {fuel : Nat} {u : unifier} {s1 : substitution}
    (h : unifier.run fuel u = some (.returned s1)) :
    ∀ e ∈ u.m_substitution, ∃ v, (e.1, v) ∈ s1 := by
  induction fuel generalizing u with
  | zero =>
      obtain ⟨stack, σ⟩ := u
      cases stack with
      | nil =>
          rw [run_nil] at h
          injection h with h; injection h with h
          subst h
          exact fun e he => ⟨e.2, he⟩
      | cons c rest => rw [run_zero_cons] at h; cases h
  | succ n ih =>
      obtain ⟨stack, σ⟩ := u
      cases stack with
      | nil =>
          rw [run_nil] at h
          injection h with h; injection h with h
          subst h
          exact fun e he => ⟨e.2, he⟩
      | cons c rest =>
          obtain ⟨x, y⟩ := c
          cases hv : visit ⟨rest, σ⟩ x y with
          | error e => rw [run_succ_cons_error hv] at h; cases h
          | ok u1 =>
              rw [run_succ_cons_ok hv] at h
              intro e he
              have hkeep : ∃ v, (e.1, v) ∈ u1.m_substitution := by
                rcases visit_ok_cases hv with
                  ⟨v, rfl, rfl, rfl⟩ | ⟨v, t, _, rfl, _⟩ | ⟨k, xs, ys, rfl, rfl, _, rfl⟩
                · exact ⟨e.2, he⟩
                · by_cases hev : e.1 = v
                  · exact ⟨t, by rw [hev]; exact mem_map_assign_self _ _ _⟩
                  · refine ⟨replace e.2 v t, mem_map_assign_of_mem ?_ hev⟩
                    rw [List.mem_map]
                    exact ⟨e, he, rfl⟩
                · exact ⟨e.2, he⟩
              obtain ⟨v, hv1⟩ := hkeep
              exact ih h (e.1, v) hv1

mutual
theorem assign_apply_of_solves (θ : Nat → type) (s : substitution)
    (h : ∀ e ∈ s, θ e.1 = assign θ e.2) : ∀ t : type, assign θ (apply s t) = assign θ t
  | .var w => by
      simp only [apply, assign, binding]
      cases hf : map_find s w with
      | none => simp [assign]
      | some b =>
          simp only [Option.getD_some]
          exact (h (w, b) (mem_of_map_find hf)).symm
  | .op k ts => by
      have := assign_list_apply_of_solves θ s h ts
      simp only [apply, assign, this]
theorem assign_list_apply_of_solves (θ : Nat → type) (s : substitution)
    (h : ∀ e ∈ s, θ e.1 = assign θ e.2) :
    ∀ ts : List type, assign_list θ (assign_list (binding s) ts) = assign_list θ ts
  | [] => by simp [assign_list]
  | t :: ts => by
      have h1 := assign_apply_of_solves θ s h t
      have h2 := assign_list_apply_of_solves θ s h ts
      simp only [apply] at h1
      simp only [assign_list, h1, h2]
end

mutual
theorem occurs_assign_of_occurs (θ : Nat → type) (v w : Nat) (hw : occurs (θ v) w = true) :
    ∀ t : type, occurs t v = true → occurs (assign θ t) w = true
  | .var u, h => by
      have : u = v := by simpa [occurs] using h
      subst this
      rw [assign]; exact hw
  | .op k ts, h => by
      simp only [occurs] at h
      simp only [assign, occurs]
      exact occurs_list_assign_of_occurs θ v w hw ts h
theorem occurs_list_assign_of_occurs (θ : Nat → type) (v w : Nat)
    (hw : occurs (θ v) w = true) :
    ∀ ts : List type, occurs_list ts v = true → occurs_list (assign_list θ ts) w = true
  | [], h => by simp [occurs_list] at h
  | t :: ts, h => by
      simp only [occurs_list, Bool.or_eq_true] at h
      simp only [assign_list, occurs_list, Bool.or_eq_true]
      rcases h with h | h
      · exact Or.inl (occurs_assign_of_occurs θ v w hw t h)
      · exact Or.inr (occurs_list_assign_of_occurs θ v w hw ts h)
end

mutual
theorem occurs_apply_key (s : substitution) (hs : solved s) (k : Nat) (hk : ∃ e ∈ s, e.1 = k) :
    ∀ t : type, occurs (apply s t) k = false
  | .var u => by
      simp only [apply, assign, binding]
      cases hf : map_find s u with
      | none =>
          simp only [Option.getD_none, occurs, beq_eq_false_iff_ne]
          obtain ⟨e, he, rfl⟩ := hk
          exact fun h => map_find_eq_none_iff.1 hf e he h.symm
      | some b =>
          simp only [Option.getD_some]
          obtain ⟨e, he, rfl⟩ := hk
          exact hs e he (u, b) (mem_of_map_find hf)
  | .op l ts => by
      have := occurs_list_apply_key s hs k hk ts
      simp only [apply, assign, occurs, this]
theorem occurs_list_apply_key (s : substitution) (hs : solved s) (k : Nat)
    (hk : ∃ e ∈ s, e.1 = k) :
    ∀ ts : List type, occurs_list (assign_list (binding s) ts) k = false
  | [] => by simp [assign_list, occurs_list]
  | t :: ts => by
      have h1 := occurs_apply_key s hs k hk t
      have h2 := occurs_list_apply_key s hs k hk ts
      simp only [apply] at h1
      simp only [assign_list, occurs_list, h1, h2, Bool.or_self]
end

theorem binding_of_not_key {s : substitution} {v : Nat} (h : ¬ ∃ e ∈ s, e.1 = v) :
    binding s v = .var v := by
  have : map_find s v = none := by
    rw [map_find_eq_none_iff]
    exact fun e he hev => h ⟨e, he, hev⟩
  simp [binding, this]

/-- Started on a well-formed map in solved form, `unify` of two operators of different
kind or size throws `type_mismatch` and leaves the substitution as it was. -/
theorem unify_pair_mismatch {s : substitution} (ho : ordered s) (hs : solved s)
    (k : Nat) (xs : List type) (l : Nat) (ys : List type)
    (h : k ≠ l ∨ xs.length ≠ ys.length) :
    unify_pair (1 + s.length) (.op k xs) (.op l ys) s =
      some (.threw (.type_mismatch (apply s (.op k xs)) (apply s (.op l ys))) s) := by
  rw [unify_pair, unify_of_solved s ho hs]
  simp only [List.reverse_cons, List.reverse_nil, List.nil_append, List.map_cons, List.map_nil]
  apply run_succ_cons_error
  have hck : compare_kind k (assign_list (binding s) xs) l (assign_list (binding s) ys) = false := by
    simp only [compare_kind, length_assign_list, Bool.and_eq_false_iff, beq_eq_false_iff_ne]
    exact h
  simp [apply, assign, visit, hck]

/-- Started on a well-formed map in solved form, `unify` of a variable whose binding is
the variable `w` with an operator term throws `recursive_unification` when `w` occurs in
the term after the substitution has been applied to it. -/
theorem unify_pair_recursive {s : substitution} (ho : ordered s) (hs : solved s)
    (v w l : Nat) (ys : List type) (hv : binding s v = .var w)
    (h : occurs (apply s (.op l ys)) w = true) :
    unify_pair (1 + s.length) (.var v) (.op l ys) s =
      some (.threw (.recursive_unification (.var w) (apply s (.op l ys))) s) := by
  rw [unify_pair, unify_of_solved s ho hs]
  simp only [List.reverse_cons, List.reverse_nil, List.nil_append, List.map_cons, List.map_nil]
  apply run_succ_cons_error
  have h1 : apply s (.var v) = .var w := by simp [apply, assign, hv]
  have h2 : apply s (.op l ys) = .op l (assign_list (binding s) ys) := by simp [apply, assign]
  rw [h2] at h
  rw [h1, h2]
  simp [visit, h]

theorem mem_zip_self {a b : type} : ∀ {xs : List type}, (a, b) ∈ List.zip xs xs → a = b
  | [], h => by simp at h
  | x :: xs, h => by
      simp only [List.zip_cons_cons, List.mem_cons, Prod.mk.injEq] at h
      rcases h with ⟨h1, h2⟩ | h
      · rw [h1, h2]
      · exact mem_zip_self h

/-- When both sides of every pending constraint are the same type, the loop can only
return, with the substitution unchanged. -/
theorem run_identical {fuel : Nat} {u : unifier} {r : result}
    (hid : ∀ c ∈ u.m_stack, c.1 = c.2) (h : unifier.run fuel u = some r) :
    r = .returned u.m_substitution := by
  induction fuel generalizing u with
  | zero =>
      obtain ⟨stack, σ⟩ := u
      cases stack with
      | nil =>
          rw [run_nil] at h
          injection h with h; exact h.symm
      | cons c rest => rw [run_zero_cons] at h; cases h
  | succ n ih =>
      obtain ⟨stack, σ⟩ := u
      cases stack with
      | nil =>
          rw [run_nil] at h
          injection h with h; exact h.symm
      | cons c rest =>
          obtain ⟨x, y⟩ := c
          have hxy : x = y := hid (x, y) (List.mem_cons_self _ _)
          subst hxy
          have hrest : ∀ c ∈ rest, c.1 = c.2 := fun c hc => hid c (List.mem_cons_of_mem _ hc)
          cases x with
          | var a =>
              have hv : visit ⟨rest, σ⟩ (.var a) (.var a) = .ok ⟨rest, σ⟩ := by simp [visit]
              rw [run_succ_cons_ok hv] at h
              exact ih (u := ⟨rest, σ⟩) hrest h
          | op k xs =>
              have hv : visit ⟨rest, σ⟩ (.op k xs) (.op k xs) =
                  .ok ⟨push_children xs xs rest, σ⟩ := by simp [visit, compare_kind]
              rw [run_succ_cons_ok hv] at h
              refine ih (u := ⟨push_children xs xs rest, σ⟩) ?_ h
              intro c hc
              rcases (mem_push_children xs xs rest).1 hc with hc | hc
              · exact mem_zip_self (a := c.1) (b := c.2) hc
              · exact hrest c hc

/-! ## Decomposition of a function type at the bottom of the stack -/

theorem push_children_append :
    ∀ (xs ys : List type) (a b : List constraint),
      push_children xs ys (a ++ b) = push_children xs ys a ++ b
  | [], _, _, _ => by simp [push_children]
  | _ :: _, [], _, _ => by simp [push_children]
  | x :: xs, y :: ys, a, b => by
      rw [push_children, push_children, ← List.cons_append, push_children_append xs ys]

theorem visit_error_stack {stack stack1 : List constraint} {σ : substitution} {x y : type}
    {e : error} (h : visit ⟨stack, σ⟩ x y = .error e) : visit ⟨stack1, σ⟩ x y = .error e := by
  cases x <;> cases y <;> simp only [visit] at h ⊢ <;> split_ifs at h ⊢ <;> exact h

theorem replace_make_function (A B : type) (v : Nat) (t : type) :
    replace (inference.make_function A B) v t =
      inference.make_function (replace A v t) (replace B v t) := by
  simp [inference.make_function, replace, replace_list]

/-- A visit acts on the part of the stack below its top uniformly: the lower part `q` is
only mapped by a function `g` that commutes with the function-type constructor, and the
same visit on another lower part `q1` does the same to `q1`. -/
theorem visit_append_ok {p q : List constraint} {σ : substitution} {x y : type} {u1 : unifier}
    (h : visit ⟨p ++ q, σ⟩ x y = .ok u1) :
    ∃ (p1 : List constraint) (σ1 : substitution) (g : type → type),
      (∀ A B, g (inference.make_function A B) = inference.make_function (g A) (g B)) ∧
      ∀ q1, visit ⟨p ++ q1, σ⟩ x y = .ok ⟨p1 ++ q1.map (fun c => (g c.1, g c.2)), σ1⟩ := by
  have helim : ∀ (v : Nat) (t : type), ∃ (p1 : List constraint) (σ1 : substitution)
      (g : type → type),
      (∀ A B, g (inference.make_function A B) = inference.make_function (g A) (g B)) ∧
      ∀ q1, eliminate ⟨p ++ q1, σ⟩ v t = ⟨p1 ++ q1.map (fun c => (g c.1, g c.2)), σ1⟩ := by
    intro v t
    refine ⟨p.map (fun c => (replace c.1 v t, replace c.2 v t)),
      map_assign (σ.map (fun e => (e.1, replace e.2 v t))) v t, fun a => replace a v t,
      fun A B => replace_make_function A B v t, fun q1 => ?_⟩
    simp [eliminate]
  have hid : ∀ q1 : List constraint, q1.map (fun c => ((fun a : type => a) c.1,
      (fun a : type => a) c.2)) = q1 := by
    intro q1
    simp
  cases x with
  | var a =>
      cases y with
      | var b =>
          by_cases hab : a = b
          · exact ⟨p, σ, fun a => a, fun _ _ => rfl, fun q1 => by simp [visit, hab]⟩
          · obtain ⟨p1, σ1, g, hg, hq⟩ := helim a (.var b)
            refine ⟨p1, σ1, g, hg, fun q1 => ?_⟩
            simp only [visit, ne_eq, hab, not_false_eq_true, if_true, hq]
      | op l ys =>
          simp only [visit] at h
          split_ifs at h with ho
          obtain ⟨p1, σ1, g, hg, hq⟩ := helim a (.op l ys)
          refine ⟨p1, σ1, g, hg, fun q1 => ?_⟩
          simp only [visit, ho, hq]
          rfl
  | op k xs =>
      cases y with
      | var b =>
          simp only [visit] at h
          split_ifs at h with ho
          obtain ⟨p1, σ1, g, hg, hq⟩ := helim b (.op k xs)
          refine ⟨p1, σ1, g, hg, fun q1 => ?_⟩
          simp only [visit, ho, hq]
          rfl
      | op l ys =>
          simp only [visit] at h
          split_ifs at h with hk
          refine ⟨push_children xs ys p, σ, fun a => a, fun _ _ => rfl, fun q1 => ?_⟩
          simp only [visit, hk, push_children_append, hid]
          rfl

theorem visit_make_function (σ : substitution) (A B C D : type) :
    visit ⟨[], σ⟩ (inference.make_function A B) (inference.make_function C D) =
      .ok ⟨[(B, D), (A, C)], σ⟩ := by
  simp [inference.make_function, visit, compare_kind, push_children]

/-- If the loop stops with `r` when the bottom of the stack is the constraint
`function(A,B) = function(C,D)`, it stops with `r` when the bottom is instead the two
constraints `A = C` and `B = D` (the latter on top). -/
theorem run_decompose {fuel : Nat} :
    ∀ {p : List constraint} {σ : substitution} {A B C D : type} {r : result},
      unifier.run fuel
          ⟨p ++ [(inference.make_function A B, inference.make_function C D)], σ⟩ = some r →
      unifier.run fuel ⟨p ++ [(B, D), (A, C)], σ⟩ = some r := by
  induction fuel with
  | zero =>
      intro p σ A B C D r h
      cases p with
      | nil => rw [List.nil_append, run_zero_cons] at h; cases h
      | cons c p => rw [List.cons_append, run_zero_cons] at h; cases h
  | succ n ih =>
      intro p σ A B C D r h
      cases p with
      | nil =>
          rw [List.nil_append, run_succ_cons_ok (visit_make_function σ A B C D)] at h
          exact run_succ h
      | cons c p =>
          obtain ⟨x, y⟩ := c
          rw [List.cons_append] at h ⊢
          cases hv : visit ⟨p ++ [(inference.make_function A B, inference.make_function C D)], σ⟩
              x y with
          | error e =>
              rw [run_succ_cons_error hv] at h
              rw [run_succ_cons_error (visit_error_stack hv)]
              exact h
          | ok u1 =>
              obtain ⟨p1, σ1, g, hg, hq⟩ := visit_append_ok hv
              rw [run_succ_cons_ok (hq _)] at h
              rw [run_succ_cons_ok (hq _)]
              simp only [List.map_cons, List.map_nil, hg] at h ⊢
              exact ih h

/-- Conversely, with one more iteration. -/
theorem run_compose {fuel : Nat} :
    ∀ {p : List constraint} {σ : substitution} {A B C D : type} {r : result},
      unifier.run fuel ⟨p ++ [(B, D), (A, C)], σ⟩ = some r →
      unifier.run (fuel + 1)
          ⟨p ++ [(inference.make_function A B, inference.make_function C D)], σ⟩ = some r := by
  induction fuel with
  | zero =>
      intro p σ A B C D r h
      cases p with
      | nil => rw [List.nil_append, run_zero_cons] at h; cases h
      | cons c p => rw [List.cons_append, run_zero_cons] at h; cases h
  | succ n ih =>
      intro p σ A B C D r h
      cases p with
      | nil =>
          rw [List.nil_append, run_succ_cons_ok (visit_make_function σ A B C D)]
          exact h
      | cons c p =>
          obtain ⟨x, y⟩ := c
          rw [List.cons_append] at h ⊢
          cases hv : visit ⟨p ++ [(B, D), (A, C)], σ⟩ x y with
          | error e =>
              rw [run_succ_cons_error hv] at h
              rw [run_succ_cons_error (visit_error_stack hv)]
              exact h
          | ok u1 =>
              obtain ⟨p1, σ1, g, hg, hq⟩ := visit_append_ok hv
              rw [run_succ_cons_ok (hq _)] at h
              rw [run_succ_cons_ok (hq _)]
              simp only [List.map_cons, List.map_nil, hg] at h ⊢
              exact ih h

/-! ## Acyclic substitutions and `definitive` -/

theorem key_of_binds {s : substitution} {k w : Nat} (h : binds s k w) : ∃ e ∈ s, e.1 = k := by
  obtain ⟨v, hv, _⟩ := h
  exact ⟨(k, v), mem_of_map_find hv, rfl⟩

/-- Induction along a relation on variables that has no cycle and relates only the keys of
`s` to something: a property holds of every variable as soon as it holds of a variable
whenever it holds of all the variables related to it. -/
theorem acyclic_induction {s : substitution} {R : Nat → Nat → Prop}
    (hkey : ∀ k w, R k w → ∃ e ∈ s, e.1 = k) (h : ∀ v, ¬ Relation.TransGen R v v)
    {P : Nat → Prop} (step : ∀ k, (∀ w, R k w → P w) → P k) : ∀ v, P v := by
  let r : Nat → Nat → Prop := fun a b => Relation.TransGen R b a
  haveI : IsStrictOrder Nat r :=
    { irrefl := fun a => h a
      trans := fun a b c hab hbc => Relation.TransGen.trans hbc hab }
  let K : Set Nat := {k | ∃ e ∈ s, e.1 = k}
  have hfin : K.Finite := by
    have : K = (fun e : Nat × type => e.1) '' {e | e ∈ s} := by
      ext k
      simp [K]
    rw [this]
    exact (List.finite_toSet s).image _
  have hwf : K.WellFoundedOn r := hfin.wellFoundedOn
  have hout : ∀ v, v ∉ K → P v := by
    intro v hv
    apply step
    intro w hw
    exact absurd (hkey v w hw) hv
  intro v
  by_cases hv : v ∈ K
  · refine hwf.induction hv ?_
    intro y _ ih
    apply step
    intro w hw
    by_cases hwK : w ∈ K
    · exact ih w hwK (Relation.TransGen.single hw)
    · exact hout w hwK
  · exact hout v hv

/-- In an acyclic substitution the loop of `definitive` cannot come back to a variable. -/
theorem follows_acyclic {s : substitution} (h : acyclic s) :
    ∀ v, ¬ Relation.TransGen (follows s) v v := by
  intro v hv
  refine h v (Relation.TransGen.mono ?_ hv)
  intro k w hkw
  exact ⟨.var w, hkw, by simp [occurs]⟩

/-- A substitution in solved form is acyclic. -/
theorem acyclic_of_solved {s : substitution} (h : solved s) : acyclic s := by
  intro v hv
  have hkey : ∃ e ∈ s, e.1 = v := by
    have : ∀ b, reaches s v b → ∃ e ∈ s, e.1 = v := by
      intro b hb
      induction hb with
      | single hb => exact key_of_binds hb
      | tail _ _ ih => exact ih
    exact this v hv
  have hval : ∃ e ∈ s, occurs e.2 v = true := by
    have : ∃ b, binds s b v := by
      cases hv with
      | single hb => exact ⟨_, hb⟩
      | tail _ hb => exact ⟨_, hb⟩
    obtain ⟨b, val, hf, ho⟩ := this
    exact ⟨(b, val), mem_of_map_find hf, ho⟩
  obtain ⟨e, he, rfl⟩ := hkey
  obtain ⟨e1, he1, ho⟩ := hval
  rw [h e he e1 he1] at ho
  cases ho

/-- A substitution is acyclic when some rank strictly decreases along every binding. -/
theorem acyclic_of_rank {s : substitution} (rank : Nat → Nat)
    (h : ∀ k w, binds s k w → rank w < rank k) : acyclic s := by
  have : ∀ a b, reaches s a b → rank b < rank a := by
    intro a b hab
    induction hab with
    | single hb => exact h _ _ hb
    | tail _ hb ih => exact lt_trans (h _ _ hb) ih
  intro v hv
  exact lt_irrefl _ (this v v hv)

end unification

namespace inference

open unification

theorem definitive_loop_op (fuel : Nat) (s : substitution) (k : Nat) (ts : List type) :
    definitive_loop fuel s (.op k ts) = some (.op k ts) := by
  cases fuel <;> rfl

theorem definitive_loop_none {s : substitution} {v : Nat} (fuel : Nat)
    (h : map_find s v = none) : definitive_loop fuel s (.var v) = some (.var v) := by
  cases fuel <;> simp [definitive_loop, h]

theorem definitive_loop_some {s : substitution} {v : Nat} {t : type} (fuel : Nat)
    (h : map_find s v = some t) :
    definitive_loop (fuel + 1) s (.var v) = definitive_loop fuel s t := by
  simp [definitive_loop, h]

/-- The loop of `definitive` stops, with a definitive result, as soon as the bindings of
variables to variables have no cycle. -/
theorem definitive_loop_terminates {s : substitution}
    (h : ∀ v, ¬ Relation.TransGen (follows s) v v) :
    ∀ v, ∃ fuel t, definitive_loop fuel s (.var v) = some t ∧ is_definitive s t := by
  refine acyclic_induction (s := s) (R := follows s)
    (P := fun v => ∃ fuel t, definitive_loop fuel s (.var v) = some t ∧ is_definitive s t)
    (fun k w hkw => ⟨(k, .var w), mem_of_map_find hkw, rfl⟩) h ?_
  intro k ih
  cases hf : map_find s k with
  | none =>
      exact ⟨0, .var k, definitive_loop_none 0 hf, by simp [is_definitive, map_count, hf]⟩
  | some t =>
      cases t with
      | var w =>
          obtain ⟨n, t, hn, ht⟩ := ih w hf
          exact ⟨n + 1, t, by rw [definitive_loop_some n hf]; exact hn, ht⟩
      | op l ts =>
          exact ⟨1, .op l ts, by rw [definitive_loop_some 0 hf, definitive_loop_op],
            by simp [is_definitive]⟩

end inference

namespace unification

open inference

/-! ## The claims -/

/-- C1. Soundness of `unify`: if `unify` on a list of constraints and the empty
substitution returns with the substitution `s1`, then for every constraint `(x, y)` of the
list, replacing every variable that is a key of `s1` by its value gives the same type
for `x` and for `y`. -/
theorem unify_sound (fuel : Nat) (constraints : List constraint) (s1 : substitution)
    (h : unify fuel constraints [] = some (.returned s1)) :
    ∀ c ∈ constraints, apply s1 c.1 = apply s1 c.2 := by
  obtain ⟨hinv, hsol⟩ := run_returned (inv_init constraints []) h
  have := hsol _ (solves_binding hinv.1 hinv.2.1)
  intro c hc
  exact this.1 c (by simp [unifier.init, hc])

/-- Witness of C1: `function(a, b)` against `function(int, a)`. -/
theorem unify_sound_witness :
    unify 4 [(make_function (.var 0) (.var 1), make_function integer (.var 0))] [] =
        some (.returned [(0, integer), (1, integer)]) ∧
      ∀ c ∈ [(make_function (.var 0) (.var 1), make_function integer (.var 0))],
        apply [(0, integer), (1, integer)] c.1 = apply [(0, integer), (1, integer)] c.2 :=
  ⟨by decide, unify_sound 4 _ _ (by decide)⟩

/-- C2. Completeness of `unify`: if some assignment of types to variables makes `x` and
`y` identical, then `unify(x, y, {})` returns; and whenever `unify(x, y, {})` throws
(`type_mismatch` or `recursive_unification`), no assignment makes `x` and `y` identical. -/
theorem unify_complete (x y : type) :
    ((∃ θ, assign θ x = assign θ y) → ∃ fuel s1, unify_pair fuel x y [] = some (.returned s1)) ∧
    (∀ fuel e s1, unify_pair fuel x y [] = some (.threw e s1) →
      ∀ θ, assign θ x ≠ assign θ y) := by
  have hsol : ∀ θ, assign θ x = assign θ y → solves θ (unifier.init [(x, y)] []) := by
    intro θ hθ
    refine ⟨?_, fun e he => by simp [unifier.init] at he⟩
    intro c hc
    have : c = (x, y) := by simpa [unifier.init] using hc
    subst this
    exact hθ
  constructor
  · rintro ⟨θ, hθ⟩
    obtain ⟨fuel, r, hr⟩ := run_terminates (unifier.init [(x, y)] [])
    obtain ⟨s1, rfl, _⟩ := run_of_solves (hsol θ hθ) hr
    exact ⟨fuel, s1, hr⟩
  · intro fuel e s1 h θ hθ
    obtain ⟨s2, h2, _⟩ := run_of_solves (hsol θ hθ) h
    cases h2

/-- Witness of C2: a variable against `int` (unifiable), and `int` against `bool` (the
call throws). -/
theorem unify_complete_witness :
    (∃ fuel s1, unify_pair fuel (.var 0) integer [] = some (.returned s1)) ∧
      ∀ θ, assign θ integer ≠ assign θ boolean :=
  ⟨(unify_complete (.var 0) integer).1 ⟨fun _ => integer, rfl⟩,
    (unify_complete integer boolean).2 1 (.type_mismatch integer boolean) [] (by decide)⟩

/-- C3. Termination of `unify`: for every list of constraints and every substitution, the
worklist loop stops after finitely many iterations, either returning a substitution or
throwing `type_mismatch` or `recursive_unification`. -/
theorem unify_terminates (constraints : List constraint) (s : substitution) :
    ∃ fuel,
      (∃ s1, unify fuel constraints s = some (.returned s1)) ∨
      (∃ x y s1, unify fuel constraints s = some (.threw (.type_mismatch x y) s1)) ∨
      (∃ x y s1, unify fuel constraints s = some (.threw (.recursive_unification x y) s1)) := by
  obtain ⟨fuel, r, hr⟩ := run_terminates (unifier.init constraints s)
  refine ⟨fuel, ?_⟩
  cases r with
  | returned s1 => exact Or.inl ⟨s1, hr⟩
  | threw e s1 =>
      cases e with
      | type_mismatch x y => exact Or.inr (Or.inl ⟨x, y, s1, hr⟩)
      | recursive_unification x y => exact Or.inr (Or.inr ⟨x, y, s1, hr⟩)

/-- C4, counterexample. The substitution `{0 -> int}` is produced by `unify(0, int, {})`,
the variable `0` occurs in `function(0, int)`, and `unify(0, function(0, int), {0 -> int})`
throws `type_mismatch(int, function(int, int))`, not `recursive_unification`. -/
theorem occurs_check_counterexample :
    produced [(0, integer)] ∧
      occurs (make_function (.var 0) integer) 0 = true ∧
      unify_pair 2 (.var 0) (make_function (.var 0) integer) [(0, integer)] =
        some (.threw (.type_mismatch integer (make_function integer integer)) [(0, integer)]) :=
  ⟨produced.call [] [(.var 0, integer)] 1 _ produced.empty (by decide), by decide, by decide⟩

/-- C4, amended. For every substitution `s` produced by earlier successful `unify` calls,
every type variable `v` and every type-operator term `y` in which `v` occurs (directly,
or after replacing the variables of `y` by their bindings in `s`), `unify(v, y, s)` stops
by throwing: it never returns and never loops. When `s` does not bind `v` to a type
operator (the binding of `v` is a variable `w`, which is `v` itself when `v` is not a key),
the exception is `recursive_unification(w, y with s applied)` and the substitution is
left as `s`. -/
theorem occurs_check_throws (s : substitution) (v l : Nat) (ys : List type) (hs : produced s)
    (hocc : occurs (.op l ys) v = true ∨ occurs (apply s (.op l ys)) v = true) :
    (∃ fuel e s1, unify_pair fuel (.var v) (.op l ys) s = some (.threw e s1)) ∧
    (∀ w, binding s v = .var w →
      ∃ fuel, unify_pair fuel (.var v) (.op l ys) s =
        some (.threw (.recursive_unification (.var w) (apply s (.op l ys))) s)) := by
  obtain ⟨ho, hsol⟩ := produced_solved hs
  constructor
  · obtain ⟨fuel, r, hr⟩ := run_terminates (unifier.init [(.var v, .op l ys)] s)
    cases r with
    | threw e s1 => exact ⟨fuel, e, s1, hr⟩
    | returned s1 =>
        exfalso
        obtain ⟨h1, h2⟩ := unify_returned_solves hr
        have hc : binding s1 v = assign (binding s1) (.op l ys) := by
          simpa [apply, assign] using h1 (.var v, .op l ys) (List.mem_cons_self _ _)
        rcases hocc with hocc | hocc
        · exact assign_ne_of_occurs _ v l ys hocc hc
        · have h3 := assign_apply_of_solves (binding s1) s h2 (.op l ys)
          have h4 : apply s (.op l ys) = .op l (assign_list (binding s) ys) := by
            simp [apply, assign]
          rw [h4] at h3 hocc
          rw [← h3] at hc
          exact assign_ne_of_occurs _ v l _ hocc hc
  · intro w hw
    refine ⟨1 + s.length, unify_pair_recursive ho hsol v w l ys hw ?_⟩
    rcases hocc with hocc | hocc
    · exact occurs_assign_of_occurs (binding s) v w (by rw [hw]; simp [occurs]) _ hocc
    · have hnk : ¬ ∃ e ∈ s, e.1 = v := by
        intro hk
        rw [occurs_apply_key s hsol v hk] at hocc
        cases hocc
      rw [binding_of_not_key hnk] at hw
      injection hw with hw
      subst hw
      exact hocc

/-- Witness of C4, amended: on `{0 -> 1}`, `unify(0, function(0, int))` throws
`recursive_unification(1, function(1, int))`. -/
theorem occurs_check_throws_witness :
    (∃ fuel e s1, unify_pair fuel (.var 0) (.op 2 [.var 0, integer]) [(0, .var 1)] =
        some (.threw e s1)) ∧
      ∃ fuel, unify_pair fuel (.var 0) (.op 2 [.var 0, integer]) [(0, .var 1)] =
        some (.threw (.recursive_unification (.var 1)
          (apply [(0, .var 1)] (.op 2 [.var 0, integer]))) [(0, .var 1)]) :=
  ⟨(occurs_check_throws [(0, .var 1)] 0 2 [.var 0, integer]
      (produced.call [] [(.var 0, .var 1)] 1 _ produced.empty (by decide))
      (Or.inl (by decide))).1,
    (occurs_check_throws [(0, .var 1)] 0 2 [.var 0, integer]
      (produced.call [] [(.var 0, .var 1)] 1 _ produced.empty (by decide))
      (Or.inl (by decide))).2 1 (by decide)⟩

/-- C5. Kind/arity mismatch: for every substitution `s` produced by earlier successful
`unify` calls and every two type-operator terms whose kinds differ or whose numbers of
children differ, `unify(x, y, s)` throws `type_mismatch` (of the two terms with `s`
applied, leaving the substitution as `s`); in particular `pair(A, B)` against
`function(C, D)` throws `type_mismatch` for all types `A`, `B`, `C`, `D`. -/
theorem kind_mismatch (s : substitution) (hs : produced s) :
    (∀ (k : Nat) (xs : List type) (l : Nat) (ys : List type),
      k ≠ l ∨ xs.length ≠ ys.length →
      ∃ fuel, unify_pair fuel (.op k xs) (.op l ys) s =
        some (.threw (.type_mismatch (apply s (.op k xs)) (apply s (.op l ys))) s)) ∧
    (∀ A B C D : type,
      ∃ fuel, unify_pair fuel (pair A B) (make_function C D) s =
        some (.threw (.type_mismatch (apply s (pair A B)) (apply s (make_function C D))) s)) := by
  obtain ⟨ho, hsol⟩ := produced_solved hs
  constructor
  · intro k xs l ys h
    exact ⟨1 + s.length, unify_pair_mismatch ho hsol k xs l ys h⟩
  · intro A B C D
    exact ⟨1 + s.length, unify_pair_mismatch ho hsol _ _ _ _ (Or.inl (by decide))⟩

/-- Witness of C5: on `{0 -> int}`, `int` against `function(0, 0)` (kinds and sizes
differ). -/
theorem kind_mismatch_witness :
    ∃ fuel, unify_pair fuel (.op 0 []) (.op 2 [.var 0, .var 0]) [(0, integer)] =
      some (.threw (.type_mismatch (apply [(0, integer)] (.op 0 []))
        (apply [(0, integer)] (.op 2 [.var 0, .var 0]))) [(0, integer)]) :=
  (kind_mismatch [(0, integer)]
    (produced.call [] [(.var 0, integer)] 1 _ produced.empty (by decide))).1
    0 [] 2 [.var 0, .var 0] (Or.inl (by decide))

/-- C6. Function decomposition: for all types `A`, `B`, `C`, `D`, every substitution `s`
and every outcome `r`, `unify(function(A,B), function(C,D), s)` ends with `r` exactly when
`unify` of the two-constraint list `[(A,C), (B,D)]` on the same `s` ends with `r`: one
call returns exactly when the other does, and they leave the same substitution. -/
theorem function_decomposition (A B C D : type) (s : substitution) (r : result) :
    (∃ fuel, unify_pair fuel (make_function A B) (make_function C D) s = some r) ↔
      (∃ fuel, unify fuel [(A, C), (B, D)] s = some r) := by
  constructor
  · rintro ⟨fuel, h⟩
    refine ⟨fuel, ?_⟩
    simp only [unify_pair, unify, unifier.init, List.reverse_cons, List.reverse_nil,
      List.nil_append, List.singleton_append] at h ⊢
    exact run_decompose h
  · rintro ⟨fuel, h⟩
    refine ⟨fuel + 1, ?_⟩
    simp only [unify_pair, unify, unifier.init, List.reverse_cons, List.reverse_nil,
      List.nil_append, List.singleton_append] at h ⊢
    exact run_compose h

/-- C7, counterexample. The substitution `{0 -> function(1, int), 1 -> int}` is acyclic,
`unify(int, int, s)` returns, and afterwards `definitive` of the key `0` is
`function(int, int)`, whereas before the call it was `function(1, int)`. -/
theorem self_unify_counterexample :
    acyclic [(0, make_function (.var 1) integer), (1, integer)] ∧
      unify_pair 3 integer integer [(0, make_function (.var 1) integer), (1, integer)] =
        some (.returned [(0, make_function integer integer), (1, integer)]) ∧
      map_count [(0, make_function (.var 1) integer), (1, integer)] 0 = true ∧
      definitive 1 [(0, make_function integer integer), (1, integer)] 0 =
        some (make_function integer integer) ∧
      definitive 1 [(0, make_function (.var 1) integer), (1, integer)] 0 =
        some (make_function (.var 1) integer) ∧
      make_function integer integer ≠ make_function (.var 1) integer := by
  refine ⟨?_, by decide, by decide, by decide, by decide, by decide⟩
  refine acyclic_of_rank (fun v => 1 - v) ?_
  rintro k w ⟨v, hf, ho⟩
  simp only [map_find] at hf
  split_ifs at hf with h0 h1
  · injection hf with hf
    subst hf h0
    have : 1 = w := by simpa [make_function, integer, occurs, occurs_list] using ho
    subst this
    decide
  · injection hf with hf
    subst hf
    simp [integer, occurs, occurs_list] at ho

/-- C8. `definitive` terminates with a definitive result: for every acyclic substitution
`s` and every type variable `v`, the loop of `definitive(s, v)` stops, and what it returns
is a type-operator term or a type variable that is not a key of `s`. -/
theorem definitive_terminates (s : substitution) (h : acyclic s) (v : Nat) :
    ∃ fuel t, definitive fuel s v = some t ∧
      ((∃ k ts, t = .op k ts) ∨ (∃ w, t = .var w ∧ map_count s w = false)) := by
  obtain ⟨fuel, t, ht, hd⟩ := definitive_loop_terminates (follows_acyclic h) v
  refine ⟨fuel, t, ht, ?_⟩
  cases t with
  | var w => exact Or.inr ⟨w, rfl, hd⟩
  | op k ts => exact Or.inl ⟨k, ts, rfl⟩

/-- Witness of C8: the acyclic chain `{0 -> 1, 1 -> 2}`, which is not in solved form. -/
theorem definitive_terminates_witness :
    acyclic [(0, .var 1), (1, .var 2)] ∧
      ∃ fuel t, definitive fuel [(0, .var 1), (1, .var 2)] 0 = some t ∧
        ((∃ k ts, t = .op k ts) ∨
          (∃ w, t = .var w ∧ map_count [(0, .var 1), (1, .var 2)] w = false)) :=
  have hacyclic : acyclic [(0, .var 1), (1, .var 2)] := by
    refine acyclic_of_rank (fun v => 2 - v) ?_
    rintro k w ⟨v, hf, ho⟩
    simp only [map_find] at hf
    split_ifs at hf with h0 h1
    · injection hf with hf
      subst hf h0
      have : 1 = w := by simpa [occurs] using ho
      subst this
      decide
    · injection hf with hf
      subst hf h1
      have : 2 = w := by simpa [occurs] using ho
      subst this
      decide
  ⟨hacyclic, definitive_terminates _ hacyclic 0⟩

/-- C9. Solved-form invariant: for every list of constraints and every starting
substitution, if `unify` returns, then in the resulting substitution no variable that is
a key occurs in any value; hence the result is acyclic and `definitive` terminates on it. -/
theorem solved_form_invariant (fuel : Nat) (constraints : List constraint)
    (s s1 : substitution) (h : unify fuel constraints s = some (.returned s1)) :
    (∀ e ∈ s1, ∀ e1 ∈ s1, occurs e1.2 e.1 = false) ∧ acyclic s1 ∧
      ∀ v, ∃ fuel1 t, definitive fuel1 s1 v = some t := by
  have hsol := (unify_returned_inv h).2
  refine ⟨hsol, acyclic_of_solved hsol, fun v => ?_⟩
  obtain ⟨n, t, ht, _⟩ :=
    definitive_loop_terminates (follows_acyclic (acyclic_of_solved hsol)) v
  exact ⟨n, t, ht⟩

/-- Witness of C9: `unify(1, int)` on the chain `{0 -> 1}` returns
`{0 -> int, 1 -> int}`. -/
theorem solved_form_invariant_witness :
    unify 2 [(.var 1, integer)] [(0, .var 1)] = some (.returned [(0, integer), (1, integer)]) ∧
      (∀ e ∈ [(0, integer), (1, integer)], ∀ e1 ∈ [(0, integer), (1, integer)],
        occurs e1.2 e.1 = false) ∧ acyclic [(0, integer), (1, integer)] ∧
      ∀ v, ∃ fuel1 t, definitive fuel1 [(0, integer), (1, integer)] v = some t :=
  ⟨by decide, solved_form_invariant 2 [(.var 1, integer)] [(0, .var 1)] _ (by decide)⟩

/-- C10. `unify` extends the substitution: for every substitution `s` produced by earlier
successful `unify` calls and every list of constraints, if `unify` returns with `s1`, then
every key `k` of `s` is still a key of `s1`, and its new value is the old value with every
variable bound in `s1` replaced by its binding. -/
theorem unify_extends (s : substitution) (constraints : List constraint) (fuel : Nat)
    (s1 : substitution) (hs : produced s)
    (h : unify fuel constraints s = some (.returned s1)) :
    ∀ k v, map_find s k = some v → map_find s1 k = some (apply s1 v) := by
  obtain ⟨ho, hsol⟩ := produced_solved hs
  obtain ⟨ho1, _⟩ := unify_returned_inv h
  intro k v hkv
  obtain ⟨n, r, hr⟩ := run_terminates
    ⟨constraints.reverse.map (fun c => (apply s c.1, apply s c.2)), s⟩
  have hr1 := hr
  rw [← unify_of_solved s ho hsol] at hr1
  have := run_det h hr1
  subst this
  obtain ⟨v1, hv1⟩ := run_keys hr (k, v) (mem_of_map_find hkv)
  have hf1 : map_find s1 k = some v1 := map_find_of_mem ho1 hv1
  have h2 := (unify_returned_solves h).2 (k, v) (mem_of_map_find hkv)
  simp only [binding, hf1, Option.getD_some] at h2
  rw [hf1, h2]

/-- Witness of C10: `unify(1, int)` on `{0 -> 1}`; the key `0` stays, its value `1`
becomes `int`. -/
theorem unify_extends_witness :
    produced [(0, .var 1)] ∧
      unify 2 [(.var 1, integer)] [(0, .var 1)] = some (.returned [(0, integer), (1, integer)]) ∧
      map_find [(0, .var 1)] 0 = some (.var 1) ∧
      map_find [(0, integer), (1, integer)] 0 =
        some (apply [(0, integer), (1, integer)] (.var 1)) :=
  have hp : produced [(0, .var 1)] :=
    produced.call [] [(.var 0, .var 1)] 1 _ produced.empty (by decide)
  ⟨hp, by decide, by decide,
    unify_extends [(0, .var 1)] [(.var 1, integer)] 2 [(0, integer), (1, integer)] hp (by decide)
      0 (.var 1) (by decide)⟩

/-- C11. Most general unifier: if `unify(x, y, {})` returns with `s`, then every
assignment `σ` of types to variables that makes `x` and `y` identical factors through `s`:
for every type `t`, applying `σ` after `s` to `t` gives the same type as applying `σ`
to `t`. -/
theorem unify_most_general (x y : type) (fuel : Nat) (s : substitution)
    (h : unify_pair fuel x y [] = some (.returned s))
    (σ : Nat → type) (hσ : assign σ x = assign σ y) :
    ∀ t : type, assign σ (apply s t) = assign σ t := by
  have hsol : solves σ (unifier.init [(x, y)] []) := by
    rw [solves_init_iff]
    refine ⟨?_, fun e he => by simp at he⟩
    intro c hc
    have : c = (x, y) := by simpa using hc
    subst this
    exact hσ
  obtain ⟨s1, h1, h2⟩ := run_of_solves hsol h
  injection h1 with h1
  subst h1
  exact assign_apply_of_solves σ s h2.2

/-- Witness of C11: `function(0, 1)` against `function(int, 0)`, with the unifier that
sends every variable to `int`. -/
theorem unify_most_general_witness :
    unify_pair 4 (make_function (.var 0) (.var 1)) (make_function integer (.var 0)) [] =
        some (.returned [(0, integer), (1, integer)]) ∧
      ∀ t : type, assign (fun _ => integer) (apply [(0, integer), (1, integer)] t) =
        assign (fun _ => integer) t :=
  ⟨by decide,
    unify_most_general (make_function (.var 0) (.var 1)) (make_function integer (.var 0)) 4 _
      (by decide) (fun _ => integer) rfl⟩

end unification

namespace inference

open unification ast

/-! ## The inference rules on the examples of `demo.cpp` -/

theorem scoped_generic_enter_snd (env : environment) (name : String) (t : type) :
    (scoped_generic.enter env name t).2 = env.assign name t := by
  unfold scoped_generic.enter
  cases env.find name <;> rfl

/-! ## More fuel does not change a result -/

theorem definitive_loop_succ {fuel : Nat} {s : substitution} {t r : type}
    (h : definitive_loop fuel s t = some r) : definitive_loop (fuel + 1) s t = some r := by
  induction fuel generalizing t with
  | zero =>
      cases t with
      | op k ts => rw [definitive_loop_op] at h ⊢; exact h
      | var v =>
          cases hf : map_find s v with
          | none => rw [definitive_loop_none _ hf] at h ⊢; exact h
          | some b => simp [definitive_loop, hf] at h
  | succ n ih =>
      cases t with
      | op k ts => rw [definitive_loop_op] at h ⊢; exact h
      | var v =>
          cases hf : map_find s v with
          | none => rw [definitive_loop_none _ hf] at h ⊢; exact h
          | some b =>
              rw [definitive_loop_some _ hf] at h ⊢
              exact ih h

theorem definitive_succ {fuel : Nat} {s : substitution} {v : Nat} {r : type}
    (h : definitive fuel s v = some r) : definitive (fuel + 1) s v = some r :=
  definitive_loop_succ h

theorem is_generic_loop_succ {fuel : Nat} {s : substitution} {w : Nat} :
    ∀ {N : List Nat} {b : Bool}, is_generic_loop fuel s N w = some b →
      is_generic_loop (fuel + 1) s N w = some b
  | [], b, h => by simpa [is_generic_loop] using h
  | n :: N, b, h => by
      simp only [is_generic_loop] at h ⊢
      cases hd : definitive fuel s n with
      | none => simp [hd] at h
      | some d =>
          simp only [hd] at h
          simp only [definitive_succ hd]
          split_ifs at h ⊢ with ho
          · exact h
          · exact is_generic_loop_succ h

theorem visit_variable_succ {fuel : Nat} {fm : fresh_maker} {w : Nat}
    {r : type × fresh_maker} (h : fm.visit_variable fuel w = some r) :
    fm.visit_variable (fuel + 1) w = some r := by
  unfold fresh_maker.visit_variable fresh_maker.is_generic at h ⊢
  cases hg : is_generic_loop fuel fm.m_substitution fm.m_non_generic w with
  | none => simp [hg] at h
  | some b =>
      simp only [hg] at h
      simp only [is_generic_loop_succ hg]
      exact h

theorem transform_mono {f g : fresh_maker → type → Option (type × fresh_maker)}
    (hfg : ∀ fm t r, f fm t = some r → g fm t = some r) :
    ∀ (ts : List type) (fm : fresh_maker) (r : List type × fresh_maker),
      transform f fm ts = some r → transform g fm ts = some r
  | [], fm, r, h => by simpa [transform] using h
  | t :: ts, fm, r, h => by
      simp only [transform] at h ⊢
      cases hft : f fm t with
      | none => simp [hft] at h
      | some p =>
          obtain ⟨t1, fma⟩ := p
          simp only [hft] at h
          simp only [hfg fm t _ hft]
          cases htr : transform f fma ts with
          | none => simp [htr] at h
          | some q =>
              simp only [htr] at h
              simp only [transform_mono hfg ts fma q htr]
              exact h

theorem call_succ : ∀ (fuel : Nat) (fm : fresh_maker) (x : type) (r : type × fresh_maker),
    fresh_maker.call fuel fm x = some r → fresh_maker.call (fuel + 1) fm x = some r := by
  intro fuel
  induction fuel with
  | zero =>
      intro fm x r h
      simp [fresh_maker.call] at h
  | succ n ih =>
      intro fm x r h
      have htr : ∀ (k : Nat) (ts : List type),
          (match transform (fun fm1 t => fresh_maker.call n fm1 t) fm ts with
            | none => none
            | some (ts1, fm1) => some (type.op k ts1, fm1)) = some r →
          (match transform (fun fm1 t => fresh_maker.call (n + 1) fm1 t) fm ts with
            | none => none
            | some (ts1, fm1) => some (type.op k ts1, fm1)) = some r := by
        intro k ts h
        cases ht : transform (fun fm1 t => fresh_maker.call n fm1 t) fm ts with
        | none => simp [ht] at h
        | some q =>
            simp only [ht] at h
            simp only [transform_mono (fun fm t r h => ih fm t r h) ts fm q ht]
            exact h
      cases x with
      | op k ts =>
          rw [fresh_maker.call] at h ⊢
          exact htr k ts h
      | var v =>
          rw [fresh_maker.call] at h ⊢
          cases hd : definitive (n + 1) fm.m_substitution v with
          | none => simp [hd] at h
          | some d =>
              simp only [hd] at h
              simp only [definitive_succ hd]
              cases d with
              | var w => exact visit_variable_succ h
              | op k ts => exact htr k ts h

theorem unify_and_resolve_succ {fuel : Nat} {inf : inferencer} {x y : type} {r : Nat}
    {o : Except exception type × inferencer}
    (h : inf.unify_and_resolve fuel x y r = some o) :
    inf.unify_and_resolve (fuel + 1) x y r = some o := by
  unfold inferencer.unify_and_resolve at h ⊢
  cases hu : unify_pair fuel x y inf.m_substitution with
  | none => simp [hu] at h
  | some res =>
      have hu1 : unify_pair (fuel + 1) x y inf.m_substitution = some res := run_succ hu
      simp only [hu] at h
      simp only [hu1]
      cases res with
      | threw e s => exact h
      | returned s =>
          simp only at h ⊢
          cases hd : definitive fuel s r with
          | none => simp [hd] at h
          | some t =>
              simp only [hd] at h
              simp only [definitive_succ hd]
              exact h

/-- The result of a rule does not depend on the fuel, once there is enough of it. -/
theorem visit_succ (fuel : Nat) :
    ∀ (e : node) (inf : inferencer) (r : Except exception type × inferencer),
      inferencer.visit fuel e inf = some r → inferencer.visit (fuel + 1) e inf = some r := by
  intro e
  induction e with
  | integer_literal v =>
      intro inf r h
      simpa only [inferencer.visit] using h
  | identifier name =>
      intro inf r h
      simp only [inferencer.visit] at h ⊢
      cases hf : inf.m_environment.find name with
      | none => simpa only [hf] using h
      | some t =>
          simp only [hf] at h ⊢
          cases hc : fresh_maker.call fuel ⟨inf.m_environment, inf.m_non_generic_variables,
              inf.m_substitution, fun _ => none⟩ t with
          | none => simp [hc] at h
          | some q =>
              simp only [hc] at h
              simp only [call_succ _ _ _ _ hc]
              exact h
  | apply fn arg ihf iha =>
      intro inf r h
      simp only [inferencer.visit] at h ⊢
      cases h1 : inferencer.visit fuel fn inf with
      | none => simp [h1] at h
      | some q1 =>
          simp only [h1] at h
          simp only [ihf inf q1 h1]
          obtain ⟨o1, infa⟩ := q1
          cases o1 with
          | error e => exact h
          | ok fun_type =>
              simp only at h ⊢
              cases h2 : inferencer.visit fuel arg infa with
              | none => simp [h2] at h
              | some q2 =>
                  simp only [h2] at h
                  simp only [iha infa q2 h2]
                  obtain ⟨o2, infb⟩ := q2
                  cases o2 with
                  | error e => exact h
                  | ok arg_type => exact unify_and_resolve_succ h
  | lambda param body ih =>
      intro inf r h
      simp only [inferencer.visit] at h ⊢
      cases h1 : inferencer.visit fuel body (scoped_non_generic_variable.enter
          { inf with m_environment := inf.m_environment.unique_id.2 } param
          inf.m_environment.unique_id.1).2 with
      | none => simp [h1] at h
      | some q1 =>
          simp only [h1] at h
          simp only [ih _ q1 h1]
          obtain ⟨o1, infa⟩ := q1
          cases o1 with
          | error e => exact h
          | ok body_type =>
              simp only at h ⊢
              cases h2 : inferencer.unify_and_resolve fuel
                  { infa with m_environment := infa.m_environment.unique_id.2 }
                  (.var infa.m_environment.unique_id.1)
                  (make_function (.var inf.m_environment.unique_id.1) body_type)
                  infa.m_environment.unique_id.1 with
              | none => simp [h2] at h
              | some q2 =>
                  simp only [h2] at h
                  simp only [unify_and_resolve_succ h2]
                  exact h
  | let_ name defn body ihd ihb =>
      intro inf r h
      simp only [inferencer.visit] at h ⊢
      cases h1 : inferencer.visit fuel defn inf with
      | none => simp [h1] at h
      | some q1 =>
          simp only [h1] at h
          simp only [ihd inf q1 h1]
          obtain ⟨o1, infa⟩ := q1
          cases o1 with
          | error e => exact h
          | ok defn_type =>
              simp only at h ⊢
              cases h2 : inferencer.visit fuel body
                  { infa with m_environment :=
                      (scoped_generic.enter infa.m_environment name defn_type).2 } with
              | none => simp [h2] at h
              | some q2 =>
                  simp only [h2] at h
                  simp only [ihb _ q2 h2]
                  exact h
  | letrec name defn body ihd ihb =>
      intro inf r h
      simp only [inferencer.visit] at h ⊢
      cases h1 : inferencer.visit fuel defn (scoped_non_generic_variable.enter
          { inf with m_environment := inf.m_environment.unique_id.2 } name
          inf.m_environment.unique_id.1).2 with
      | none => simp [h1] at h
      | some q1 =>
          simp only [h1] at h
          simp only [ihd _ q1 h1]
          obtain ⟨o1, infa⟩ := q1
          cases o1 with
          | error e => exact h
          | ok definition_type =>
              simp only at h ⊢
              cases h2 : unify_pair fuel (.var inf.m_environment.unique_id.1) definition_type
                  infa.m_substitution with
              | none => simp [h2] at h
              | some res =>
                  have h2s : unify_pair (fuel + 1) (.var inf.m_environment.unique_id.1)
                      definition_type infa.m_substitution = some res := run_succ h2
                  simp only [h2] at h
                  simp only [h2s]
                  cases res with
                  | threw e sub => exact h
                  | returned sub =>
                      simp only at h ⊢
                      cases h3 : inferencer.visit fuel body { infa with m_substitution := sub } with
                      | none => simp [h3] at h
                      | some q3 =>
                          simp only [h3] at h
                          simp only [ihb _ q3 h3]
                          exact h

/-- The result of `infer_type` does not depend on the fuel, once there is enough of it. -/
theorem infer_type_mono {fuel fuel1 : Nat} {e : node} {env : environment}
    {r : Except exception type} (hle : fuel ≤ fuel1) (h : infer_type fuel e env = some r) :
    infer_type fuel1 e env = some r := by
  obtain ⟨k, rfl⟩ := Nat.exists_eq_add_of_le hle
  induction k with
  | zero => exact h
  | succ k ih =>
      have hk := ih (Nat.le_add_right _ _)
      unfold infer_type at hk ⊢
      cases hv : inferencer.visit (fuel + k) e ⟨env, [], []⟩ with
      | none => simp [hv] at hk
      | some q =>
          simp only [hv] at hk
          rw [← Nat.add_assoc]
          simp only [visit_succ _ _ _ _ hv]
          exact hk

/-! ## Scopes -/

theorem set_insert_not_inserted :
    ∀ (N : List Nat) (v : Nat), (set_insert N v).2 = false → (set_insert N v).1 = N
  | [], v, h => by simp [set_insert] at h
  | a :: l, v, h => by
      by_cases h1 : v < a
      · simp [set_insert, h1] at h
      · by_cases h2 : v = a
        · simp [set_insert, h1, h2]
        · simp only [set_insert, h1, h2, if_false] at h ⊢
          rw [set_insert_not_inserted l v h]

theorem set_erase_insert :
    ∀ (N : List Nat) (v : Nat), (set_insert N v).2 = true →
      set_erase (set_insert N v).1 v = N
  | [], v, _ => by simp [set_insert, set_erase]
  | a :: l, v, h => by
      by_cases h1 : v < a
      · simp [set_insert, h1, set_erase]
      · by_cases h2 : v = a
        · simp [set_insert, h1, h2] at h
        · have hav : a ≠ v := fun e => h2 e.symm
          simp only [set_insert, h1, h2, if_false] at h ⊢
          simp only [set_erase, hav, if_false]
          rw [set_erase_insert l v h]

/-- Leaving a `scoped_generic` undoes entering it, whatever happened in between, as long
as the bindings are then what they were right after entering. -/
theorem scoped_generic_leave_enter (env env1 : environment) (name : String) (t : type)
    (h : env1.bindings = (scoped_generic.enter env name t).2.bindings) :
    ((scoped_generic.enter env name t).1.leave env1).bindings = env.bindings := by
  rw [scoped_generic_enter_snd] at h
  funext n
  unfold scoped_generic.enter scoped_generic.leave
  cases hf : env.find name with
  | none =>
      simp only [environment.erase, h, environment.assign]
      by_cases hn : n = name
      · subst hn; simpa [environment.find] using hf.symm
      · simp [hn]
  | some val =>
      simp only [environment.assign, h]
      by_cases hn : n = name
      · subst hn; simpa [environment.find] using hf.symm
      · simp [hn]

/-- Leaving a `scoped_non_generic_variable` undoes entering it, as long as the bindings and
the non-generic set are then what they were right after entering. -/
theorem scoped_non_generic_variable_leave_enter (inf inf1 : inferencer) (name : String)
    (var : Nat)
    (hb : inf1.m_environment.bindings =
      (scoped_non_generic_variable.enter inf name var).2.m_environment.bindings)
    (hn : inf1.m_non_generic_variables =
      (scoped_non_generic_variable.enter inf name var).2.m_non_generic_variables) :
    ((scoped_non_generic_variable.enter inf name var).1.leave inf1).m_environment.bindings =
        inf.m_environment.bindings ∧
      ((scoped_non_generic_variable.enter inf name var).1.leave inf1).m_non_generic_variables =
        inf.m_non_generic_variables := by
  constructor
  · exact scoped_generic_leave_enter inf.m_environment inf1.m_environment name (.var var) hb
  · simp only [scoped_non_generic_variable.enter, scoped_non_generic_variable.leave] at hn ⊢
    rw [hn]
    cases hflag : (set_insert inf.m_non_generic_variables var).2 with
    | true => simpa using set_erase_insert _ _ hflag
    | false => simpa using set_insert_not_inserted _ _ hflag

/-! ## What a `fresh_maker` leaves unchanged -/

theorem transform_induction {f : fresh_maker → type → Option (type × fresh_maker)}
    {P : fresh_maker → fresh_maker → Prop} (hrefl : ∀ fm, P fm fm)
    (htrans : ∀ a b c, P a b → P b c → P a c)
    (hf : ∀ fm t r fm1, f fm t = some (r, fm1) → P fm fm1) :
    ∀ (ts : List type) (fm : fresh_maker) (rs : List type) (fm1 : fresh_maker),
      transform f fm ts = some (rs, fm1) → P fm fm1
  | [], fm, rs, fm1, h => by
      simp only [transform, Option.some.injEq, Prod.mk.injEq] at h
      rw [← h.2]
      exact hrefl fm
  | t :: ts, fm, rs, fm1, h => by
      simp only [transform] at h
      cases hft : f fm t with
      | none => simp [hft] at h
      | some p =>
          obtain ⟨t1, fma⟩ := p
          simp only [hft] at h
          cases htr : transform f fma ts with
          | none => simp [htr] at h
          | some q =>
              obtain ⟨ts1, fmb⟩ := q
              simp only [htr, Option.some.injEq, Prod.mk.injEq] at h
              rw [← h.2]
              exact htrans _ _ _ (hf fm t t1 fma hft) (transform_induction hrefl htrans hf ts fma ts1 fmb htr)

theorem frame_refl (fm : fresh_maker) : fm.frame fm := ⟨rfl, rfl, rfl, le_rfl⟩

theorem frame_trans (a b c : fresh_maker) (h1 : a.frame b) (h2 : b.frame c) : a.frame c :=
  ⟨h2.1.trans h1.1, h2.2.1.trans h1.2.1, h2.2.2.1.trans h1.2.2.1, le_trans h1.2.2.2 h2.2.2.2⟩

theorem visit_variable_frame {fuel : Nat} {fm fm1 : fresh_maker} {var : Nat} {r : type}
    (h : fm.visit_variable fuel var = some (r, fm1)) : fm.frame fm1 := by
  unfold fresh_maker.visit_variable at h
  cases hg : fm.is_generic fuel var with
  | none => simp [hg] at h
  | some g =>
      cases g with
      | false =>
          simp only [hg, Option.some.injEq, Prod.mk.injEq] at h
          rw [← h.2]; exact frame_refl fm
      | true =>
          cases hm : fm.m_mappings var with
          | some w =>
              simp only [hg, hm, Option.some.injEq, Prod.mk.injEq] at h
              rw [← h.2]; exact frame_refl fm
          | none =>
              simp only [hg, hm, Option.some.injEq, Prod.mk.injEq] at h
              rw [← h.2]
              exact ⟨rfl, rfl, rfl, by simp [environment.unique_id]⟩

theorem call_frame : ∀ (fuel : Nat) (fm : fresh_maker) (x r : type) (fm1 : fresh_maker),
    fresh_maker.call fuel fm x = some (r, fm1) → fm.frame fm1 := by
  intro fuel
  induction fuel with
  | zero =>
      intro fm x r fm1 h
      simp [fresh_maker.call] at h
  | succ n ih =>
      intro fm x r fm1 h
      have htr : ∀ (k : Nat) (ts : List type),
          (match transform (fun fm1 t => fresh_maker.call n fm1 t) fm ts with
            | none => none
            | some (ts1, fm1) => some (type.op k ts1, fm1)) = some (r, fm1) → fm.frame fm1 := by
        intro k ts h
        cases ht : transform (fun fm1 t => fresh_maker.call n fm1 t) fm ts with
        | none => simp [ht] at h
        | some q =>
            obtain ⟨ts1, fma⟩ := q
            simp only [ht, Option.some.injEq, Prod.mk.injEq] at h
            rw [← h.2]
            exact transform_induction frame_refl frame_trans
              (fun fm t r fm1 h => ih fm t r fm1 h) ts fm ts1 fma ht
      cases x with
      | op k ts =>
          rw [fresh_maker.call] at h
          exact htr k ts h
      | var v =>
          rw [fresh_maker.call] at h
          cases hd : definitive (n + 1) fm.m_substitution v with
          | none => simp [hd] at h
          | some d =>
              cases d with
              | var w =>
                  simp only [hd] at h
                  exact visit_variable_frame h
              | op k ts =>
                  simp only [hd] at h
                  exact htr k ts h

theorem unify_and_resolve_frame {fuel : Nat} {inf inf1 : inferencer} {x y : type} {r : Nat}
    {o : Except exception type} (h : inf.unify_and_resolve fuel x y r = some (o, inf1)) :
    inf1.m_environment = inf.m_environment ∧
      inf1.m_non_generic_variables = inf.m_non_generic_variables := by
  unfold inferencer.unify_and_resolve at h
  cases hu : unify_pair fuel x y inf.m_substitution with
  | none => simp [hu] at h
  | some res =>
      cases res with
      | threw e s =>
          simp only [hu, Option.some.injEq, Prod.mk.injEq] at h
          rw [← h.2]; exact ⟨rfl, rfl⟩
      | returned s =>
          simp only [hu] at h
          cases hd : definitive fuel s r with
          | none => simp [hd] at h
          | some t =>
              simp only [hd, Option.some.injEq, Prod.mk.injEq] at h
              rw [← h.2]; exact ⟨rfl, rfl⟩

/-- Every rule leaves the bindings of the environment and the non-generic set as it found
them, whether it returns or throws. -/
theorem visit_frame (fuel : Nat) :
    ∀ (e : node) (inf : inferencer) (o : Except exception type) (inf1 : inferencer),
      inferencer.visit fuel e inf = some (o, inf1) →
      inf1.m_environment.bindings = inf.m_environment.bindings ∧
        inf1.m_non_generic_variables = inf.m_non_generic_variables := by
  intro e
  induction e with
  | integer_literal v =>
      intro inf o inf1 h
      simp only [inferencer.visit, Option.some.injEq, Prod.mk.injEq] at h
      rw [← h.2]; exact ⟨rfl, rfl⟩
  | identifier name =>
      intro inf o inf1 h
      simp only [inferencer.visit] at h
      cases hf : inf.m_environment.find name with
      | none =>
          simp only [hf, Option.some.injEq, Prod.mk.injEq] at h
          rw [← h.2]; exact ⟨rfl, rfl⟩
      | some t =>
          simp only [hf] at h
          cases hc : fresh_maker.call fuel ⟨inf.m_environment, inf.m_non_generic_variables,
              inf.m_substitution, fun _ => none⟩ t with
          | none => simp [hc] at h
          | some q =>
              obtain ⟨t1, fm⟩ := q
              simp only [hc, Option.some.injEq, Prod.mk.injEq] at h
              rw [← h.2]
              exact ⟨(call_frame _ _ _ _ _ hc).1, rfl⟩
  | apply fn arg ihf iha =>
      intro inf o inf1 h
      simp only [inferencer.visit] at h
      cases h1 : inferencer.visit fuel fn inf with
      | none => simp [h1] at h
      | some q1 =>
          obtain ⟨o1, infa⟩ := q1
          have f1 := ihf inf o1 infa h1
          cases o1 with
          | error e =>
              simp only [h1, Option.some.injEq, Prod.mk.injEq] at h
              rw [← h.2]; exact f1
          | ok fun_type =>
              simp only [h1] at h
              cases h2 : inferencer.visit fuel arg infa with
              | none => simp [h2] at h
              | some q2 =>
                  obtain ⟨o2, infb⟩ := q2
                  have f2 := iha infa o2 infb h2
                  cases o2 with
                  | error e =>
                      simp only [h2, Option.some.injEq, Prod.mk.injEq] at h
                      rw [← h.2]
                      exact ⟨f2.1.trans f1.1, f2.2.trans f1.2⟩
                  | ok arg_type =>
                      simp only [h2] at h
                      have f3 := unify_and_resolve_frame h
                      rw [f3.1, f3.2]
                      exact ⟨f2.1.trans f1.1, f2.2.trans f1.2⟩
  | lambda param body ih =>
      intro inf o inf1 h
      simp only [inferencer.visit] at h
      cases h1 : inferencer.visit fuel body (scoped_non_generic_variable.enter
          { inf with m_environment := inf.m_environment.unique_id.2 } param
          inf.m_environment.unique_id.1).2 with
      | none => simp [h1] at h
      | some q1 =>
          obtain ⟨o1, infa⟩ := q1
          have f1 := ih _ o1 infa h1
          cases o1 with
          | error e =>
              simp only [h1, Option.some.injEq, Prod.mk.injEq] at h
              rw [← h.2]
              exact scoped_non_generic_variable_leave_enter _ infa param _ f1.1 f1.2
          | ok body_type =>
              simp only [h1] at h
              cases h2 : inferencer.unify_and_resolve fuel
                  { infa with m_environment := infa.m_environment.unique_id.2 }
                  (.var infa.m_environment.unique_id.1)
                  (make_function (.var inf.m_environment.unique_id.1) body_type)
                  infa.m_environment.unique_id.1 with
              | none => simp [h2] at h
              | some q2 =>
                  obtain ⟨o2, infb⟩ := q2
                  have f2 := unify_and_resolve_frame h2
                  simp only [h2, Option.some.injEq, Prod.mk.injEq] at h
                  rw [← h.2]
                  refine scoped_non_generic_variable_leave_enter _ infb param _ ?_ ?_
                  · rw [f2.1]; exact f1.1
                  · rw [f2.2]; exact f1.2
  | let_ name defn body ihd ihb =>
      intro inf o inf1 h
      simp only [inferencer.visit] at h
      cases h1 : inferencer.visit fuel defn inf with
      | none => simp [h1] at h
      | some q1 =>
          obtain ⟨o1, infa⟩ := q1
          have f1 := ihd inf o1 infa h1
          cases o1 with
          | error e =>
              simp only [h1, Option.some.injEq, Prod.mk.injEq] at h
              rw [← h.2]; exact f1
          | ok defn_type =>
              simp only [h1] at h
              cases h2 : inferencer.visit fuel body
                  { infa with m_environment :=
                      (scoped_generic.enter infa.m_environment name defn_type).2 } with
              | none => simp [h2] at h
              | some q2 =>
                  obtain ⟨o2, infb⟩ := q2
                  have f2 := ihb _ o2 infb h2
                  simp only [h2, Option.some.injEq, Prod.mk.injEq] at h
                  rw [← h.2]
                  refine ⟨?_, f2.2.trans f1.2⟩
                  exact (scoped_generic_leave_enter infa.m_environment infb.m_environment name
                    defn_type f2.1).trans f1.1
  | letrec name defn body ihd ihb =>
      intro inf o inf1 h
      simp only [inferencer.visit] at h
      cases h1 : inferencer.visit fuel defn (scoped_non_generic_variable.enter
          { inf with m_environment := inf.m_environment.unique_id.2 } name
          inf.m_environment.unique_id.1).2 with
      | none => simp [h1] at h
      | some q1 =>
          obtain ⟨o1, infa⟩ := q1
          have f1 := ihd _ o1 infa h1
          cases o1 with
          | error e =>
              simp only [h1, Option.some.injEq, Prod.mk.injEq] at h
              rw [← h.2]
              exact scoped_non_generic_variable_leave_enter _ infa name _ f1.1 f1.2
          | ok definition_type =>
              simp only [h1] at h
              cases h2 : unify_pair fuel (.var inf.m_environment.unique_id.1) definition_type
                  infa.m_substitution with
              | none => simp [h2] at h
              | some res =>
                  cases res with
                  | threw e sub =>
                      simp only [h2, Option.some.injEq, Prod.mk.injEq] at h
                      rw [← h.2]
                      exact scoped_non_generic_variable_leave_enter _ _ name _ f1.1 f1.2
                  | returned sub =>
                      simp only [h2] at h
                      cases h3 : inferencer.visit fuel body { infa with m_substitution := sub } with
                      | none => simp [h3] at h
                      | some q3 =>
                          obtain ⟨o3, infc⟩ := q3
                          have f3 := ihb _ o3 infc h3
                          simp only [h3, Option.some.injEq, Prod.mk.injEq] at h
                          rw [← h.2]
                          refine scoped_non_generic_variable_leave_enter _ infc name _ ?_ ?_
                          · exact f3.1.trans f1.1
                          · exact f3.2.trans f1.2

/-! ## Instantiation on a substitution in solved form -/

theorem not_key_of_solved_value {s : substitution} (hs : solved s) {k w : Nat}
    (h : map_find s k = some (.var w)) : map_find s w = none := by
  rw [map_find_eq_none_iff]
  intro e he hew
  have := hs e he (k, .var w) (mem_of_map_find h)
  simp [occurs, hew] at this

/-- On a substitution in solved form, `definitive` of a variable is its binding, found in
at most one iteration. -/
theorem definitive_of_solved {s : substitution} (hs : solved s) (fuel v : Nat) :
    definitive (fuel + 1) s v = some (binding s v) := by
  unfold definitive
  cases hf : map_find s v with
  | none => rw [definitive_loop_none _ hf]; simp [binding, hf]
  | some t =>
      rw [definitive_loop_some fuel hf]
      cases t with
      | op k ts => rw [definitive_loop_op]; simp [binding, hf]
      | var w =>
          rw [definitive_loop_none _ (not_key_of_solved_value hs hf)]
          simp [binding, hf]

theorem definitive_eq_binding {s : substitution} (hs : solved s) {fuel v : Nat} {d : type}
    (h : definitive fuel s v = some d) : d = binding s v := by
  cases fuel with
  | zero =>
      unfold definitive at h
      cases hf : map_find s v with
      | none =>
          rw [definitive_loop_none _ hf] at h
          injection h with h
          simp [binding, hf, h]
      | some t => simp [definitive_loop, hf] at h
  | succ n =>
      rw [definitive_of_solved hs] at h
      injection h with h
      exact h.symm

theorem is_generic_loop_of_solved {s : substitution} (hs : solved s) (fuel : Nat) (w : Nat) :
    ∀ N : List Nat, is_generic_loop (fuel + 1) s N w = some (occurs_in_non_generic s N w)
  | [] => by simp [is_generic_loop, occurs_in_non_generic]
  | n :: N => by
      have ih := is_generic_loop_of_solved hs fuel w N
      simp only [is_generic_loop, definitive_of_solved hs, occurs_in_non_generic, List.any_cons]
      cases ho : occurs (binding s n) w with
      | true => simp
      | false =>
          simp only [Bool.false_eq_true, if_false, Bool.false_or]
          exact ih

theorem non_generic_in_iff {s : substitution} (hs : solved s) (N : List Nat) (w : Nat) :
    non_generic_in s N w ↔ occurs_in_non_generic s N w = true := by
  simp only [non_generic_in, occurs_in_non_generic, List.any_eq_true]
  constructor
  · rintro ⟨n, hn, fuel, d, hd, ho⟩
    rw [definitive_eq_binding hs hd] at ho
    exact ⟨n, hn, ho⟩
  · rintro ⟨n, hn, ho⟩
    exact ⟨n, hn, 1, binding s n, definitive_of_solved hs 0 n, ho⟩

mutual
theorem assign_congr_occurs (θ θ1 : Nat → type) :
    ∀ t : type, (∀ w, occurs t w = true → θ w = θ1 w) → assign θ t = assign θ1 t
  | .var v, h => by
      rw [assign, assign]
      exact h v (by simp [occurs])
  | .op k ts, h => by
      rw [assign, assign, assign_list_congr_occurs θ θ1 ts (fun w hw => h w (by simpa [occurs] using hw))]
theorem assign_list_congr_occurs (θ θ1 : Nat → type) :
    ∀ ts : List type, (∀ w, occurs_list ts w = true → θ w = θ1 w) →
      assign_list θ ts = assign_list θ1 ts
  | [], _ => rfl
  | t :: ts, h => by
      rw [assign_list, assign_list,
        assign_congr_occurs θ θ1 t (fun w hw => h w (by simp [occurs_list, hw])),
        assign_list_congr_occurs θ θ1 ts (fun w hw => h w (by simp [occurs_list, hw]))]
end

theorem extends_to_refl (fm : fresh_maker) : fm.extends_to fm :=
  ⟨frame_refl fm, fun _ _ h => h, fun _ _ h => Or.inl h, fun h => h⟩

theorem extends_to_trans {a b c : fresh_maker} (h1 : a.extends_to b) (h2 : b.extends_to c) :
    a.extends_to c := by
  refine ⟨frame_trans a b c h1.1 h2.1, fun w u h => h2.2.1 w u (h1.2.1 w u h), ?_,
    fun h => h2.2.2.2 (h1.2.2.2 h)⟩
  intro w u h
  have hab := h1.1.2.2.2
  have hbc := h2.1.2.2.2
  rcases h2.2.2.1 w u h with h | ⟨h3, h4⟩
  · rcases h1.2.2.1 w u h with h | ⟨h3, h4⟩
    · exact Or.inl h
    · exact Or.inr ⟨h3, by omega⟩
  · exact Or.inr ⟨by omega, h4⟩

/-- A later `fresh_maker` renames a variable as an earlier one did, when the variable is
non-generic or already had a mapping. -/
theorem renaming_of_extends {fm fm1 : fresh_maker} (h : fm.extends_to fm1) (w : Nat)
    (hw : occurs_in_non_generic fm.m_substitution fm.m_non_generic w = false →
      (fm.m_mappings w).isSome = true) :
    fm1.renaming w = fm.renaming w := by
  unfold fresh_maker.renaming
  rw [h.1.2.1, h.1.2.2.1]
  cases hng : occurs_in_non_generic fm.m_substitution fm.m_non_generic w with
  | true => simp
  | false =>
      obtain ⟨u, hu⟩ := Option.isSome_iff_exists.1 (hw hng)
      simp [hu, h.2.1 w u hu]

/-- The variable rule on a substitution in solved form: the variable is renamed by the
resulting `fresh_maker`, which has a mapping for it when it is generic. -/
theorem visit_variable_spec {fm : fresh_maker} (hs : solved fm.m_substitution)
    (fuel w : Nat) :
    ∃ fm1, fm.visit_variable (fuel + 1) w = some (.var (fm1.renaming w), fm1) ∧
      fm.extends_to fm1 ∧
      (occurs_in_non_generic fm.m_substitution fm.m_non_generic w = false →
        (fm1.m_mappings w).isSome = true) := by
  unfold fresh_maker.visit_variable fresh_maker.is_generic
  rw [is_generic_loop_of_solved hs]
  cases hng : occurs_in_non_generic fm.m_substitution fm.m_non_generic w with
  | true =>
      refine ⟨fm, ?_, extends_to_refl fm, fun h => by cases h⟩
      simp [fresh_maker.renaming, hng]
  | false =>
      cases hm : fm.m_mappings w with
      | some u =>
          refine ⟨fm, ?_, extends_to_refl fm, fun _ => by simp [hm]⟩
          simp [fresh_maker.renaming, hng, hm]
      | none =>
          refine ⟨{ fm with
              m_env := fm.m_env.unique_id.2
              m_mappings := fun v => if v = w then some fm.m_env.unique_id.1
                else fm.m_mappings v }, ?_, ?_, fun _ => by simp⟩
          · simp [fresh_maker.renaming, hng, hm]
          · refine ⟨⟨rfl, rfl, rfl, by simp [environment.unique_id]⟩, ?_, ?_, ?_⟩
            · intro v u hv
              have : v ≠ w := fun e => by rw [e, hm] at hv; cases hv
              simp [this, hv]
            · intro v u hv
              simp only at hv
              split_ifs at hv with hvw
              · injection hv with hv
                right
                simp [environment.unique_id, ← hv]
              · exact Or.inl hv
            · rintro ⟨hb, hi⟩
              constructor
              · intro v u hv
                simp only [environment.unique_id] at hv ⊢
                split_ifs at hv with hvw
                · injection hv with hv; omega
                · have := hb v u hv; omega
              · intro v v1 u hv hv1
                simp only [environment.unique_id] at hv hv1
                split_ifs at hv hv1 with h1 h2 h2
                · rw [h1, h2]
                · injection hv with hv
                  have := hb v1 u hv1
                  omega
                · injection hv1 with hv1
                  have := hb v u hv
                  omega
                · exact hi v v1 u hv hv1

theorem apply_op (s : substitution) (k : Nat) (ts : List type) :
    apply s (.op k ts) = .op k (assign_list (binding s) ts) := by
  simp [apply, assign]

theorem apply_var (s : substitution) (v : Nat) : apply s (.var v) = binding s v := by
  simp [apply, assign]

theorem binding_op_value {s : substitution} (hs : solved s) {v k : Nat} {ts : List type}
    (h : binding s v = .op k ts) : assign_list (binding s) ts = ts := by
  have hf : map_find s v = some (.op k ts) := by
    cases hm : map_find s v with
    | none => simp [binding, hm] at h
    | some t => simpa [binding, hm] using h
  apply assign_list_binding_of_no_key
  intro e he
  have := hs e he (v, .op k ts) (mem_of_map_find hf)
  simpa [occurs] using this

/-- The instantiation of a type on a substitution `s` in solved form, with enough fuel:
the call returns `s` applied to the type, renamed by the resulting `fresh_maker`, which
has a mapping for every generic variable of it. -/
theorem call_spec (s : substitution) (hs : solved s) (N : List Nat) :
    ∀ (fuel : Nat) (fm : fresh_maker) (x : type),
      fm.m_substitution = s → fm.m_non_generic = N → size (apply s x) ≤ fuel →
      ∃ r fm1, fresh_maker.call fuel fm x = some (r, fm1) ∧ fm.extends_to fm1 ∧
        r = rename fm1.renaming (apply s x) ∧
        ∀ w, occurs (apply s x) w = true → occurs_in_non_generic s N w = false →
          (fm1.m_mappings w).isSome = true := by
  intro fuel
  induction fuel with
  | zero =>
      intro fm x _ _ hsz
      have := size_pos (apply s x)
      omega
  | succ n ih =>
      have htr : ∀ (ts : List type) (fm : fresh_maker),
          fm.m_substitution = s → fm.m_non_generic = N →
          size_list (assign_list (binding s) ts) ≤ n →
          ∃ rs fm1, transform (fun fm1 t => fresh_maker.call n fm1 t) fm ts = some (rs, fm1) ∧
            fm.extends_to fm1 ∧
            rs = assign_list (fun v => .var (fm1.renaming v)) (assign_list (binding s) ts) ∧
            ∀ w, occurs_list (assign_list (binding s) ts) w = true →
              occurs_in_non_generic s N w = false → (fm1.m_mappings w).isSome = true := by
        intro ts
        induction ts with
        | nil =>
            intro fm _ _ _
            exact ⟨[], fm, rfl, extends_to_refl fm, rfl, fun w hw => by simp [assign_list, occurs_list] at hw⟩
        | cons t ts iht =>
            intro fm hsub hN hsz
            simp only [assign_list, size_list] at hsz
            have hszt : size (apply s t) ≤ n := by
              simp only [apply]; omega
            obtain ⟨r, fma, hc, hexta, hr, hdoma⟩ := ih fm t hsub hN hszt
            have hsuba : fma.m_substitution = s := hexta.1.2.2.1.trans hsub
            have hNa : fma.m_non_generic = N := hexta.1.2.1.trans hN
            obtain ⟨rs, fmb, htb, hextb, hrs, hdomb⟩ := iht fma hsuba hNa (by omega)
            refine ⟨r :: rs, fmb, ?_, extends_to_trans hexta hextb, ?_, ?_⟩
            · simp only [transform, hc, htb]
            · rw [hr, hrs, assign_list, assign_list]
              congr 1
              unfold rename
              apply assign_congr_occurs
              intro w hw
              have := renaming_of_extends hextb w (by
                rw [hsuba, hNa]
                exact hdoma w hw)
              rw [this]
            · intro w hw hng
              simp only [assign_list, occurs_list, Bool.or_eq_true] at hw
              rcases hw with hw | hw
              · obtain ⟨u, hu⟩ := Option.isSome_iff_exists.1 (hdoma w hw hng)
                rw [hextb.2.1 w u hu]
                rfl
              · exact hdomb w hw hng
      have hop : ∀ (fm : fresh_maker) (k : Nat) (ts : List type) (x : type),
          fm.m_substitution = s → fm.m_non_generic = N →
          apply s x = .op k (assign_list (binding s) ts) → size (apply s x) ≤ n + 1 →
          ∃ r fm1, (match transform (fun fm1 t => fresh_maker.call n fm1 t) fm ts with
              | none => none
              | some (ts1, fm1) => some (type.op k ts1, fm1)) = some (r, fm1) ∧
            fm.extends_to fm1 ∧ r = rename fm1.renaming (apply s x) ∧
            ∀ w, occurs (apply s x) w = true → occurs_in_non_generic s N w = false →
              (fm1.m_mappings w).isSome = true := by
        intro fm k ts x hsub hN hx hsz
        rw [hx] at hsz ⊢
        rw [size] at hsz
        obtain ⟨rs, fm1, ht, hext, hrs, hdom⟩ := htr ts fm hsub hN (by omega)
        refine ⟨.op k rs, fm1, by simp only [ht], hext, ?_, ?_⟩
        · rw [hrs]; simp [rename, assign]
        · intro w hw hng
          exact hdom w (by simpa [occurs] using hw) hng
      intro fm x hsub hN hsz
      cases x with
      | op k ts =>
          rw [fresh_maker.call]
          exact hop fm k ts (.op k ts) hsub hN (apply_op s k ts) hsz
      | var v =>
          rw [fresh_maker.call, hsub, definitive_of_solved hs]
          cases hb : binding s v with
          | var w =>
              simp only
              obtain ⟨fm1, hv, hext, hdom⟩ := @visit_variable_spec fm (by rw [hsub]; exact hs) n w
              refine ⟨_, fm1, hv, hext, ?_, ?_⟩
              · simp [apply_var, hb, rename, assign]
              · intro u hu hng
                rw [apply_var, hb] at hu
                have : w = u := by simpa [occurs] using hu
                subst this
                exact hdom (by rw [hsub, hN]; exact hng)
          | op k ts =>
              simp only
              have hx : apply s (.var v) = .op k (assign_list (binding s) ts) := by
                rw [apply_var, hb, binding_op_value hs hb]
              exact hop fm k ts (.var v) hsub hN hx hsz

mutual
theorem occurs_assign_cases (θ : Nat → type) (w : Nat) :
    ∀ t : type, occurs (assign θ t) w = true → ∃ v, occurs t v = true ∧ occurs (θ v) w = true
  | .var v, h => by
      rw [assign] at h
      exact ⟨v, by simp [occurs], h⟩
  | .op k ts, h => by
      rw [assign] at h
      simp only [occurs] at h ⊢
      exact occurs_list_assign_cases θ w ts h
theorem occurs_list_assign_cases (θ : Nat → type) (w : Nat) :
    ∀ ts : List type, occurs_list (assign_list θ ts) w = true →
      ∃ v, occurs_list ts v = true ∧ occurs (θ v) w = true
  | [], h => by simp [assign_list, occurs_list] at h
  | t :: ts, h => by
      simp only [assign_list, occurs_list, Bool.or_eq_true] at h
      rcases h with h | h
      · obtain ⟨v, hv, hw⟩ := occurs_assign_cases θ w t h
        exact ⟨v, by simp [occurs_list, hv], hw⟩
      · obtain ⟨v, hv, hw⟩ := occurs_list_assign_cases θ w ts h
        exact ⟨v, by simp [occurs_list, hv], hw⟩
end

/-- A variable of `s` applied to `t` is a variable of `t` or of a value of `s`. -/
theorem occurs_apply_cases {s : substitution} {t : type} {w : Nat}
    (h : occurs (apply s t) w = true) :
    occurs t w = true ∨ ∃ e ∈ s, occurs e.2 w = true := by
  obtain ⟨v, hv, hw⟩ := occurs_assign_cases (binding s) w t h
  cases hf : map_find s v with
  | none =>
      simp only [binding, hf, Option.getD_none, occurs, beq_iff_eq] at hw
      subst hw
      exact Or.inl hv
  | some b =>
      simp only [binding, hf, Option.getD_some] at hw
      exact Or.inr ⟨(v, b), mem_of_map_find hf, hw⟩

theorem occurs_rename_cases {ρ : Nat → Nat} {t : type} {v : Nat}
    (h : occurs (rename ρ t) v = true) : ∃ w, occurs t w = true ∧ ρ w = v := by
  obtain ⟨w, hw, hv⟩ := occurs_assign_cases (fun u => .var (ρ u)) v t h
  exact ⟨w, hw, by simpa [occurs] using hv⟩

/-- What one instantiation from empty mappings does on a substitution in solved form. -/
theorem call_fresh_spec (s : substitution) (hs : solved s) (N : List Nat) (t : type)
    (env : environment) :
    ∃ r fm1, fresh_maker.call (size (apply s t)) ⟨env, N, s, fun _ => none⟩ t = some (r, fm1) ∧
      r = rename fm1.renaming (apply s t) ∧
      env.m_next_id ≤ fm1.m_env.m_next_id ∧
      fm1.m_env.bindings = env.bindings ∧
      (∀ w, occurs_in_non_generic s N w = true → fm1.renaming w = w) ∧
      (∀ w, occurs (apply s t) w = true → occurs_in_non_generic s N w = false →
        env.m_next_id ≤ fm1.renaming w ∧ fm1.renaming w < fm1.m_env.m_next_id) ∧
      (∀ w w1, occurs (apply s t) w = true → occurs (apply s t) w1 = true →
        occurs_in_non_generic s N w = false → occurs_in_non_generic s N w1 = false →
        fm1.renaming w = fm1.renaming w1 → w = w1) := by
  obtain ⟨r, fm1, hc, hext, hr, hdom⟩ :=
    call_spec s hs N (size (apply s t)) ⟨env, N, s, fun _ => none⟩ t rfl rfl le_rfl
  have hsub : fm1.m_substitution = s := hext.1.2.2.1
  have hN : fm1.m_non_generic = N := hext.1.2.1
  have hok : fm1.mappings_ok :=
    hext.2.2.2 ⟨fun w u h => by simp at h, fun w w1 u h => by simp at h⟩
  have hren : ∀ w, occurs (apply s t) w = true → occurs_in_non_generic s N w = false →
      fm1.m_mappings w = some (fm1.renaming w) := by
    intro w hw hng
    obtain ⟨u, hu⟩ := Option.isSome_iff_exists.1 (hdom w hw hng)
    simp [fresh_maker.renaming, hsub, hN, hng, hu]
  refine ⟨r, fm1, hc, hr, hext.1.2.2.2, hext.1.1, ?_, ?_, ?_⟩
  · intro w hng
    simp [fresh_maker.renaming, hsub, hN, hng]
  · intro w hw hng
    rcases hext.2.2.1 w _ (hren w hw hng) with h | h
    · simp at h
    · exact h
  · intro w w1 hw hw1 hng hng1 he
    have h1 := hren w hw hng
    have h2 := hren w1 hw1 hng1
    rw [← he] at h2
    exact hok.2 w w1 _ h1 h2

/-- C12. Two instantiations are independent on generic variables and agree on non-generic
ones: for every type `t`, substitution `s` in solved form and non-generic set `N`, with
the variables of `t` and of the values of `s` below the id counter, two successive
`fresh_maker` calls on `t` (the counter threaded from the first to the second) return
`s` applied to `t` renamed by `ρ1` and by `ρ2` (so with the same operator structure);
a variable occurring in the definitive form of a member of `N` is kept by both; a generic
variable goes to a variable minted by the first call under `ρ1` and to one minted by the
second call under `ρ2`; and no variable minted by the first call occurs in the second
result. -/
theorem instantiations_independent (s : substitution) (hs : solved s) (N : List Nat)
    (t : type) (env : environment)
    (ht : ∀ w, occurs t w = true → w < env.m_next_id)
    (hsv : ∀ e ∈ s, ∀ w, occurs e.2 w = true → w < env.m_next_id) :
    ∃ fuel r1 fm1 r2 fm2 ρ1 ρ2,
      fresh_maker.call fuel ⟨env, N, s, fun _ => none⟩ t = some (r1, fm1) ∧
      fresh_maker.call fuel ⟨fm1.m_env, N, s, fun _ => none⟩ t = some (r2, fm2) ∧
      r1 = rename ρ1 (apply s t) ∧ r2 = rename ρ2 (apply s t) ∧
      (∀ w, non_generic_in s N w → ρ1 w = w ∧ ρ2 w = w) ∧
      (∀ w, occurs (apply s t) w = true → ¬ non_generic_in s N w →
        (env.m_next_id ≤ ρ1 w ∧ ρ1 w < fm1.m_env.m_next_id) ∧
        (fm1.m_env.m_next_id ≤ ρ2 w ∧ ρ2 w < fm2.m_env.m_next_id)) ∧
      (∀ v, env.m_next_id ≤ v → v < fm1.m_env.m_next_id → occurs r2 v = false) := by
  obtain ⟨r1, fm1, hc1, hr1, hle1, _, hk1, hg1, _⟩ := call_fresh_spec s hs N t env
  obtain ⟨r2, fm2, hc2, hr2, _, _, hk2, hg2, _⟩ := call_fresh_spec s hs N t fm1.m_env
  have hbelow : ∀ w, occurs (apply s t) w = true → w < env.m_next_id := by
    intro w hw
    rcases occurs_apply_cases hw with h | ⟨e, he, h⟩
    · exact ht w h
    · exact hsv e he w h
  have hbool : ∀ w, ¬ non_generic_in s N w → occurs_in_non_generic s N w = false := by
    intro w hw
    rw [non_generic_in_iff hs] at hw
    simpa using hw
  refine ⟨_, r1, fm1, r2, fm2, fm1.renaming, fm2.renaming, hc1, hc2, hr1, hr2, ?_, ?_, ?_⟩
  · intro w hw
    rw [non_generic_in_iff hs] at hw
    exact ⟨hk1 w hw, hk2 w hw⟩
  · intro w hw hng
    exact ⟨hg1 w hw (hbool w hng), hg2 w hw (hbool w hng)⟩
  · intro v hv1 hv2
    rw [Bool.eq_false_iff]
    intro hocc
    rw [hr2] at hocc
    obtain ⟨w, hw, hwv⟩ := occurs_rename_cases hocc
    cases hng : occurs_in_non_generic s N w with
    | true =>
        have := hk2 w hng
        have := hbelow w hw
        omega
    | false =>
        have := (hg2 w hw hng).1
        omega

/-- Witness of C12: `function(0, 1)` with `0` non-generic, on the empty substitution and
the counter at 2. -/
theorem instantiations_independent_witness :
    ∃ fuel r1 fm1 r2 fm2 ρ1 ρ2,
      fresh_maker.call fuel ⟨⟨fun _ => none, 2⟩, [0], [], fun _ => none⟩
        (make_function (.var 0) (.var 1)) = some (r1, fm1) ∧
      fresh_maker.call fuel ⟨fm1.m_env, [0], [], fun _ => none⟩
        (make_function (.var 0) (.var 1)) = some (r2, fm2) ∧
      r1 = rename ρ1 (apply [] (make_function (.var 0) (.var 1))) ∧
      r2 = rename ρ2 (apply [] (make_function (.var 0) (.var 1))) ∧
      (∀ w, non_generic_in [] [0] w → ρ1 w = w ∧ ρ2 w = w) ∧
      (∀ w, occurs (apply [] (make_function (.var 0) (.var 1))) w = true →
        ¬ non_generic_in [] [0] w →
        (2 ≤ ρ1 w ∧ ρ1 w < fm1.m_env.m_next_id) ∧
        (fm1.m_env.m_next_id ≤ ρ2 w ∧ ρ2 w < fm2.m_env.m_next_id)) ∧
      (∀ v, 2 ≤ v → v < fm1.m_env.m_next_id → occurs r2 v = false) :=
  instantiations_independent [] (fun e he => by simp at he) [0]
    (make_function (.var 0) (.var 1)) ⟨fun _ => none, 2⟩
    (fun w hw => by
      have : 0 = w ∨ 1 = w := by simpa [make_function, occurs, occurs_list] using hw
      show w < 2
      omega)
    (fun e he => by simp at he)

/-- C13. One instantiation is a consistent renaming of the resolved type: for every type
`t` and substitution `s` in solved form, with an empty non-generic set, `fresh_maker` on
`t` returns `s` applied to `t` (so a variable bound to an operator is replaced by the
instantiation of that operator) renamed by a map `ρ` that is injective on its variables
and sends each of them to a variable allocated during the call: kinds and arities are
unchanged, and two positions hold the same variable in the result exactly when they do in
`s` applied to `t`. -/
theorem instantiation_renames (s : substitution) (hs : solved s) (t : type)
    (env : environment) :
    ∃ fuel r fm1 ρ,
      fresh_maker.call fuel ⟨env, [], s, fun _ => none⟩ t = some (r, fm1) ∧
      r = rename ρ (apply s t) ∧
      (∀ w w1, occurs (apply s t) w = true → occurs (apply s t) w1 = true →
        ρ w = ρ w1 → w = w1) ∧
      (∀ w, occurs (apply s t) w = true →
        env.m_next_id ≤ ρ w ∧ ρ w < fm1.m_env.m_next_id) := by
  obtain ⟨r, fm1, hc, hr, _, _, _, hg, hi⟩ := call_fresh_spec s hs [] t env
  have hng : ∀ w, occurs_in_non_generic s [] w = false := fun w => by
    simp [occurs_in_non_generic]
  exact ⟨_, r, fm1, fm1.renaming, hc, hr,
    fun w w1 hw hw1 he => hi w w1 hw hw1 (hng w) (hng w1) he,
    fun w hw => hg w hw (hng w)⟩

/-- Witness of C13: `function(0, 2)` on `{0 -> function(1, 1)}`, the counter at 3. -/
theorem instantiation_renames_witness :
    ∃ fuel r fm1 ρ,
      fresh_maker.call fuel ⟨⟨fun _ => none, 3⟩, [], [(0, make_function (.var 1) (.var 1))],
        fun _ => none⟩ (make_function (.var 0) (.var 2)) = some (r, fm1) ∧
      r = rename ρ (apply [(0, make_function (.var 1) (.var 1))]
        (make_function (.var 0) (.var 2))) ∧
      (∀ w w1,
        occurs (apply [(0, make_function (.var 1) (.var 1))]
          (make_function (.var 0) (.var 2))) w = true →
        occurs (apply [(0, make_function (.var 1) (.var 1))]
          (make_function (.var 0) (.var 2))) w1 = true →
        ρ w = ρ w1 → w = w1) ∧
      (∀ w,
        occurs (apply [(0, make_function (.var 1) (.var 1))]
          (make_function (.var 0) (.var 2))) w = true →
        3 ≤ ρ w ∧ ρ w < fm1.m_env.m_next_id) :=
  instantiation_renames [(0, make_function (.var 1) (.var 1))]
    (by
      intro e he e1 he1
      simp only [List.mem_singleton] at he he1
      subst he he1
      decide)
    (make_function (.var 0) (.var 2)) ⟨fun _ => none, 3⟩

/-- C14. Scopes are restored on every exit path: for every expression and every
inferencer state, once the rule for the expression has finished, with a type or with an
exception, the bindings of the environment and the non-generic set are exactly what they
were before; only the substitution and the id counter may differ. -/
theorem scopes_restored (fuel : Nat) (e : node) (inf : inferencer)
    (o : Except exception type) (inf1 : inferencer)
    (h : inferencer.visit fuel e inf = some (o, inf1)) :
    inf1.m_environment.bindings = inf.m_environment.bindings ∧
      inf1.m_non_generic_variables = inf.m_non_generic_variables :=
  visit_frame fuel e inf o inf1 h

/-- Witness of C14: `fn x => pair (x 3) (x true)` in the demo environment, which throws
inside the scope of `x`. -/
theorem scopes_restored_witness :
    ∃ o inf1, inferencer.visit 30 demo_fn_x ⟨demo_environment, [], []⟩ = some (o, inf1) ∧
      inf1.m_environment.bindings = demo_environment.bindings ∧
      inf1.m_non_generic_variables = [] := by
  have hs : (inferencer.visit 30 demo_fn_x ⟨demo_environment, [], []⟩).isSome = true := by
    decide!
  obtain ⟨p, hp⟩ := Option.isSome_iff_exists.1 hs
  exact ⟨p.1, p.2, hp, scopes_restored 30 demo_fn_x ⟨demo_environment, [], []⟩ p.1 p.2 hp⟩

/-- C15. Let-polymorphism: in the demo environment, `infer_type` of
`let f = fn x => x in pair (f 4) (f true)` returns exactly `pair(int, bool)`. -/
theorem let_polymorphism :
    infer_type 30 demo_let_f demo_environment = some (.ok (pair integer boolean)) := by
  decide!

/-- C16. Lambda parameters are monomorphic: in the demo environment, `infer_type` of
`fn x => pair (x 3) (x true)` throws `type_mismatch` (of `bool` against `int`). -/
theorem lambda_monomorphic :
    infer_type 30 demo_fn_x demo_environment =
      some (.error (.type_mismatch boolean integer)) := by
  decide!

/-- C17. Self-application is rejected: for every environment, whatever it binds and
wherever its counter stands, `infer_type` of `fn f => f f` throws
`recursive_unification`: of the variable `n` minted for `f` against `function(n, n+1)`. -/
theorem self_application_rejected (env : environment) (fuel : Nat) :
    infer_type (fuel + 1) demo_fn_f env =
      some (.error (.recursive_unification (.var env.m_next_id)
        (make_function (.var env.m_next_id) (.var (env.m_next_id + 1))))) := by
  have hfresh : ∀ envx : environment,
      fresh_maker.call (fuel + 1) ⟨envx, [env.m_next_id], [], fun _ => none⟩
          (.var env.m_next_id) =
        some (.var env.m_next_id, ⟨envx, [env.m_next_id], [], fun _ => none⟩) := by
    intro envx
    rw [fresh_maker.call]
    simp [definitive, definitive_loop_none, map_find, fresh_maker.visit_variable,
      fresh_maker.is_generic, is_generic_loop, occurs]
  have hunify : unify_pair (fuel + 1)
      (make_function (.var env.m_next_id) (.var (env.m_next_id + 1))) (.var env.m_next_id) [] =
      some (.threw (.recursive_unification (.var env.m_next_id)
        (make_function (.var env.m_next_id) (.var (env.m_next_id + 1)))) []) := by
    simp only [unify_pair, unify, unifier.init, List.map_nil, List.reverse_nil,
      List.reverse_cons, List.nil_append]
    exact run_succ_cons_error (by simp [visit, make_function, occurs, occurs_list])
  simp [infer_type, demo_fn_f, inferencer.visit, scoped_non_generic_variable.enter,
    scoped_generic_enter_snd, environment.unique_id, environment.find, environment.assign,
    set_insert, hfresh, hunify, inferencer.unify_and_resolve, exception.of_error]

/-- C18. Recursive definition: in the demo environment, `infer_type` of
`letrec factorial = fn n => cond (zero n) 1 (times n (factorial (pred n))) in factorial 5`
returns exactly `int`. -/
theorem letrec_factorial :
    infer_type 40 demo_factorial demo_environment = some (.ok integer) := by
  decide!

/-- C19. Polymorphic self-application through `let`: in the demo environment,
`infer_type` of `let g = fn f => 5 in g g` returns exactly `int`. -/
theorem let_self_application :
    infer_type 30 demo_let_g demo_environment = some (.ok integer) := by
  decide!

/-! ## An exception of a sub-expression ends the whole inference -/

/-- An exception thrown by the rule of a sub-expression that the inference has reached
propagates through every enclosing rule: the rule of the whole expression throws it. -/
theorem activation_throws {fuel : Nat} {e e1 : node} {inf p : inferencer}
    (ha : activation fuel e inf e1 p) {x : exception} {p1 : inferencer}
    (h : inferencer.visit fuel e1 p = some (.error x, p1)) :
    ∃ inf1, inferencer.visit fuel e inf = some (.error x, inf1) := by
  induction ha with
  | here e inf => exact ⟨p1, h⟩
  | apply_function _ ih =>
      obtain ⟨q, hq⟩ := ih h
      exact ⟨q, by simp only [inferencer.visit, hq]⟩
  | apply_argument hv _ ih =>
      obtain ⟨q, hq⟩ := ih h
      exact ⟨q, by simp only [inferencer.visit, hv, hq]⟩
  | lambda_body _ ih =>
      obtain ⟨q, hq⟩ := ih h
      exact ⟨_, by simp only [inferencer.visit, hq]; rfl⟩
  | let_definition _ ih =>
      obtain ⟨q, hq⟩ := ih h
      exact ⟨q, by simp only [inferencer.visit, hq]⟩
  | let_body hv _ ih =>
      obtain ⟨q, hq⟩ := ih h
      exact ⟨_, by simp only [inferencer.visit, hv, hq]; rfl⟩
  | letrec_definition _ ih =>
      obtain ⟨q, hq⟩ := ih h
      exact ⟨_, by simp only [inferencer.visit, hq]; rfl⟩
  | letrec_body hv hu _ ih =>
      obtain ⟨q, hq⟩ := ih h
      exact ⟨_, by simp only [inferencer.visit, hv, hu, hq]; rfl⟩

theorem activation_of_under {fuel : Nat} {e e1 : node} {inf p : inferencer}
    {names : List String} (ha : activation_under fuel e inf names e1 p) :
    activation fuel e inf e1 p := by
  induction ha with
  | here e inf => exact activation.here e inf
  | apply_function _ ih => exact activation.apply_function ih
  | apply_argument hv _ ih => exact activation.apply_argument hv ih
  | lambda_body _ ih => exact activation.lambda_body ih
  | let_definition _ ih => exact activation.let_definition ih
  | let_body hv _ ih => exact activation.let_body hv ih
  | letrec_definition _ ih => exact activation.letrec_definition ih
  | letrec_body hv hu _ ih => exact activation.letrec_body hv hu ih

theorem scope_enter_bindings (inf : inferencer) (name : String) (v : Nat) {n : String}
    (hn : n ≠ name) :
    (scoped_non_generic_variable.enter inf name v).2.m_environment.bindings n =
      inf.m_environment.bindings n := by
  show (scoped_generic.enter inf.m_environment name (.var v)).2.bindings n = _
  rw [scoped_generic_enter_snd]
  simp [environment.assign, hn]

/-- Where a rule is started, a name that no enclosing binder binds is bound to what the
environment held for it when the inference started. -/
theorem activation_under_bindings {fuel : Nat} {e e1 : node} {inf p : inferencer}
    {names : List String} (ha : activation_under fuel e inf names e1 p) :
    ∀ n, n ∉ names → p.m_environment.bindings n = inf.m_environment.bindings n := by
  induction ha with
  | here e inf => exact fun _ _ => rfl
  | apply_function _ ih => exact ih
  | apply_argument hv _ ih =>
      intro n hn
      rw [ih n hn, (visit_frame _ _ _ _ _ hv).1]
  | lambda_body _ ih =>
      intro n hn
      rw [List.mem_cons, not_or] at hn
      rw [ih n hn.2, scope_enter_bindings _ _ _ hn.1]
      rfl
  | let_definition _ ih => exact ih
  | let_body hv _ ih =>
      intro n hn
      rw [List.mem_cons, not_or] at hn
      rw [ih n hn.2]
      show (scoped_generic.enter _ _ _).2.bindings n = _
      rw [scoped_generic_enter_snd, ← (visit_frame _ _ _ _ _ hv).1]
      simp [environment.assign, hn.1]
  | letrec_definition _ ih =>
      intro n hn
      rw [List.mem_cons, not_or] at hn
      rw [ih n hn.2, scope_enter_bindings _ _ _ hn.1]
      rfl
  | letrec_body hv hu _ ih =>
      intro n hn
      rw [List.mem_cons, not_or] at hn
      rw [ih n hn.2]
      show _ = _
      rw [(visit_frame _ _ _ _ _ hv).1, scope_enter_bindings _ _ _ hn.1]
      rfl

/-- C20. Undefined identifier: the rule for an identifier whose name is not bound in the
environment of the inferencer throws `std::runtime_error("Undefined symbol " + name)` and
changes nothing; so `infer_type` of the bare identifier throws it for every environment
that does not bind the name. Whenever the inference of an expression reaches an identifier
whose name is not bound in the environment of the inferencer at that point, the rule of
the whole expression throws the same exception; in particular `infer_type` of an
expression throws it when the inference reaches an identifier that is bound neither in
`env` nor by an enclosing lambda, let or letrec. And in the demo environment
`pair (f 4) (f true)`, where `f` is unbound, throws it for `f`. -/
theorem undefined_symbol :
    (∀ (fuel : Nat) (name : String) (inf : inferencer),
      inf.m_environment.find name = none →
      inferencer.visit fuel (.identifier name) inf =
        some (.error (.runtime_error ("Undefined symbol " ++ name)), inf)) ∧
    (∀ (fuel : Nat) (name : String) (env : environment),
      env.find name = none →
      infer_type fuel (.identifier name) env =
        some (.error (.runtime_error ("Undefined symbol " ++ name)))) ∧
    (∀ (fuel : Nat) (e : node) (inf : inferencer) (name : String) (p : inferencer),
      activation fuel e inf (.identifier name) p →
      p.m_environment.find name = none →
      ∃ inf1, inferencer.visit fuel e inf =
        some (.error (.runtime_error ("Undefined symbol " ++ name)), inf1)) ∧
    (∀ (fuel : Nat) (e : node) (env : environment) (names : List String) (name : String)
        (p : inferencer),
      activation_under fuel e ⟨env, [], []⟩ names (.identifier name) p →
      env.find name = none → name ∉ names →
      infer_type fuel e env =
        some (.error (.runtime_error ("Undefined symbol " ++ name)))) ∧
    infer_type 30 demo_pair demo_environment =
      some (.error (.runtime_error "Undefined symbol f")) := by
  have h1 : ∀ (fuel : Nat) (name : String) (inf : inferencer),
      inf.m_environment.find name = none →
      inferencer.visit fuel (.identifier name) inf =
        some (.error (.runtime_error ("Undefined symbol " ++ name)), inf) := by
    intro fuel name inf h
    simp [inferencer.visit, h]
  have h3 : ∀ (fuel : Nat) (e : node) (inf : inferencer) (name : String) (p : inferencer),
      activation fuel e inf (.identifier name) p →
      p.m_environment.find name = none →
      ∃ inf1, inferencer.visit fuel e inf =
        some (.error (.runtime_error ("Undefined symbol " ++ name)), inf1) :=
    fun fuel e inf name p ha hp => activation_throws ha (h1 fuel name p hp)
  refine ⟨h1, ?_, h3, ?_, by decide!⟩
  · intro fuel name env h
    simp [infer_type, inferencer.visit, h]
  · intro fuel e env names name p ha henv hn
    have hp : p.m_environment.find name = none := by
      show p.m_environment.bindings name = none
      rw [activation_under_bindings ha name hn]
      exact henv
    obtain ⟨inf1, hv⟩ := h3 fuel e _ name p (activation_of_under ha) hp
    simp [infer_type, hv]

/-- Witness of C20: the bare identifier `undefined_name` in the demo environment, and
`fn x => undefined_name` there, where the identifier is reached inside the scope of `x`. -/
theorem undefined_symbol_witness :
    demo_environment.find "undefined_name" = none ∧
      infer_type 5 (.identifier "undefined_name") demo_environment =
        some (.error (.runtime_error ("Undefined symbol " ++ "undefined_name"))) ∧
      "undefined_name" ∉ ["x"] ∧
      infer_type 5 (.lambda "x" (.identifier "undefined_name")) demo_environment =
        some (.error (.runtime_error ("Undefined symbol " ++ "undefined_name"))) :=
  ⟨by decide!, undefined_symbol.2.1 5 "undefined_name" demo_environment (by decide!),
    by decide,
    undefined_symbol.2.2.2.1 5 (.lambda "x" (.identifier "undefined_name")) demo_environment
      ["x"] "undefined_name" _
      (activation_under.lambda_body (activation_under.here _ _)) (by decide!) (by decide)⟩

end inference

namespace unification

open inference

/-! ## Exceptions of `unify` on the empty substitution -/

/-- C23. `recursive_unification` reports the variable first in both orientations: for
every type variable `v` and every type-operator term `t` in which `v` occurs,
`unify(v, t, {})` and `unify(t, v, {})` both throw `recursive_unification(v, t)` (and
leave the substitution empty), with any fuel that allows one iteration. -/
theorem recursive_unification_variable_first (v k : Nat) (ts : List type)
    (h : occurs (.op k ts) v = true) (fuel : Nat) :
    unify_pair (fuel + 1) (.var v) (.op k ts) [] =
        some (.threw (.recursive_unification (.var v) (.op k ts)) []) ∧
      unify_pair (fuel + 1) (.op k ts) (.var v) [] =
        some (.threw (.recursive_unification (.var v) (.op k ts)) []) := by
  constructor
  · simp only [unify_pair, unify, unifier.init, List.map_nil, List.reverse_nil,
      List.reverse_cons, List.nil_append]
    exact run_succ_cons_error (by simp [visit, h])
  · simp only [unify_pair, unify, unifier.init, List.map_nil, List.reverse_nil,
      List.reverse_cons, List.nil_append]
    exact run_succ_cons_error (by simp [visit, h])

/-- Witness of C23: the variable `0` against `function(int, 0)`. -/
theorem recursive_unification_variable_first_witness :
    unify_pair 1 (.var 0) (.op 2 [integer, .var 0]) [] =
        some (.threw (.recursive_unification (.var 0) (.op 2 [integer, .var 0])) []) ∧
      unify_pair 1 (.op 2 [integer, .var 0]) (.var 0) [] =
        some (.threw (.recursive_unification (.var 0) (.op 2 [integer, .var 0])) []) :=
  recursive_unification_variable_first 0 2 [integer, .var 0] (by decide) 0

/-- C24. Failure is not atomic: `unify(function(int, 0), function(bool, int), {})` throws
`type_mismatch(int, bool)` and leaves the substitution `{0 -> int}`, the binding made
before the mismatch was found, which differs from the empty substitution it was given. -/
theorem failure_not_atomic :
    unify_pair 3 (make_function integer (.var 0)) (make_function boolean integer) [] =
        some (.threw (.type_mismatch integer boolean) [(0, integer)]) ∧
      [(0, integer)] ≠ ([] : substitution) := by
  constructor
  · decide
  · decide

end unification

namespace inference

open unification ast

/-! ## More examples -/

/-- C21. A `letrec`-bound name stays monomorphic in the `letrec` body: in the demo
environment, `infer_type` of `letrec f = fn x => x in pair (f 4) (f true)` throws
`type_mismatch` (of `bool` against `int`), although the same expression written with
`let` returns `pair(int, bool)`; and the rule of the `letrec` body is started in a state
where `f` is bound to the placeholder variable 3, which is in the non-generic set. -/
theorem letrec_monomorphic :
    infer_type 30 demo_letrec_f demo_environment =
        some (.error (.type_mismatch boolean integer)) ∧
      infer_type 30 demo_let_f demo_environment = some (.ok (pair integer boolean)) ∧
      ∃ p, activation 30 demo_letrec_f ⟨demo_environment, [], []⟩ demo_pair p ∧
        p.m_environment.find "f" = some (.var 3) ∧ 3 ∈ p.m_non_generic_variables := by
  refine ⟨by decide!, by decide!, ?_⟩
  have h1 : (inferencer.visit 30 (.lambda "x" (.identifier "x"))
      (scoped_non_generic_variable.enter
        { (⟨demo_environment, [], []⟩ : inferencer) with
          m_environment := demo_environment.unique_id.2 } "f"
        demo_environment.unique_id.1).2).map (fun q => (q.1, q.2.m_substitution)) =
      some (.ok (make_function (.var 4) (.var 4)),
        [(5, make_function (.var 4) (.var 4))]) := by
    decide!
  have h2 : unify_pair 30 (.var 3) (make_function (.var 4) (.var 4))
      [(5, make_function (.var 4) (.var 4))] =
      some (.returned [(3, make_function (.var 4) (.var 4)),
        (5, make_function (.var 4) (.var 4))]) := by
    decide!
  obtain ⟨q, hq, hq1⟩ := Option.map_eq_some'.1 h1
  obtain ⟨o, inf1⟩ := q
  simp only [Prod.mk.injEq] at hq1
  obtain ⟨ho, hs⟩ := hq1
  subst ho
  have hfr := visit_frame 30 _ _ _ _ hq
  refine ⟨{ inf1 with m_substitution := [(3, make_function (.var 4) (.var 4)),
      (5, make_function (.var 4) (.var 4))] },
    activation.letrec_body hq (by rw [hs]; exact h2) (activation.here _ _), ?_, ?_⟩
  · show inf1.m_environment.bindings "f" = some (.var 3)
    rw [hfr.1]
    decide!
  · show 3 ∈ inf1.m_non_generic_variables
    rw [hfr.2]
    decide!

/-- C22. Generic and non-generic variables in one `let`: in the demo environment,
`infer_type` of `fn g => let f = fn x => g in pair (f 3) (f true)` returns
`function(v, pair(v, v))` with the single variable `v = 7` in all three positions. -/
theorem generic_and_non_generic :
    infer_type 30 demo_fn_g demo_environment =
      some (.ok (make_function (.var 7) (pair (.var 7) (.var 7)))) := by
  decide!

end inference

namespace unification

/-! ## Variable ids below a bound -/

theorem below_replace {c : Nat} {t y : type} (x : Nat) (ht : below c t) (hy : below c y) :
    below c (replace t x y) := by
  intro v hv
  by_cases h1 : occurs t v = true
  · exact ht v h1
  · by_cases h2 : occurs y v = true
    · exact hy v h2
    · have := occurs_replace_false t x y v (by simpa using h1) (by simpa using h2)
      rw [this] at hv
      cases hv

theorem below_mono {c c1 : Nat} {t : type} (h : c ≤ c1) (ht : below c t) : below c1 t :=
  fun v hv => lt_of_lt_of_le (ht v hv) h

theorem substitution_below_mono {c c1 : Nat} {s : substitution} (h : c ≤ c1)
    (hs : substitution_below c s) : substitution_below c1 s :=
  fun e he => ⟨lt_of_lt_of_le (hs e he).1 h, below_mono h (hs e he).2⟩

theorem below_var {c v : Nat} : below c (.var v) ↔ v < c := by
  constructor
  · intro h; exact h v (by simp [occurs])
  · intro h w hw
    have : v = w := by simpa [occurs] using hw
    omega

theorem below_child {c k : Nat} {ts : List type} {t : type} (h : below c (.op k ts))
    (ht : t ∈ ts) : below c t := by
  intro v hv
  apply h v
  simp only [occurs]
  exact occurs_list_of_mem ht hv

theorem below_op {c k : Nat} {ts : List type} (h : ∀ t ∈ ts, below c t) :
    below c (.op k ts) := by
  intro v hv
  simp only [occurs] at hv
  induction ts with
  | nil => simp [occurs_list] at hv
  | cons t ts ih =>
      simp only [occurs_list, Bool.or_eq_true] at hv
      rcases hv with hv | hv
      · exact h t (List.mem_cons_self _ _) v hv
      · exact ih (fun t1 ht1 => h t1 (List.mem_cons_of_mem _ ht1)) hv

theorem below_eliminate {c : Nat} {u : unifier} {v : Nat} {t : type} (hu : u.below c)
    (hv : v < c) (ht : below c t) : (eliminate u v t).below c := by
  constructor
  · intro p hp
    simp only [eliminate, List.mem_map] at hp
    obtain ⟨p0, hp0, rfl⟩ := hp
    exact ⟨below_replace v (hu.1 p0 hp0).1 ht, below_replace v (hu.1 p0 hp0).2 ht⟩
  · intro e he
    rcases mem_map_assign he with rfl | he
    · exact ⟨hv, ht⟩
    · rw [List.mem_map] at he
      obtain ⟨e0, he0, rfl⟩ := he
      exact ⟨(hu.2 e0 he0).1, below_replace v (hu.2 e0 he0).2 ht⟩

/-- A visit of the unifier introduces no variable. -/
theorem below_visit {c : Nat} {x y : type} {rest : List constraint} {σ : substitution}
    {u1 : unifier} (hu : unifier.below c ⟨(x, y) :: rest, σ⟩)
    (h : visit ⟨rest, σ⟩ x y = .ok u1) : u1.below c := by
  have hxy := hu.1 (x, y) (List.mem_cons_self _ _)
  have hrest : unifier.below c ⟨rest, σ⟩ :=
    ⟨fun p hp => hu.1 p (List.mem_cons_of_mem _ hp), hu.2⟩
  rcases visit_ok_cases h with ⟨v, rfl, rfl, rfl⟩ | ⟨v, t, _, rfl, hc⟩ | ⟨k, xs, ys, rfl, rfl, _, rfl⟩
  · exact hrest
  · rcases hc with ⟨rfl, rfl⟩ | ⟨rfl, rfl⟩
    · exact below_eliminate hrest (below_var.1 hxy.1) hxy.2
    · exact below_eliminate hrest (below_var.1 hxy.2) hxy.1
  · refine ⟨?_, hu.2⟩
    intro p hp
    simp only at hp
    rw [mem_push_children] at hp
    rcases hp with hp | hp
    · exact ⟨below_child hxy.1 (List.of_mem_zip hp).1, below_child hxy.2 (List.of_mem_zip hp).2⟩
    · exact hrest.1 p hp

/-- The substitution a loop of the unifier leaves, on return or on a throw, has no variable
that was not in the starting state. -/
theorem below_run {c fuel : Nat} {u : unifier} (hu : u.below c) :
    (∀ s1, unifier.run fuel u = some (.returned s1) → substitution_below c s1) ∧
      (∀ e s1, unifier.run fuel u = some (.threw e s1) → substitution_below c s1) := by
  induction fuel generalizing u with
  | zero =>
      obtain ⟨stack, σ⟩ := u
      cases stack with
      | nil =>
          rw [run_nil]
          refine ⟨fun s1 h => ?_, fun e s1 h => by cases h⟩
          injection h with h; injection h with h
          subst h; exact hu.2
      | cons d rest =>
          rw [run_zero_cons]
          exact ⟨fun s1 h => (by cases h), fun e s1 h => (by cases h)⟩
  | succ n ih =>
      obtain ⟨stack, σ⟩ := u
      cases stack with
      | nil =>
          rw [run_nil]
          refine ⟨fun s1 h => ?_, fun e s1 h => by cases h⟩
          injection h with h; injection h with h
          subst h; exact hu.2
      | cons d rest =>
          obtain ⟨x, y⟩ := d
          cases hv : visit ⟨rest, σ⟩ x y with
          | error e0 =>
              rw [run_succ_cons_error hv]
              refine ⟨fun s1 h => (by cases h), fun e s1 h => ?_⟩
              injection h with h; injection h with _ h
              subst h; exact hu.2
          | ok u1 =>
              rw [run_succ_cons_ok hv]
              exact ih (below_visit hu hv)

theorem below_init {c : Nat} {constraints : List constraint} {s : substitution}
    (hc : ∀ p ∈ constraints, below c p.1 ∧ below c p.2) (hs : substitution_below c s) :
    (unifier.init constraints s).below c := by
  refine ⟨?_, fun e he => by simp [unifier.init] at he⟩
  intro p hp
  simp only [unifier.init, List.mem_append, List.mem_reverse, List.mem_map] at hp
  rcases hp with ⟨e, he, rfl⟩ | hp
  · exact ⟨below_var.2 (hs e he).1, (hs e he).2⟩
  · exact hc p hp

/-- A call `unify(x, y, s)` leaves, on return or on a throw, a substitution with no
variable that is not in `x`, `y` or `s`. -/
theorem below_unify_pair {c fuel : Nat} {x y : type} {s : substitution} {res : result}
    (hx : below c x) (hy : below c y) (hs : substitution_below c s)
    (h : unify_pair fuel x y s = some res) :
    match res with
    | .returned s1 => substitution_below c s1
    | .threw _ s1 => substitution_below c s1 := by
  have hinit : (unifier.init [(x, y)] s).below c :=
    below_init (fun p hp => by
      have : p = (x, y) := by simpa using hp
      subst this
      exact ⟨hx, hy⟩) hs
  have := @below_run c fuel _ hinit
  cases res with
  | returned s1 => exact this.1 s1 h
  | threw e s1 => exact this.2 e s1 h

end unification

namespace inference

open unification ast

/-! ## The id counter bounds every variable of the session -/

theorem definitive_loop_below {c fuel : Nat} {s : substitution} {t r : type}
    (hs : substitution_below c s) (ht : below c t) (h : definitive_loop fuel s t = some r) :
    below c r := by
  induction fuel generalizing t with
  | zero =>
      cases t with
      | op k ts =>
          rw [definitive_loop_op] at h
          injection h with h; rw [← h]; exact ht
      | var v =>
          cases hf : map_find s v with
          | none =>
              rw [definitive_loop_none _ hf] at h
              injection h with h; rw [← h]; exact ht
          | some b => simp [definitive_loop, hf] at h
  | succ n ih =>
      cases t with
      | op k ts =>
          rw [definitive_loop_op] at h
          injection h with h; rw [← h]; exact ht
      | var v =>
          cases hf : map_find s v with
          | none =>
              rw [definitive_loop_none _ hf] at h
              injection h with h; rw [← h]; exact ht
          | some b =>
              rw [definitive_loop_some _ hf] at h
              exact ih (hs _ (mem_of_map_find hf)).2 h

theorem definitive_below {c fuel : Nat} {s : substitution} {v : Nat} {r : type}
    (hs : substitution_below c s) (hv : v < c) (h : definitive fuel s v = some r) :
    below c r :=
  definitive_loop_below hs (below_var.2 hv) h

theorem is_generic_loop_true {fuel : Nat} {s : substitution} {w : Nat} :
    ∀ {N : List Nat}, is_generic_loop fuel s N w = some true →
      ∃ n ∈ N, ∃ d, definitive fuel s n = some d ∧ occurs d w = true
  | [], h => by simp [is_generic_loop] at h
  | n :: N, h => by
      simp only [is_generic_loop] at h
      cases hd : definitive fuel s n with
      | none => simp [hd] at h
      | some d =>
          simp only [hd] at h
          by_cases ho : occurs d w = true
          · exact ⟨n, List.mem_cons_self _ _, d, hd, ho⟩
          · simp only [ho, if_false] at h
            obtain ⟨n1, hn1, d1, hd1, ho1⟩ := is_generic_loop_true h
            exact ⟨n1, List.mem_cons_of_mem _ hn1, d1, hd1, ho1⟩

theorem below_of_frame {fm fm1 : fresh_maker} (hf : fm.frame fm1) (h : fm.below)
    (hm : ∀ w u, fm1.m_mappings w = some u → u < fm1.m_env.m_next_id) : fm1.below := by
  refine ⟨?_, ?_, hm⟩
  · rw [hf.2.2.1]
    exact substitution_below_mono hf.2.2.2 h.1
  · rw [hf.2.1]
    exact fun n hn => lt_of_lt_of_le (h.2.1 n hn) hf.2.2.2

theorem visit_variable_below {fuel : Nat} {fm fm1 : fresh_maker} {w : Nat} {r : type}
    (hb : fm.below) (h : fm.visit_variable fuel w = some (r, fm1)) :
    fm1.below ∧ below fm1.m_env.m_next_id r := by
  have hfr := visit_variable_frame h
  unfold fresh_maker.visit_variable fresh_maker.is_generic at h
  cases hg : is_generic_loop fuel fm.m_substitution fm.m_non_generic w with
  | none => simp [hg] at h
  | some o =>
      cases o with
      | true =>
          simp only [hg, Bool.not_true, Option.some.injEq, Prod.mk.injEq] at h
          obtain ⟨h1, h2⟩ := h
          subst h1 h2
          refine ⟨hb, below_var.2 ?_⟩
          obtain ⟨n, hn, d, hd, ho⟩ := is_generic_loop_true hg
          exact definitive_below hb.1 (hb.2.1 n hn) hd w ho
      | false =>
          simp only [hg, Bool.not_false] at h
          cases hm : fm.m_mappings w with
          | some u =>
              simp only [hm, Option.some.injEq, Prod.mk.injEq] at h
              obtain ⟨h1, h2⟩ := h
              subst h1 h2
              exact ⟨hb, below_var.2 (hb.2.2 w u hm)⟩
          | none =>
              simp only [hm, Option.some.injEq, Prod.mk.injEq] at h
              obtain ⟨h1, h2⟩ := h
              subst h1
              refine ⟨below_of_frame hfr hb ?_, ?_⟩
              · intro v u hv
                rw [← h2] at hv ⊢
                simp only [environment.unique_id] at hv ⊢
                split_ifs at hv with hvw
                · injection hv with hv; omega
                · have := hb.2.2 v u hv; omega
              · rw [← h2]
                exact below_var.2 (by simp [environment.unique_id])

theorem transform_below {f : fresh_maker → type → Option (type × fresh_maker)}
    (hf : ∀ fm t r fm1, fm.below → f fm t = some (r, fm1) →
      fm.frame fm1 ∧ fm1.below ∧ below fm1.m_env.m_next_id r) :
    ∀ (ts : List type) (fm : fresh_maker) (rs : List type) (fm1 : fresh_maker),
      fm.below → transform f fm ts = some (rs, fm1) →
      fm.frame fm1 ∧ fm1.below ∧ ∀ r ∈ rs, below fm1.m_env.m_next_id r
  | [], fm, rs, fm1, hb, h => by
      simp only [transform, Option.some.injEq, Prod.mk.injEq] at h
      obtain ⟨h1, h2⟩ := h
      subst h1 h2
      exact ⟨frame_refl fm, hb, fun r hr => by simp at hr⟩
  | t :: ts, fm, rs, fm1, hb, h => by
      simp only [transform] at h
      cases hft : f fm t with
      | none => simp [hft] at h
      | some q =>
          obtain ⟨t1, fma⟩ := q
          simp only [hft] at h
          obtain ⟨hfa, hba, hra⟩ := hf fm t t1 fma hb hft
          cases htr : transform f fma ts with
          | none => simp [htr] at h
          | some q2 =>
              obtain ⟨ts1, fmb⟩ := q2
              simp only [htr, Option.some.injEq, Prod.mk.injEq] at h
              obtain ⟨h1, h2⟩ := h
              subst h1 h2
              obtain ⟨hfb, hbb, hrb⟩ := transform_below hf ts fma ts1 fmb hba htr
              refine ⟨frame_trans _ _ _ hfa hfb, hbb, ?_⟩
              intro r hr
              simp only [List.mem_cons] at hr
              rcases hr with rfl | hr
              · exact below_mono hfb.2.2.2 hra
              · exact hrb r hr

/-- An instantiation returns a type whose variables are all below the counter it leaves. -/
theorem call_below : ∀ (fuel : Nat) (fm : fresh_maker) (x r : type) (fm1 : fresh_maker),
    fm.below → fresh_maker.call fuel fm x = some (r, fm1) →
    fm.frame fm1 ∧ fm1.below ∧ below fm1.m_env.m_next_id r := by
  intro fuel
  induction fuel with
  | zero =>
      intro fm x r fm1 _ h
      simp [fresh_maker.call] at h
  | succ n ih =>
      intro fm x r fm1 hb h
      have htr : ∀ (k : Nat) (ts : List type),
          (match transform (fun fm1 t => fresh_maker.call n fm1 t) fm ts with
            | none => none
            | some (ts1, fm1) => some (type.op k ts1, fm1)) = some (r, fm1) →
          fm.frame fm1 ∧ fm1.below ∧ below fm1.m_env.m_next_id r := by
        intro k ts h
        cases ht : transform (fun fm1 t => fresh_maker.call n fm1 t) fm ts with
        | none => simp [ht] at h
        | some q =>
            obtain ⟨ts1, fma⟩ := q
            simp only [ht, Option.some.injEq, Prod.mk.injEq] at h
            obtain ⟨h1, h2⟩ := h
            subst h1 h2
            obtain ⟨h3, h4, h5⟩ := transform_below
              (fun fm t r fm1 hb h => ih fm t r fm1 hb h) ts fm ts1 fma hb ht
            exact ⟨h3, h4, below_op h5⟩
      cases x with
      | op k ts =>
          rw [fresh_maker.call] at h
          exact htr k ts h
      | var v =>
          rw [fresh_maker.call] at h
          cases hd : definitive (n + 1) fm.m_substitution v with
          | none => simp [hd] at h
          | some d =>
              cases d with
              | var w =>
                  simp only [hd] at h
                  exact ⟨visit_variable_frame h, visit_variable_below hb h⟩
              | op k ts =>
                  simp only [hd] at h
                  exact htr k ts h

theorem call_mono {fuel fuel1 : Nat} {fm : fresh_maker} {x : type} {r : type × fresh_maker}
    (hle : fuel ≤ fuel1) (h : fresh_maker.call fuel fm x = some r) :
    fresh_maker.call fuel1 fm x = some r := by
  obtain ⟨k, rfl⟩ := Nat.exists_eq_add_of_le hle
  induction k with
  | zero => exact h
  | succ k ih => exact call_succ _ _ _ _ (ih (Nat.le_add_right _ _))

/-- On a substitution in solved form whose keys are below the counter, an instantiation
from empty mappings returns a type in which no key occurs. -/
theorem call_resolved {fuel : Nat} {env : environment} {N : List Nat} {s : substitution}
    {x r : type} {fm1 : fresh_maker} (hs : solved s)
    (hk : ∀ b ∈ s, b.1 < env.m_next_id)
    (h : fresh_maker.call fuel ⟨env, N, s, fun _ => none⟩ x = some (r, fm1)) :
    ∀ b ∈ s, occurs r b.1 = false := by
  obtain ⟨r0, fm0, hc0, hr0, _, _, hkeep, hgen, _⟩ := call_fresh_spec s hs N x env
  have e1 := call_mono (Nat.le_max_left fuel (size (apply s x))) h
  have e2 := call_mono (Nat.le_max_right fuel (size (apply s x))) hc0
  rw [e1] at e2
  simp only [Option.some.injEq, Prod.mk.injEq] at e2
  obtain ⟨h1, h2⟩ := e2
  subst h1 h2
  intro b hb
  rw [Bool.eq_false_iff]
  intro hocc
  rw [hr0] at hocc
  obtain ⟨w, hw, hwb⟩ := occurs_rename_cases hocc
  cases hng : occurs_in_non_generic s N w with
  | true =>
      rw [hkeep w hng] at hwb
      rw [hwb, occurs_apply_key s hs b.1 ⟨b, hb, rfl⟩ x] at hw
      cases hw
  | false =>
      have h3 := (hgen w hw hng).1
      have h4 := hk b hb
      omega

theorem binding_no_key {s : substitution} (hs : solved s) (v : Nat) :
    ∀ b ∈ s, occurs (binding s v) b.1 = false := by
  intro b hb
  have := occurs_apply_key s hs b.1 ⟨b, hb, rfl⟩ (.var v)
  rwa [apply_var] at this

theorem mem_set_insert : ∀ {N : List Nat} {v n : Nat}, n ∈ (set_insert N v).1 → n = v ∨ n ∈ N
  | [], v, n, h => by
      simp only [set_insert, List.mem_singleton] at h
      exact Or.inl h
  | a :: l, v, n, h => by
      by_cases h1 : v < a
      · simp only [set_insert, h1, if_true, List.mem_cons] at h ⊢
        exact h
      · by_cases h2 : v = a
        · subst h2
          simp only [set_insert, lt_irrefl, if_false, if_true] at h
          exact Or.inr h
        · simp only [set_insert, h1, h2, if_false, List.mem_cons] at h ⊢
          rcases h with h | h
          · exact Or.inr (Or.inl h)
          · rcases mem_set_insert h with h | h
            · exact Or.inl h
            · exact Or.inr (Or.inr h)

theorem mem_set_erase : ∀ {N : List Nat} {v n : Nat}, n ∈ set_erase N v → n ∈ N
  | [], _, _, h => by simp [set_erase] at h
  | a :: l, v, n, h => by
      by_cases h1 : a = v
      · simp only [set_erase, h1, if_true] at h
        exact List.mem_cons_of_mem _ h
      · simp only [set_erase, h1, if_false, List.mem_cons] at h ⊢
        rcases h with h | h
        · exact Or.inl h
        · exact Or.inr (mem_set_erase h)

theorem scoped_generic_leave_counter (sc : scoped_generic) (env : environment) :
    (sc.leave env).m_next_id = env.m_next_id := by
  unfold scoped_generic.leave
  cases sc.m_restore <;> rfl

theorem scoped_generic_enter_counter (env : environment) (name : String) (t : type) :
    (scoped_generic.enter env name t).2.m_next_id = env.m_next_id := by
  rw [scoped_generic_enter_snd]
  rfl

/-- Entering the scope of a fresh non-generic variable keeps the session below the new
counter. -/
theorem session_below_enter {inf : inferencer} (name : String) (h : inf.session_below) :
    (scoped_non_generic_variable.enter
      { inf with m_environment := inf.m_environment.unique_id.2 } name
      inf.m_environment.unique_id.1).2.session_below ∧
    (scoped_non_generic_variable.enter
      { inf with m_environment := inf.m_environment.unique_id.2 } name
      inf.m_environment.unique_id.1).2.m_environment.m_next_id =
        inf.m_environment.m_next_id + 1 ∧
    (scoped_non_generic_variable.enter
      { inf with m_environment := inf.m_environment.unique_id.2 } name
      inf.m_environment.unique_id.1).2.m_substitution = inf.m_substitution := by
  have hc : (scoped_non_generic_variable.enter
      { inf with m_environment := inf.m_environment.unique_id.2 } name
      inf.m_environment.unique_id.1).2.m_environment.m_next_id =
        inf.m_environment.m_next_id + 1 := by
    simp only [scoped_non_generic_variable.enter, scoped_generic_enter_counter]
    rfl
  refine ⟨⟨?_, ?_⟩, hc, rfl⟩
  · rw [hc]
    exact substitution_below_mono (Nat.le_succ _) h.1
  · rw [hc]
    intro n hn
    simp only [scoped_non_generic_variable.enter] at hn
    rcases mem_set_insert hn with hn | hn
    · rw [hn]; simp [environment.unique_id]
    · have := h.2 n hn; omega

/-- Leaving a scope keeps the session below the counter. -/
theorem session_below_leave (sc : scoped_non_generic_variable) {inf : inferencer}
    (h : inf.session_below) :
    (sc.leave inf).session_below ∧
      (sc.leave inf).m_environment.m_next_id = inf.m_environment.m_next_id ∧
      (sc.leave inf).m_substitution = inf.m_substitution := by
  have hc : (sc.leave inf).m_environment.m_next_id = inf.m_environment.m_next_id := by
    simp only [scoped_non_generic_variable.leave, scoped_generic_leave_counter]
  refine ⟨⟨?_, ?_⟩, hc, rfl⟩
  · rw [hc]; exact h.1
  · rw [hc]
    intro n hn
    simp only [scoped_non_generic_variable.leave] at hn
    split_ifs at hn
    · exact h.2 n (mem_set_erase hn)
    · exact h.2 n hn

/-- The end of a rule, `unify` then `definitive`: the session stays below the counter, and
a returned type is below it and holds no key of the substitution, which is in solved
form. -/
theorem unify_and_resolve_session {fuel : Nat} {inf inf1 : inferencer} {x y : type} {r : Nat}
    {o : Except exception type} (hb : inf.session_below)
    (hx : below inf.m_environment.m_next_id x) (hy : below inf.m_environment.m_next_id y)
    (hr : r < inf.m_environment.m_next_id)
    (h : inf.unify_and_resolve fuel x y r = some (o, inf1)) :
    inf1.m_environment = inf.m_environment ∧ inf1.session_below ∧
      ∀ t, o = .ok t → below inf1.m_environment.m_next_id t ∧ solved inf1.m_substitution ∧
        ∀ b ∈ inf1.m_substitution, occurs t b.1 = false := by
  unfold inferencer.unify_and_resolve at h
  cases hu : unify_pair fuel x y inf.m_substitution with
  | none => simp [hu] at h
  | some res =>
      have hres := below_unify_pair hx hy hb.1 hu
      cases res with
      | threw e s =>
          simp only [hu, Option.some.injEq, Prod.mk.injEq] at h
          obtain ⟨h1, h2⟩ := h
          subst h1 h2
          exact ⟨rfl, ⟨hres, hb.2⟩, fun t ht => by cases ht⟩
      | returned s =>
          simp only [hu] at h
          cases hd : definitive fuel s r with
          | none => simp [hd] at h
          | some t0 =>
              simp only [hd, Option.some.injEq, Prod.mk.injEq] at h
              obtain ⟨h1, h2⟩ := h
              subst h1 h2
              have hsol : solved s := (unify_returned_inv hu).2
              refine ⟨rfl, ⟨hres, hb.2⟩, ?_⟩
              intro t ht
              injection ht with ht
              subst ht
              refine ⟨definitive_below hres hr hd, hsol, ?_⟩
              rw [definitive_eq_binding hsol hd]
              exact binding_no_key hsol r

theorem below_integer (c : Nat) : below c integer := by
  intro v hv
  simp [integer, occurs, occurs_list] at hv

theorem below_make_function {c : Nat} {a b : type} (ha : below c a) (hb : below c b) :
    below c (make_function a b) := by
  apply below_op
  intro t ht
  simp only [List.mem_cons, List.mem_singleton, List.not_mem_nil, or_false] at ht
  rcases ht with rfl | rfl
  · exact ha
  · exact hb

/-- What every rule keeps. From a state whose session is below the counter, a rule leaves
the counter no smaller and the session below it, on return and on a throw; a returned
type is below the counter; and when the substitution was in solved form, it still is
when a type is returned, and no key of it occurs in that type. -/
theorem visit_session (fuel : Nat) :
    ∀ (e : node) (inf : inferencer) (o : Except exception type) (inf1 : inferencer),
      inf.session_below → inferencer.visit fuel e inf = some (o, inf1) →
      inf.m_environment.m_next_id ≤ inf1.m_environment.m_next_id ∧ inf1.session_below ∧
        ∀ t, o = .ok t → below inf1.m_environment.m_next_id t ∧
          (solved inf.m_substitution → solved inf1.m_substitution ∧
            ∀ b ∈ inf1.m_substitution, occurs t b.1 = false) := by
  intro e
  induction e with
  | integer_literal v =>
      intro inf o inf1 hb h
      simp only [inferencer.visit, Option.some.injEq, Prod.mk.injEq] at h
      obtain ⟨h1, h2⟩ := h
      subst h1 h2
      refine ⟨le_rfl, hb, fun t ht => ?_⟩
      injection ht with ht
      subst ht
      exact ⟨below_integer _, fun hs => ⟨hs, fun b _ => by simp [integer, occurs, occurs_list]⟩⟩
  | identifier name =>
      intro inf o inf1 hb h
      simp only [inferencer.visit] at h
      cases hf : inf.m_environment.find name with
      | none =>
          simp only [hf, Option.some.injEq, Prod.mk.injEq] at h
          obtain ⟨h1, h2⟩ := h
          subst h1 h2
          exact ⟨le_rfl, hb, fun t ht => by cases ht⟩
      | some t0 =>
          simp only [hf] at h
          cases hc : fresh_maker.call fuel ⟨inf.m_environment, inf.m_non_generic_variables,
              inf.m_substitution, fun _ => none⟩ t0 with
          | none => simp [hc] at h
          | some q =>
              obtain ⟨t1, fm⟩ := q
              simp only [hc, Option.some.injEq, Prod.mk.injEq] at h
              obtain ⟨h1, h2⟩ := h
              subst h1 h2
              obtain ⟨hfr, hb1, hr⟩ := call_below fuel _ t0 t1 fm
                ⟨hb.1, hb.2, fun w u hw => by simp at hw⟩ hc
              have hsub : fm.m_substitution = inf.m_substitution := hfr.2.2.1
              have hN : fm.m_non_generic = inf.m_non_generic_variables := hfr.2.1
              refine ⟨hfr.2.2.2, ⟨?_, ?_⟩, fun t ht => ?_⟩
              · have := hb1.1; rw [hsub] at this; exact this
              · have := hb1.2.1; rw [hN] at this; exact this
              · injection ht with ht
                subst ht
                exact ⟨hr, fun hs => ⟨hs, call_resolved hs (fun b hbm => (hb.1 b hbm).1) hc⟩⟩
  | apply fn arg ihf iha =>
      intro inf o inf1 hb h
      simp only [inferencer.visit] at h
      cases h1 : inferencer.visit fuel fn inf with
      | none => simp [h1] at h
      | some q1 =>
          obtain ⟨o1, infa⟩ := q1
          obtain ⟨hca, hba, hta⟩ := ihf inf o1 infa hb h1
          cases o1 with
          | error e =>
              simp only [h1, Option.some.injEq, Prod.mk.injEq] at h
              obtain ⟨e1, e2⟩ := h
              subst e1 e2
              exact ⟨hca, hba, fun t ht => by cases ht⟩
          | ok fun_type =>
              simp only [h1] at h
              obtain ⟨hfun, hsa⟩ := hta fun_type rfl
              cases h2 : inferencer.visit fuel arg infa with
              | none => simp [h2] at h
              | some q2 =>
                  obtain ⟨o2, infb⟩ := q2
                  obtain ⟨hcb, hbb, htb⟩ := iha infa o2 infb hba h2
                  cases o2 with
                  | error e =>
                      simp only [h2, Option.some.injEq, Prod.mk.injEq] at h
                      obtain ⟨e1, e2⟩ := h
                      subst e1 e2
                      exact ⟨le_trans hca hcb, hbb, fun t ht => by cases ht⟩
                  | ok arg_type =>
                      simp only [h2] at h
                      obtain ⟨harg, _⟩ := htb arg_type rfl
                      have hstate : inferencer.session_below
                          { infb with m_environment := infb.m_environment.unique_id.2 } :=
                        ⟨substitution_below_mono (Nat.le_succ _) hbb.1,
                          fun n hn => Nat.lt_succ_of_lt (hbb.2 n hn)⟩
                      obtain ⟨henv, hb3, ht3⟩ := unify_and_resolve_session hstate
                        (below_make_function (below_mono (Nat.le_succ _) harg)
                          (below_var.2 (Nat.lt_succ_self _)))
                        (below_mono (le_trans hcb (Nat.le_succ _)) hfun)
                        (Nat.lt_succ_self _) h
                      refine ⟨?_, hb3, fun t ht => ?_⟩
                      · rw [henv]
                        exact le_trans hca (le_trans hcb (Nat.le_succ _))
                      · obtain ⟨g1, g2, g3⟩ := ht3 t ht
                        exact ⟨g1, fun _ => ⟨g2, g3⟩⟩
  | lambda param body ih =>
      intro inf o inf1 hb h
      simp only [inferencer.visit] at h
      obtain ⟨hbe, hce, hse⟩ := session_below_enter param hb
      cases h1 : inferencer.visit fuel body (scoped_non_generic_variable.enter
          { inf with m_environment := inf.m_environment.unique_id.2 } param
          inf.m_environment.unique_id.1).2 with
      | none => simp [h1] at h
      | some q1 =>
          obtain ⟨o1, infa⟩ := q1
          obtain ⟨hca, hba, hta⟩ := ih _ o1 infa hbe h1
          rw [hce] at hca
          cases o1 with
          | error e =>
              simp only [h1, Option.some.injEq, Prod.mk.injEq] at h
              obtain ⟨e1, e2⟩ := h
              subst e1 e2
              obtain ⟨g1, g2, _⟩ := session_below_leave
                (scoped_non_generic_variable.enter
                  { inf with m_environment := inf.m_environment.unique_id.2 } param
                  inf.m_environment.unique_id.1).1 hba
              refine ⟨?_, g1, fun t ht => by cases ht⟩
              rw [g2]; omega
          | ok body_type =>
              simp only [h1] at h
              obtain ⟨hbody, _⟩ := hta body_type rfl
              cases h2 : inferencer.unify_and_resolve fuel
                  { infa with m_environment := infa.m_environment.unique_id.2 }
                  (.var infa.m_environment.unique_id.1)
                  (make_function (.var inf.m_environment.unique_id.1) body_type)
                  infa.m_environment.unique_id.1 with
              | none => simp [h2] at h
              | some q2 =>
                  obtain ⟨o2, infb⟩ := q2
                  simp only [h2, Option.some.injEq, Prod.mk.injEq] at h
                  obtain ⟨e1, e2⟩ := h
                  subst e1 e2
                  have hstate : inferencer.session_below
                      { infa with m_environment := infa.m_environment.unique_id.2 } :=
                    ⟨substitution_below_mono (Nat.le_succ _) hba.1,
                      fun n hn => Nat.lt_succ_of_lt (hba.2 n hn)⟩
                  have harg : inf.m_environment.unique_id.1 <
                      infa.m_environment.unique_id.2.m_next_id := by
                    simp only [environment.unique_id]; omega
                  obtain ⟨henv, hb3, ht3⟩ := unify_and_resolve_session hstate
                    (below_var.2 (Nat.lt_succ_self _))
                    (below_make_function (below_var.2 harg)
                      (below_mono (Nat.le_succ _) hbody))
                    (Nat.lt_succ_self _) h2
                  obtain ⟨g1, g2, g3⟩ := session_below_leave
                    (scoped_non_generic_variable.enter
                      { inf with m_environment := inf.m_environment.unique_id.2 } param
                      inf.m_environment.unique_id.1).1 hb3
                  refine ⟨?_, g1, fun t ht => ?_⟩
                  · rw [g2, henv]
                    simp only [environment.unique_id]; omega
                  · obtain ⟨k1, k2, k3⟩ := ht3 t ht
                    rw [g2, g3]
                    exact ⟨k1, fun _ => ⟨k2, k3⟩⟩
  | let_ name defn body ihd ihb =>
      intro inf o inf1 hb h
      simp only [inferencer.visit] at h
      cases h1 : inferencer.visit fuel defn inf with
      | none => simp [h1] at h
      | some q1 =>
          obtain ⟨o1, infa⟩ := q1
          obtain ⟨hca, hba, hta⟩ := ihd inf o1 infa hb h1
          cases o1 with
          | error e =>
              simp only [h1, Option.some.injEq, Prod.mk.injEq] at h
              obtain ⟨e1, e2⟩ := h
              subst e1 e2
              exact ⟨hca, hba, fun t ht => by cases ht⟩
          | ok defn_type =>
              simp only [h1] at h
              obtain ⟨_, hsa⟩ := hta defn_type rfl
              have hstate : inferencer.session_below
                  { infa with m_environment :=
                      (scoped_generic.enter infa.m_environment name defn_type).2 } := by
                refine ⟨?_, ?_⟩
                · simp only [scoped_generic_enter_counter]; exact hba.1
                · simp only [scoped_generic_enter_counter]; exact hba.2
              cases h2 : inferencer.visit fuel body
                  { infa with m_environment :=
                      (scoped_generic.enter infa.m_environment name defn_type).2 } with
              | none => simp [h2] at h
              | some q2 =>
                  obtain ⟨o2, infb⟩ := q2
                  obtain ⟨hcb, hbb, htb⟩ := ihb _ o2 infb hstate h2
                  simp only [scoped_generic_enter_counter] at hcb
                  simp only [h2, Option.some.injEq, Prod.mk.injEq] at h
                  obtain ⟨e1, e2⟩ := h
                  subst e1 e2
                  refine ⟨?_, ⟨?_, ?_⟩, fun t ht => ?_⟩
                  · simp only [scoped_generic_leave_counter]; omega
                  · simp only [scoped_generic_leave_counter]; exact hbb.1
                  · simp only [scoped_generic_leave_counter]; exact hbb.2
                  · obtain ⟨k1, k2⟩ := htb t ht
                    simp only [scoped_generic_leave_counter]
                    exact ⟨k1, fun hs => k2 (hsa hs).1⟩
  | letrec name defn body ihd ihb =>
      intro inf o inf1 hb h
      simp only [inferencer.visit] at h
      obtain ⟨hbe, hce, hse⟩ := session_below_enter name hb
      cases h1 : inferencer.visit fuel defn (scoped_non_generic_variable.enter
          { inf with m_environment := inf.m_environment.unique_id.2 } name
          inf.m_environment.unique_id.1).2 with
      | none => simp [h1] at h
      | some q1 =>
          obtain ⟨o1, infa⟩ := q1
          obtain ⟨hca, hba, hta⟩ := ihd _ o1 infa hbe h1
          rw [hce] at hca
          cases o1 with
          | error e =>
              simp only [h1, Option.some.injEq, Prod.mk.injEq] at h
              obtain ⟨e1, e2⟩ := h
              subst e1 e2
              obtain ⟨g1, g2, _⟩ := session_below_leave
                (scoped_non_generic_variable.enter
                  { inf with m_environment := inf.m_environment.unique_id.2 } name
                  inf.m_environment.unique_id.1).1 hba
              refine ⟨?_, g1, fun t ht => by cases ht⟩
              rw [g2]; omega
          | ok definition_type =>
              simp only [h1] at h
              obtain ⟨hdef, _⟩ := hta definition_type rfl
              have hnew : below infa.m_environment.m_next_id
                  (.var inf.m_environment.unique_id.1) :=
                below_var.2 (by simp only [environment.unique_id]; omega)
              cases h2 : unify_pair fuel (.var inf.m_environment.unique_id.1) definition_type
                  infa.m_substitution with
              | none => simp [h2] at h
              | some res =>
                  have hres := below_unify_pair hnew hdef hba.1 h2
                  cases res with
                  | threw e sub =>
                      simp only [h2, Option.some.injEq, Prod.mk.injEq] at h
                      obtain ⟨e1, e2⟩ := h
                      subst e1 e2
                      have hstate : inferencer.session_below { infa with m_substitution := sub } :=
                        ⟨hres, hba.2⟩
                      obtain ⟨g1, g2, _⟩ := session_below_leave
                        (scoped_non_generic_variable.enter
                          { inf with m_environment := inf.m_environment.unique_id.2 } name
                          inf.m_environment.unique_id.1).1 hstate
                      refine ⟨?_, g1, fun t ht => by cases ht⟩
                      rw [g2]; show inf.m_environment.m_next_id ≤ infa.m_environment.m_next_id
                      omega
                  | returned sub =>
                      simp only [h2] at h
                      have hstate : inferencer.session_below { infa with m_substitution := sub } :=
                        ⟨hres, hba.2⟩
                      have hsolved : solved sub := (unify_returned_inv h2).2
                      cases h3 : inferencer.visit fuel body { infa with m_substitution := sub } with
                      | none => simp [h3] at h
                      | some q3 =>
                          obtain ⟨o3, infc⟩ := q3
                          obtain ⟨hcc, hbc, htc⟩ := ihb _ o3 infc hstate h3
                          simp only [h3, Option.some.injEq, Prod.mk.injEq] at h
                          obtain ⟨e1, e2⟩ := h
                          subst e1 e2
                          obtain ⟨g1, g2, g3⟩ := session_below_leave
                            (scoped_non_generic_variable.enter
                              { inf with m_environment := inf.m_environment.unique_id.2 } name
                              inf.m_environment.unique_id.1).1 hbc
                          refine ⟨?_, g1, fun t ht => ?_⟩
                          · rw [g2]
                            have : infa.m_environment.m_next_id ≤ infc.m_environment.m_next_id :=
                              hcc
                            omega
                          · obtain ⟨k1, k2⟩ := htc t ht
                            rw [g2, g3]
                            exact ⟨k1, fun _ => k2 hsolved⟩

/-! ## The freshness invariant along an inference -/

theorem environment_below_frame {env env1 : environment}
    (hb : env1.bindings = env.bindings) (hc : env.m_next_id ≤ env1.m_next_id)
    (h : env.below) : env1.below := by
  intro name t ht
  rw [hb] at ht
  exact below_mono hc (h name t ht)

theorem environment_below_assign {env : environment} {name : String} {t : type}
    (h : env.below) (ht : below env.m_next_id t) : (env.assign name t).below := by
  intro n t1 h1
  simp only [environment.assign] at h1
  show below env.m_next_id t1
  by_cases hn : n = name
  · simp only [hn, if_true, Option.some.injEq] at h1
    rw [← h1]; exact ht
  · simp only [hn, if_false] at h1
    exact h n t1 h1

/-- Entering the scope of a freshly minted variable keeps the freshness invariant. -/
theorem fresh_inv_enter {inf : inferencer} (name : String) (h : inf.fresh_inv) :
    (scoped_non_generic_variable.enter
      { inf with m_environment := inf.m_environment.unique_id.2 } name
      inf.m_environment.unique_id.1).2.fresh_inv := by
  refine ⟨?_, (session_below_enter name h.2).1⟩
  show environment.below (scoped_generic.enter inf.m_environment.unique_id.2 name
    (.var inf.m_environment.unique_id.1)).2
  rw [scoped_generic_enter_snd]
  apply environment_below_assign
  · exact @environment_below_frame inf.m_environment inf.m_environment.unique_id.2 rfl
      (Nat.le_succ _) h.1
  · exact below_var.2 (Nat.lt_succ_self _)

/-- A rule keeps the freshness invariant, on return and on a throw, never lowers the
counter, and returns a type below the counter. -/
theorem visit_fresh_inv {fuel : Nat} {e : node} {inf inf1 : inferencer}
    {o : Except exception type} (h : inf.fresh_inv)
    (hv : inferencer.visit fuel e inf = some (o, inf1)) :
    inf.m_environment.m_next_id ≤ inf1.m_environment.m_next_id ∧ inf1.fresh_inv ∧
      ∀ t, o = .ok t → below inf1.m_environment.m_next_id t := by
  obtain ⟨hc, hb, ht⟩ := visit_session fuel e inf o inf1 h.2 hv
  exact ⟨hc, ⟨environment_below_frame (visit_frame fuel e inf o inf1 hv).1 hc h.1, hb⟩,
    fun t e1 => (ht t e1).1⟩

/-- The freshness invariant holds wherever a rule is started. -/
theorem activation_fresh_inv {fuel : Nat} {e e1 : node} {inf p : inferencer}
    (ha : activation fuel e inf e1 p) (h : inf.fresh_inv) : p.fresh_inv := by
  induction ha with
  | here e inf => exact h
  | apply_function _ ih => exact ih h
  | apply_argument hv _ ih => exact ih (visit_fresh_inv h hv).2.1
  | lambda_body _ ih => exact ih (fresh_inv_enter _ h)
  | let_definition _ ih => exact ih h
  | let_body hv _ ih =>
      obtain ⟨_, h1, ht⟩ := visit_fresh_inv h hv
      apply ih
      refine ⟨?_, ?_, ?_⟩
      · show environment.below (scoped_generic.enter _ _ _).2
        rw [scoped_generic_enter_snd]
        exact environment_below_assign h1.1 (ht _ rfl)
      · simp only [scoped_generic_enter_counter]; exact h1.2.1
      · simp only [scoped_generic_enter_counter]; exact h1.2.2
  | letrec_definition _ ih => exact ih (fresh_inv_enter _ h)
  | @letrec_body name definition body inf inf1 definition_type sub e1 p hv hu _ ih =>
      obtain ⟨hc, h1, ht⟩ := visit_fresh_inv (fresh_inv_enter name h) hv
      rw [(session_below_enter name h.2).2.1] at hc
      apply ih
      refine ⟨h1.1, ?_, h1.2.2⟩
      exact below_unify_pair (below_var.2 (by simp only [environment.unique_id]; omega))
        (ht _ rfl) h1.2.1 hu

/-- The substitution is in solved form, and the session below the counter, wherever a rule
is started, whatever the environment holds. -/
theorem activation_solved {fuel : Nat} {e e1 : node} {inf p : inferencer}
    (ha : activation fuel e inf e1 p) (hb : inf.session_below)
    (hs : solved inf.m_substitution) : p.session_below ∧ solved p.m_substitution := by
  induction ha with
  | here e inf => exact ⟨hb, hs⟩
  | apply_function _ ih => exact ih hb hs
  | apply_argument hv _ ih =>
      obtain ⟨_, h1, ht⟩ := visit_session _ _ _ _ _ hb hv
      exact ih h1 ((ht _ rfl).2 hs).1
  | @lambda_body parameter body inf e1 p _ ih =>
      obtain ⟨h1, _, h3⟩ := session_below_enter parameter hb
      exact ih h1 (by rw [h3]; exact hs)
  | let_definition _ ih => exact ih hb hs
  | let_body hv _ ih =>
      obtain ⟨_, h1, ht⟩ := visit_session _ _ _ _ _ hb hv
      apply ih
      · refine ⟨?_, ?_⟩
        · simp only [scoped_generic_enter_counter]; exact h1.1
        · simp only [scoped_generic_enter_counter]; exact h1.2
      · exact ((ht _ rfl).2 hs).1
  | @letrec_definition name definition body inf e1 p _ ih =>
      obtain ⟨h1, _, h3⟩ := session_below_enter name hb
      exact ih h1 (by rw [h3]; exact hs)
  | @letrec_body name definition body inf inf1 definition_type sub e1 p hv hu _ ih =>
      obtain ⟨h0, hce, _⟩ := session_below_enter name hb
      obtain ⟨hc, h1, ht⟩ := visit_session _ _ _ _ _ h0 hv
      rw [hce] at hc
      apply ih
      · refine ⟨?_, h1.2⟩
        exact below_unify_pair (below_var.2 (by simp only [environment.unique_id]; omega))
          (ht _ rfl).1 h1.1 hu
      · exact (unify_returned_inv hu).2

/-- The session stays below the counter wherever the overload of a `fresh_maker` for a
type variable is invoked, mappings included. -/
theorem variable_visit_below {fuel : Nat} {fm q : fresh_maker} {x : type} {w : Nat}
    (hv : variable_visit fuel fm x q w) (h : fm.below) : fm.frame q ∧ q.below := by
  induction hv with
  | direct _ => exact ⟨frame_refl _, h⟩
  | operator_child htr _ ih =>
      obtain ⟨hf, hb, _⟩ := transform_below (call_below _) _ _ _ _ h htr
      obtain ⟨hf1, hb1⟩ := ih hb
      exact ⟨frame_trans _ _ _ hf hf1, hb1⟩
  | resolved_child _ htr _ ih =>
      obtain ⟨hf, hb, _⟩ := transform_below (call_below _) _ _ _ _ h htr
      obtain ⟨hf1, hb1⟩ := ih hb
      exact ⟨frame_trans _ _ _ hf hf1, hb1⟩

/-- Under the freshness invariant every variable in use is below the counter. -/
theorem in_use_lt {inf : inferencer} (h : inf.fresh_inv) {v : Nat} (hv : inf.in_use v) :
    v < inf.m_environment.m_next_id := by
  rcases hv with ⟨name, t, hb, ho⟩ | ⟨b, hb, hk | ho⟩ | hn
  · exact h.1 name t hb v ho
  · rw [← hk]; exact (h.2.1 b hb).1
  · exact (h.2.1 b hb).2 v ho
  · exact h.2.2 v hn

theorem infer_type_returned {fuel : Nat} {e : node} {env : environment} {t : type}
    (h : infer_type fuel e env = some (.ok t)) :
    ∃ p1, inferencer.visit fuel e ⟨env, [], []⟩ = some (.ok t, p1) := by
  unfold infer_type at h
  cases hv : inferencer.visit fuel e ⟨env, [], []⟩ with
  | none => simp [hv] at h
  | some q =>
      obtain ⟨o, p1⟩ := q
      simp only [hv, Option.some.injEq] at h
      subst h
      exact ⟨p1, rfl⟩

theorem demo_environment_below : demo_environment.below := by
  intro name t h
  simp only [demo_environment, environment.assign, environment.unique_id,
    environment.empty] at h
  split_ifs at h
  all_goals first
    | (cases h; done)
    | (cases h
       intro v hv
       show v < 3
       simp [make_function, pair, boolean, integer, occurs, occurs_list] at hv <;> omega)

/-! ## The two invariants of a session -/

/-- C25. Freshness invariant of the id counter. Let every type variable occurring in the
types of the environment `env` be below its counter when `infer_type` starts on `e`.
Then wherever a rule is started during the inference (on a sub-expression `e1`, in the
state `p`), every type variable occurring in the environment, in the keys and values of
the substitution and in the non-generic set is below the counter, so the id `unique_id`
would return differs from every variable in use. When the rule has finished, with a type
or with an exception, the same holds of the state it leaves, the counter has not gone
down, and a returned type is below the counter as well. And wherever the instantiation of
an identifier visits a type variable, the same holds there, the variables minted so far
included. -/
theorem freshness_invariant (fuel : Nat) (e : node) (env : environment) (henv : env.below)
    (e1 : node) (p : inferencer) (ha : activation fuel e ⟨env, [], []⟩ e1 p) :
    p.fresh_inv ∧ (∀ v, p.in_use v → v ≠ p.m_environment.unique_id.1) ∧
    (∀ o p1, inferencer.visit fuel e1 p = some (o, p1) →
      p.m_environment.m_next_id ≤ p1.m_environment.m_next_id ∧ p1.fresh_inv ∧
      (∀ t, o = .ok t → below p1.m_environment.m_next_id t) ∧
      (∀ v, (p1.in_use v ∨ ∃ t, o = .ok t ∧ occurs t v = true) →
        v ≠ p1.m_environment.unique_id.1)) ∧
    (∀ name freshen_me q w, e1 = .identifier name →
      p.m_environment.find name = some freshen_me →
      variable_visit fuel
        ⟨p.m_environment, p.m_non_generic_variables, p.m_substitution, fun _ => none⟩
        freshen_me q w →
      inferencer.fresh_inv ⟨q.m_env, q.m_non_generic, q.m_substitution⟩ ∧
      (∀ v, (inferencer.in_use ⟨q.m_env, q.m_non_generic, q.m_substitution⟩ v ∨
          ∃ u, q.m_mappings u = some v) → v ≠ q.m_env.unique_id.1)) := by
  have hp : p.fresh_inv :=
    activation_fresh_inv ha ⟨henv, fun b hb => by simp at hb, fun n hn => by simp at hn⟩
  refine ⟨hp, fun v hv => Nat.ne_of_lt (in_use_lt hp hv), ?_, ?_⟩
  · intro o p1 hv
    obtain ⟨hc, h1, ht⟩ := visit_fresh_inv hp hv
    refine ⟨hc, h1, ht, ?_⟩
    rintro v (hu | ⟨t, ho, hocc⟩)
    · exact Nat.ne_of_lt (in_use_lt h1 hu)
    · exact Nat.ne_of_lt (ht t ho v hocc)
  · intro name freshen_me q w _ _ hq
    obtain ⟨hf, hb⟩ := variable_visit_below hq
      ⟨hp.2.1, hp.2.2, fun w u hw => by simp at hw⟩
    have hq1 : inferencer.fresh_inv ⟨q.m_env, q.m_non_generic, q.m_substitution⟩ :=
      ⟨environment_below_frame hf.1 hf.2.2.2 hp.1, hb.1, hb.2.1⟩
    refine ⟨hq1, ?_⟩
    rintro v (hu | ⟨u, hm⟩)
    · exact Nat.ne_of_lt (in_use_lt hq1 hu)
    · exact Nat.ne_of_lt (hb.2.2 u v hm)

/-- Witness of C25: `let f = fn x => x in pair (f 4) (f true)` in the demo environment,
whose three variables are below its counter 3; the rule of the whole expression returns a
type and leaves a state with every variable below the counter. -/
theorem freshness_invariant_witness :
    demo_environment.below ∧
      ∃ t p1, inferencer.visit 30 demo_let_f ⟨demo_environment, [], []⟩ = some (.ok t, p1) ∧
        3 ≤ p1.m_environment.m_next_id ∧ p1.fresh_inv ∧
        below p1.m_environment.m_next_id t := by
  have h : infer_type 30 demo_let_f demo_environment = some (.ok (pair integer boolean)) := by
    decide!
  obtain ⟨p1, hv⟩ := infer_type_returned h
  have hw := (freshness_invariant 30 demo_let_f demo_environment demo_environment_below
    demo_let_f ⟨demo_environment, [], []⟩ (activation.here _ _)).2.2.1 _ p1 hv
  exact ⟨demo_environment_below, _, p1, hv, hw.1, hw.2.1, hw.2.2.1 _ rfl⟩

/-- C26. Returned types are fully resolved. For every expression `e` and every
environment `env`, whenever a rule started during `infer_type` of `e` in `env` (the rule
of a literal, identifier, application, lambda, let or letrec `e1`) returns a type, no key
of the substitution at that moment occurs in the returned type. In particular the type
returned by `infer_type` contains no variable bound by the final substitution of the
session. -/
theorem returned_types_resolved :
    (∀ (fuel : Nat) (e : node) (env : environment) (e1 : node) (p : inferencer) (t : type)
        (p1 : inferencer), activation fuel e ⟨env, [], []⟩ e1 p →
      inferencer.visit fuel e1 p = some (.ok t, p1) →
      ∀ b ∈ p1.m_substitution, occurs t b.1 = false) ∧
    (∀ (fuel : Nat) (e : node) (env : environment) (t : type),
      infer_type fuel e env = some (.ok t) →
      ∃ p1, inferencer.visit fuel e ⟨env, [], []⟩ = some (.ok t, p1) ∧
        ∀ b ∈ p1.m_substitution, occurs t b.1 = false) := by
  have key : ∀ (fuel : Nat) (e : node) (env : environment) (e1 : node) (p : inferencer)
      (t : type) (p1 : inferencer), activation fuel e ⟨env, [], []⟩ e1 p →
      inferencer.visit fuel e1 p = some (.ok t, p1) →
      ∀ b ∈ p1.m_substitution, occurs t b.1 = false := by
    intro fuel e env e1 p t p1 ha hv
    obtain ⟨hb, hs⟩ := activation_solved ha
      ⟨fun b hb => by simp at hb, fun n hn => by simp at hn⟩ (fun b hb => by simp at hb)
    exact (((visit_session fuel e1 p _ p1 hb hv).2.2 t rfl).2 hs).2
  refine ⟨key, ?_⟩
  intro fuel e env t h
  obtain ⟨p1, hv⟩ := infer_type_returned h
  exact ⟨p1, hv, key fuel e env e ⟨env, [], []⟩ t p1 (activation.here _ _) hv⟩

/-- Witness of C26: `fn g => let f = fn x => g in pair (f 3) (f true)` in the demo
environment. The rule of the whole expression returns `function(7, pair(7, 7))`; the rule
of its body, started inside the scope of `g`, returns `pair(7, 7)` with a substitution
that binds the variable 3 of `g` to 7. -/
theorem returned_types_resolved_witness :
    infer_type 30 demo_fn_g demo_environment =
        some (.ok (make_function (.var 7) (pair (.var 7) (.var 7)))) ∧
      (∃ p1, inferencer.visit 30 demo_fn_g ⟨demo_environment, [], []⟩ =
          some (.ok (make_function (.var 7) (pair (.var 7) (.var 7))), p1) ∧
        ∀ b ∈ p1.m_substitution,
          occurs (make_function (.var 7) (pair (.var 7) (.var 7))) b.1 = false) ∧
      ∃ p p1,
        activation 30 demo_fn_g ⟨demo_environment, [], []⟩
          (.let_ "f" (.lambda "x" (.identifier "g"))
            (.apply
              (.apply (.identifier "pair") (.apply (.identifier "f") (.integer_literal 3)))
              (.apply (.identifier "f") (.identifier "true")))) p ∧
        inferencer.visit 30
          (.let_ "f" (.lambda "x" (.identifier "g"))
            (.apply
              (.apply (.identifier "pair") (.apply (.identifier "f") (.integer_literal 3)))
              (.apply (.identifier "f") (.identifier "true")))) p =
            some (.ok (pair (.var 7) (.var 7)), p1) ∧
        (3, type.var 7) ∈ p1.m_substitution ∧
        ∀ b ∈ p1.m_substitution, occurs (pair (.var 7) (.var 7)) b.1 = false := by
  have h : infer_type 30 demo_fn_g demo_environment =
      some (.ok (make_function (.var 7) (pair (.var 7) (.var 7)))) := by
    decide!
  have hm : (inferencer.visit 30
      (.let_ "f" (.lambda "x" (.identifier "g"))
        (.apply
          (.apply (.identifier "pair") (.apply (.identifier "f") (.integer_literal 3)))
          (.apply (.identifier "f") (.identifier "true"))))
      (scoped_non_generic_variable.enter
        { (⟨demo_environment, [], []⟩ : inferencer) with
          m_environment := demo_environment.unique_id.2 } "g"
        demo_environment.unique_id.1).2).map (fun q => (q.1, q.2.m_substitution.head?)) =
      some (.ok (pair (.var 7) (.var 7)), some (3, type.var 7)) := by
    decide!
  have ha : activation 30 demo_fn_g ⟨demo_environment, [], []⟩
      (.let_ "f" (.lambda "x" (.identifier "g"))
        (.apply
          (.apply (.identifier "pair") (.apply (.identifier "f") (.integer_literal 3)))
          (.apply (.identifier "f") (.identifier "true"))))
      (scoped_non_generic_variable.enter
        { (⟨demo_environment, [], []⟩ : inferencer) with
          m_environment := demo_environment.unique_id.2 } "g"
        demo_environment.unique_id.1).2 :=
    activation.lambda_body (activation.here _ _)
  obtain ⟨q, hq, hq1⟩ := Option.map_eq_some'.1 hm
  obtain ⟨o, p1⟩ := q
  simp only [Prod.mk.injEq] at hq1
  obtain ⟨ho, hhead⟩ := hq1
  subst ho
  exact ⟨h, returned_types_resolved.2 30 demo_fn_g demo_environment _ h, _, p1, ha, hq,
    List.mem_of_mem_head? hhead,
    returned_types_resolved.1 30 demo_fn_g demo_environment _ _ _ p1 ha hq⟩

end inference

namespace unification

open inference

/-! ## Self-unification on an acyclic substitution -/

mutual
theorem assign_assign (θ σ : Nat → type) :
    ∀ t : type, assign θ (assign σ t) = assign (fun v => assign θ (σ v)) t
  | .var v => by simp only [assign]
  | .op k ts => by
      rw [assign, assign, assign, assign_list_assign θ σ ts]
theorem assign_list_assign (θ σ : Nat → type) :
    ∀ ts : List type,
      assign_list θ (assign_list σ ts) = assign_list (fun v => assign θ (σ v)) ts
  | [] => by simp [assign_list]
  | t :: ts => by
      rw [assign_list, assign_list, assign_list, assign_assign θ σ t,
        assign_list_assign θ σ ts]
end

/-- Applying `s` to a type `n` times is assigning to each of its variables what `n`
applications of `s` make of it. -/
theorem iterate_apply (s : substitution) :
    ∀ (n : Nat) (t : type), (apply s)^[n] t = assign (fun v => (apply s)^[n] (.var v)) t
  | 0, t => by
      simp only [Function.iterate_zero, id_eq]
      exact (assign_var t).symm
  | n + 1, t => by
      rw [Function.iterate_succ_apply, iterate_apply s n (apply s t)]
      show assign _ (assign (binding s) t) = _
      rw [assign_assign]
      congr 1
      funext v
      rw [Function.iterate_succ_apply, iterate_apply s n (apply s (.var v))]
      rfl

theorem iterate_clean {s : substitution} {t : type} (h : ∀ e ∈ s, occurs t e.1 = false)
    (n : Nat) : (apply s)^[n] t = t :=
  Function.iterate_fixed (assign_binding_of_no_key s t h) n

theorem iterate_stable {s : substitution} {t : type} {N n : Nat}
    (h : ∀ e ∈ s, occurs ((apply s)^[N] t) e.1 = false) (hle : N ≤ n) :
    (apply s)^[n] t = (apply s)^[N] t := by
  obtain ⟨m, rfl⟩ := Nat.exists_eq_add_of_le hle
  rw [Nat.add_comm, Function.iterate_add_apply]
  exact iterate_clean h m

/-- In an acyclic substitution, applying the substitution to a variable often enough
leaves a type in which no key occurs. -/
theorem resolution_exists (s : substitution) (h : acyclic s) :
    ∀ v, ∃ N, ∀ e ∈ s, occurs ((apply s)^[N] (.var v)) e.1 = false := by
  refine acyclic_induction (s := s) (R := binds s)
    (P := fun v => ∃ N, ∀ e ∈ s, occurs ((apply s)^[N] (.var v)) e.1 = false)
    (fun k w hkw => key_of_binds hkw) h ?_
  intro k ih
  cases hf : map_find s k with
  | none =>
      refine ⟨0, fun e he => ?_⟩
      have := map_find_eq_none_iff.1 hf e he
      simp only [Function.iterate_zero, id_eq, occurs, beq_eq_false_iff_ne, ne_eq]
      exact fun e1 => this e1.symm
  | some val =>
      have ih1 : ∀ w, ∃ N, occurs val w = true →
          ∀ e ∈ s, occurs ((apply s)^[N] (.var w)) e.1 = false := by
        intro w
        by_cases hw : occurs val w = true
        · obtain ⟨N, hN⟩ := ih w ⟨val, hf, hw⟩
          exact ⟨N, fun _ => hN⟩
        · exact ⟨0, fun h1 => absurd h1 hw⟩
      choose f hf1 using ih1
      refine ⟨(vars val).sup f + 1, fun e he => ?_⟩
      have hk : apply s (.var k) = val := by simp [apply, assign, binding, hf]
      rw [Function.iterate_succ_apply, hk, iterate_apply]
      by_contra hc
      rw [Bool.not_eq_false] at hc
      obtain ⟨w, hw, hw1⟩ := occurs_assign_cases _ _ _ hc
      have hle : f w ≤ (vars val).sup f := Finset.le_sup ((occurs_iff_mem_vars val w).1 hw)
      rw [iterate_stable (hf1 w hw) hle, hf1 w hw e he] at hw1
      cases hw1

/-- The bindings of an acyclic well-formed map have a solution: the full resolution of
every variable. -/
theorem acyclic_solution {s : substitution} (ho : ordered s) (h : acyclic s) :
    ∃ θ : Nat → type, ∀ e ∈ s, θ e.1 = assign θ e.2 := by
  choose f hf using resolution_exists s h
  have hclean : ∀ v, ∀ e ∈ s,
      occurs ((apply s)^[(s.map Prod.fst).toFinset.sup f] (.var v)) e.1 = false := by
    intro v
    by_cases hv : ∃ e ∈ s, e.1 = v
    · obtain ⟨e0, he0, rfl⟩ := hv
      have hle : f e0.1 ≤ (s.map Prod.fst).toFinset.sup f :=
        Finset.le_sup (by
          rw [List.mem_toFinset, List.mem_map]
          exact ⟨e0, he0, rfl⟩)
      rw [iterate_stable (hf e0.1) hle]
      exact hf e0.1
    · have hc : ∀ e ∈ s, occurs (.var v) e.1 = false := by
        intro e he
        simp only [occurs, beq_eq_false_iff_ne, ne_eq]
        exact fun e1 => hv ⟨e, he, e1.symm⟩
      rw [iterate_clean hc]
      exact hc
  refine ⟨fun v => (apply s)^[(s.map Prod.fst).toFinset.sup f] (.var v), ?_⟩
  intro e he
  obtain ⟨k, val⟩ := e
  show (apply s)^[(s.map Prod.fst).toFinset.sup f] (.var k) = assign _ val
  rw [← iterate_apply s _ val]
  have h1 : apply s ((apply s)^[(s.map Prod.fst).toFinset.sup f] (.var k)) =
      (apply s)^[(s.map Prod.fst).toFinset.sup f] (.var k) :=
    assign_binding_of_no_key s _ (hclean k)
  have hk : apply s (.var k) = val := by simp [apply, assign, binding, map_find_of_mem ho he]
  rw [← h1, ← Function.iterate_succ_apply' (apply s), Function.iterate_succ_apply, hk]

/-- Re-examining entries never makes a new key: when the stack holds, on top of
constraints whose two sides are the same type, entries with distinct keys, every key of
the substitution the loop returns was a key of the substitution or of an entry. -/
theorem run_entries_keys (fuel : Nat) :
    ∀ (r : List (Nat × type)) (σ : substitution) (rest : List constraint) (s1 : substitution),
      r.Pairwise (fun a b => a.1 ≠ b.1) → (∀ c ∈ rest, c.1 = c.2) →
      unifier.run fuel ⟨r.map (fun e => (type.var e.1, e.2)) ++ rest, σ⟩ = some (.returned s1) →
      ∀ e ∈ s1, (∃ e0 ∈ σ, e0.1 = e.1) ∨ (∃ e0 ∈ r, e0.1 = e.1) := by
  induction fuel with
  | zero =>
      intro r σ rest s1 _ hid h e he
      cases r with
      | nil =>
          have := run_identical (u := ⟨rest, σ⟩) hid (by simpa using h)
          injection this with this
          subst this
          exact Or.inl ⟨e, he, rfl⟩
      | cons a r1 =>
          rw [List.map_cons, List.cons_append, run_zero_cons] at h
          cases h
  | succ n ih =>
      intro r σ rest s1 hpw hid h e he
      cases r with
      | nil =>
          have := run_identical (u := ⟨rest, σ⟩) hid (by simpa using h)
          injection this with this
          subst this
          exact Or.inl ⟨e, he, rfl⟩
      | cons a r1 =>
          obtain ⟨k, v⟩ := a
          rw [List.map_cons, List.cons_append] at h
          have hpw1 := (List.pairwise_cons.1 hpw)
          by_cases hsame : v = .var k
          · subst hsame
            have hv : visit ⟨r1.map (fun e => (type.var e.1, e.2)) ++ rest, σ⟩ (.var k) (.var k) =
                .ok ⟨r1.map (fun e => (type.var e.1, e.2)) ++ rest, σ⟩ := by
              simp [visit]
            rw [run_succ_cons_ok hv] at h
            rcases ih r1 σ rest s1 hpw1.2 hid h e he with h1 | ⟨e0, he0, h2⟩
            · exact Or.inl h1
            · exact Or.inr ⟨e0, List.mem_cons_of_mem _ he0, h2⟩
          · cases hv : visit ⟨r1.map (fun e => (type.var e.1, e.2)) ++ rest, σ⟩ (.var k) v with
            | error err =>
                rw [run_succ_cons_error hv] at h
                cases h
            | ok u1 =>
                have hu1 : u1 =
                    eliminate ⟨r1.map (fun e => (type.var e.1, e.2)) ++ rest, σ⟩ k v := by
                  cases v with
                  | var w =>
                      have hkw : k ≠ w := fun e1 => hsame (by rw [e1])
                      simp only [visit, hkw, ne_eq, not_false_eq_true, if_true] at hv
                      injection hv with hv
                      exact hv.symm
                  | op l ts =>
                      simp only [visit] at hv
                      split_ifs at hv
                      injection hv with hv
                      exact hv.symm
                rw [run_succ_cons_ok hv, hu1] at h
                have hstack : eliminate ⟨r1.map (fun e => (type.var e.1, e.2)) ++ rest, σ⟩ k v =
                    ⟨(r1.map (fun e => (e.1, replace e.2 k v))).map
                        (fun e => (type.var e.1, e.2)) ++
                      rest.map (fun c => (replace c.1 k v, replace c.2 k v)),
                      map_assign (σ.map (fun e => (e.1, replace e.2 k v))) k v⟩ := by
                  simp only [eliminate, List.map_append, List.map_map]
                  congr 2
                  apply List.map_congr_left
                  intro e1 he1
                  have hne : e1.1 ≠ k := fun e2 => hpw1.1 e1 he1 e2.symm
                  simp [replace, hne]
                rw [hstack] at h
                have hpw2 : (r1.map (fun e => (e.1, replace e.2 k v))).Pairwise
                    (fun a b => a.1 ≠ b.1) :=
                  List.Pairwise.map _ (fun a b hab => hab) hpw1.2
                have hid2 : ∀ c ∈ rest.map (fun c => (replace c.1 k v, replace c.2 k v)),
                    c.1 = c.2 := by
                  intro c hc
                  obtain ⟨c0, hc0, rfl⟩ := List.mem_map.1 hc
                  show replace c0.1 k v = replace c0.2 k v
                  rw [hid c0 hc0]
                rcases ih _ _ _ s1 hpw2 hid2 h e he with ⟨e0, he0, h1⟩ | ⟨e0, he0, h1⟩
                · rcases mem_map_assign he0 with rfl | hm
                  · exact Or.inr ⟨(k, v), List.mem_cons_self _ _, h1⟩
                  · obtain ⟨e2, he2, rfl⟩ := List.mem_map.1 hm
                    exact Or.inl ⟨e2, he2, h1⟩
                · obtain ⟨e2, he2, rfl⟩ := List.mem_map.1 he0
                  exact Or.inr ⟨e2, List.mem_cons_of_mem _ he2, h1⟩

/-- A self-unification that returns has made no new key. -/
theorem self_unify_keys {fuel : Nat} {t : type} {s s1 : substitution} (ho : ordered s)
    (h : unify_pair fuel t t s = some (.returned s1)) : ∀ e ∈ s1, ∃ e0 ∈ s, e0.1 = e.1 := by
  intro e he
  have hpw : s.reverse.Pairwise (fun a b => a.1 ≠ b.1) := by
    rw [List.pairwise_reverse]
    exact List.Pairwise.imp (fun hab => Nat.ne_of_gt hab) ho
  have hrun : unifier.run fuel
      ⟨s.reverse.map (fun e => (type.var e.1, e.2)) ++ [(t, t)], []⟩ = some (.returned s1) := by
    simpa [unify_pair, unify, unifier.init, List.map_reverse] using h
  rcases run_entries_keys fuel s.reverse [] [(t, t)] s1 hpw
      (fun c hc => by
        have : c = (t, t) := by simpa using hc
        rw [this]) hrun e he with ⟨e0, he0, _⟩ | ⟨e0, he0, h1⟩
  · simp at he0
  · exact ⟨e0, List.mem_reverse.1 he0, h1⟩

/-- What `definitive` returned on `s` and the variable it was asked are made the same
type by a substitution that satisfies the bindings of `s`. -/
theorem apply_definitive_loop {s s1 : substitution}
    (hsol : ∀ e ∈ s, binding s1 e.1 = apply s1 e.2) :
    ∀ (fuel : Nat) (t d : type), definitive_loop fuel s t = some d → apply s1 d = apply s1 t := by
  intro fuel
  induction fuel with
  | zero =>
      intro t d h
      cases t with
      | op k ts =>
          rw [definitive_loop_op] at h
          injection h with h
          rw [h]
      | var v =>
          cases hf : map_find s v with
          | none =>
              rw [definitive_loop_none _ hf] at h
              injection h with h
              rw [h]
          | some val => simp [definitive_loop, hf] at h
  | succ n ih =>
      intro t d h
      cases t with
      | op k ts =>
          rw [definitive_loop_op] at h
          injection h with h
          rw [h]
      | var v =>
          cases hf : map_find s v with
          | none =>
              rw [definitive_loop_none _ hf] at h
              injection h with h
              rw [h]
          | some val =>
              rw [definitive_loop_some n hf] at h
              rw [ih val d h, apply_var]
              exact (hsol (v, val) (mem_of_map_find hf)).symm

/-- C7, amended. Self-unification on an acyclic substitution: for every type `t` and every
acyclic substitution `s` (a well-formed map), `unify(t, t, s)` returns, and the
substitution `s1` it leaves has no key that was not a key of `s`. For every variable `v`,
`definitive(s, v)` returns some `d`, and `definitive(s1, v)` returns `d` with the keys of
`s1` replaced by their values; so it returns `d` itself whenever no key of `s` occurs in
`d`. When `s` is in solved form, as `unify` produces it, `s1` is `s`. -/
theorem self_unify_noop (t : type) (s : substitution) (ho : ordered s) (hs : acyclic s) :
    ∃ fuel s1, unify_pair fuel t t s = some (.returned s1) ∧
      (∀ e ∈ s1, ∃ e0 ∈ s, e0.1 = e.1) ∧
      (∀ v, ∃ d, (∃ fuel1, definitive fuel1 s v = some d) ∧
        (∀ fuel2, definitive (fuel2 + 1) s1 v = some (apply s1 d)) ∧
        ((∀ e ∈ s, occurs d e.1 = false) → ∀ fuel2, definitive (fuel2 + 1) s1 v = some d)) ∧
      (solved s → s1 = s) := by
  obtain ⟨θ, hθ⟩ := acyclic_solution ho hs
  obtain ⟨fuel, r, hr⟩ := run_terminates (unifier.init [(t, t)] s)
  obtain ⟨s1, rfl, _⟩ := run_of_solves
    ((solves_init_iff θ [(t, t)] s).2 ⟨fun c hc => by
      have : c = (t, t) := by simpa using hc
      rw [this], hθ⟩) hr
  have hu : unify_pair fuel t t s = some (.returned s1) := hr
  have hkeys := self_unify_keys ho hu
  have hsolved : solved s1 := (unify_returned_inv hr).2
  have hsol := (unify_returned_solves hr).2
  refine ⟨fuel, s1, hu, hkeys, ?_, ?_⟩
  · intro v
    obtain ⟨fuel1, d, hd, _⟩ := definitive_loop_terminates (follows_acyclic hs) v
    have hres : ∀ fuel2, definitive (fuel2 + 1) s1 v = some (apply s1 d) := by
      intro fuel2
      rw [definitive_of_solved hsolved, apply_definitive_loop hsol fuel1 (.var v) d hd, apply_var]
    refine ⟨d, ⟨fuel1, hd⟩, hres, fun hclean fuel2 => ?_⟩
    rw [hres fuel2]
    congr 1
    apply assign_binding_of_no_key
    intro e he
    obtain ⟨e0, he0, h0⟩ := hkeys e he
    rw [← h0]
    exact hclean e0 he0
  · intro hsv
    obtain ⟨n, r, hn⟩ := run_terminates ⟨[(apply s t, apply s t)], s⟩
    have hid := run_identical (u := ⟨[(apply s t, apply s t)], s⟩)
      (fun c hc => by
        have : c = (apply s t, apply s t) := by simpa using hc
        rw [this]) hn
    subst hid
    have h2 : unify (n + s.length) [(t, t)] s = some (.returned s) := by
      rw [unify_of_solved s ho hsv]
      simpa using hn
    have := run_det hr h2
    injection this with this

/-- Witness of C7, amended: `unify(function(0, 2), function(0, 2), {0 -> 1, 1 -> int})`,
on an acyclic chain that is not in solved form. The call returns, and `definitive` of the
key `0` is `int` after the call as it was before. -/
theorem self_unify_noop_witness :
    ordered [(0, .var 1), (1, integer)] ∧ acyclic [(0, .var 1), (1, integer)] ∧
      definitive 2 [(0, .var 1), (1, integer)] 0 = some integer ∧
      ∃ fuel s1, unify_pair fuel (make_function (.var 0) (.var 2))
          (make_function (.var 0) (.var 2)) [(0, .var 1), (1, integer)] = some (.returned s1) ∧
        (∀ e ∈ s1, ∃ e0 ∈ [(0, type.var 1), (1, integer)], e0.1 = e.1) ∧
        ∀ fuel2, definitive (fuel2 + 1) s1 0 = some integer := by
  have ho : ordered [(0, .var 1), (1, integer)] := by simp [ordered]
  have hac : acyclic [(0, .var 1), (1, integer)] := by
    refine acyclic_of_rank (fun v => 1 - v) ?_
    rintro k w ⟨v, hf, hocc⟩
    simp only [map_find] at hf
    split_ifs at hf with h0 h1
    · injection hf with hf
      subst hf h0
      have : 1 = w := by simpa [occurs] using hocc
      subst this
      decide
    · injection hf with hf
      subst hf
      simp [integer, occurs, occurs_list] at hocc
  obtain ⟨fuel, s1, hu, hkeys, hdef, _⟩ :=
    self_unify_noop (make_function (.var 0) (.var 2)) [(0, .var 1), (1, integer)] ho hac
  refine ⟨ho, hac, by decide, fuel, s1, hu, hkeys, ?_⟩
  obtain ⟨d, ⟨fuel1, hd⟩, _, hsame⟩ := hdef 0
  have hd1 : d = integer := by
    have h2 : definitive (fuel1 + 2) [(0, .var 1), (1, integer)] 0 = some d :=
      definitive_succ (definitive_succ hd)
    have h3 : definitive (fuel1 + 2) [(0, .var 1), (1, integer)] 0 = some integer := by
      simp [definitive, definitive_loop, map_find, integer]
    rw [h2] at h3
    exact Option.some.inj h3
  subst hd1
  exact hsame (fun e _ => by simp [integer, occurs, occurs_list])

end unification
